import Mathlib

set_option linter.unusedTactic false
set_option linter.unreachableTactic false

/-! The classes `RawMemory<T>` and `Vector<T>` of `vector.h`, as a shallow embedding.

* A raw block is a list of slots; a slot is `none` (uninitialized storage) or
  `some x` (a live object of type `T`).  `RawMemory` owns its block by value, as
  the class owns its pointer exclusively (its copy operations are deleted).
* Pointers and iterators into a block are slot numbers: `begin()` is `0`,
  `pos - begin()` is `pos`.
* Every operation on an element or on the allocator is an event.  The element
  type decides, from the events so far, whether the next one throws; the log
  of events is threaded through every function.
* A function returns `ok` (normal return), `threw` (an exception leaves the
  function, with the state the object is left in), `assertFailed` (an
  `assert` of the source is violated) or `undefined` (the source reads or
  writes outside a block, uses a raw slot as an object, or forms a reversed
  range).
* `size_t` is 64 bits wide.  `Allocate(n)` asks for `n * sizeof(T)` bytes, the
  product taken in `size_t`: when it wraps, the block holds only the slots that
  fit in the bytes asked for, while `capacity_` is `n`.  A request the
  allocator refuses is an `alloc` event that throws.  The counts `size_` and
  `capacity_` themselves are natural numbers: a block of `2^63` objects is
  more than `operator new` provides, so `size_ * 2` stays below `2^64`.
* An argument of `PushBack`, `EmplaceBack`, `Insert`, `Emplace` is an object
  outside the vector or an element of the vector itself, and reaches the
  constructor of the new element with a value category: constructing from an
  rvalue leaves the element it refers to moved-from.
-/

namespace VectorH

/-- The slots of a raw block. -/
abbrev Block (T : Type) := List (Option T)

/-- Operations on elements and on the allocator. -/
inductive Ev where
  | alloc (n : Nat)
  | construct
  | valueCtor
  | copyCtor
  | moveCtor
  | copyAssign
  | moveAssign
  | destroy
  deriving DecidableEq, Repr

/-- The events performed so far, newest first. -/
abbrev Log := List Ev

/-- The largest value of `size_t`, `2^64 - 1`. -/
def SIZE_MAX : Nat := 18446744073709551615

/-- What the templates use of the element type `T`: the value-initialized object `T()`,
the state a move leaves its source in, the object `T{x}` list-initialized from an `x` of
type `T` (a copy of `x`, unless a constructor from `std::initializer_list` takes the list),
`sizeof(T)`, the two traits tested by `if constexpr`, and which operations throw (given the
events before them). -/
structure ElemType (T : Type) where
  value_init : T
  moved_from : T → T
  brace_init : T → T
  sizeof : Nat
  sizeof_pos : 0 < sizeof
  is_nothrow_move_constructible : Bool
  is_copy_constructible : Bool
  throws : Log → Ev → Bool

/-- How a call ends. -/
inductive Res (σ α : Type) where
  | ok (a : α) (s : σ) (l : Log)
  | threw (s : σ) (l : Log)
  | assertFailed
  | undefined
  deriving DecidableEq, Repr

/-- Sequencing: continue after a normal return; an exception propagates, the caller
seeing the state `unwind s`. -/
def Res.bind {σ τ α β : Type} (r : Res σ α) (unwind : σ → τ) (k : α → σ → Log → Res τ β) :
    Res τ β :=
  match r with
  | .ok a s l => k a s l
  | .threw s l => .threw (unwind s) l
  | .assertFailed => .assertFailed
  | .undefined => .undefined

/-- The object in slot `i`, if the slot exists and is live. -/
def slot {T : Type} (b : Block T) (i : Nat) : Option T := b.getD i none

/-- Whether the move constructor throws here: never when it is `noexcept`. -/
def ElemType.moveCtorThrows {T : Type} (E : ElemType T) (l : Log) : Bool :=
  !E.is_nothrow_move_constructible && E.throws l .moveCtor

/-- The algorithm `std::uninitialized_copy_n(src + first, n, dst + d)`, the two blocks distinct.
On an exception the objects already constructed are destroyed. -/
def uninitialized_copy_n {T : Type} (E : ElemType T) (src : Block T) :
    Nat → Nat → Block T → Nat → Log → Res (Block T) Unit
  | 0, _, dst, _, l => .ok () dst l
  | n + 1, first, dst, d, l =>
    match slot src first with
    | none => .undefined
    | some x =>
      if dst.length ≤ d then .undefined
      else if E.throws l .copyCtor then .threw dst (.copyCtor :: l)
      else
        match uninitialized_copy_n E src n (first + 1) (dst.set d (some x)) (d + 1)
            (.copyCtor :: l) with
        | .threw dst1 l1 => .threw (dst1.set d none) (.destroy :: l1)
        | r => r

/-- The algorithm `std::uninitialized_move_n(src + first, n, dst + d)`, the two blocks distinct;
the state is the pair (source block, destination block). -/
def uninitialized_move_n {T : Type} (E : ElemType T) :
    Nat → Nat → Block T → Block T → Nat → Log → Res (Block T × Block T) Unit
  | 0, _, src, dst, _, l => .ok () (src, dst) l
  | n + 1, first, src, dst, d, l =>
    match slot src first with
    | none => .undefined
    | some x =>
      if dst.length ≤ d then .undefined
      else if E.moveCtorThrows l then .threw (src, dst) (.moveCtor :: l)
      else
        match uninitialized_move_n E n (first + 1) (src.set first (some (E.moved_from x)))
            (dst.set d (some x)) (d + 1) (.moveCtor :: l) with
        | .threw (src1, dst1) l1 => .threw (src1, dst1.set d none) (.destroy :: l1)
        | r => r

/-- The algorithm `std::uninitialized_copy(src + first, src + last, dst + d)`. -/
def uninitialized_copy {T : Type} (E : ElemType T) (src : Block T) (first last : Nat)
    (dst : Block T) (d : Nat) (l : Log) : Res (Block T) Unit :=
  if last < first then .undefined
  else uninitialized_copy_n E src (last - first) first dst d l

/-- The algorithm `std::uninitialized_move(src + first, src + last, dst + d)`. -/
def uninitialized_move {T : Type} (E : ElemType T) (first last : Nat) (src dst : Block T)
    (d : Nat) (l : Log) : Res (Block T × Block T) Unit :=
  if last < first then .undefined
  else uninitialized_move_n E (last - first) first src dst d l

/-- The algorithm `std::uninitialized_value_construct_n(b + d, n)`. -/
def uninitialized_value_construct_n {T : Type} (E : ElemType T) :
    Nat → Block T → Nat → Log → Res (Block T) Unit
  | 0, b, _, l => .ok () b l
  | n + 1, b, d, l =>
    if b.length ≤ d then .undefined
    else if E.throws l .valueCtor then .threw b (.valueCtor :: l)
    else
      match uninitialized_value_construct_n E n (b.set d (some E.value_init)) (d + 1)
          (.valueCtor :: l) with
      | .threw b1 l1 => .threw (b1.set d none) (.destroy :: l1)
      | r => r

/-- The algorithm `std::destroy_n(b + d, n)`; destructors do not throw. -/
def destroy_n {T : Type} : Nat → Block T → Nat → Log → Res (Block T) Unit
  | 0, b, _, l => .ok () b l
  | n + 1, b, d, l =>
    match slot b d with
    | none => .undefined
    | some _ => destroy_n n (b.set d none) (d + 1) (.destroy :: l)

/-- The algorithm `std::copy_n(src + first, n, dst + d)`: copy assignment onto live objects,
the two blocks distinct. -/
def copy_n {T : Type} (E : ElemType T) (src : Block T) :
    Nat → Nat → Block T → Nat → Log → Res (Block T) Unit
  | 0, _, dst, _, l => .ok () dst l
  | n + 1, first, dst, d, l =>
    match slot src first, slot dst d with
    | some x, some _ =>
      if E.throws l .copyAssign then .threw dst (.copyAssign :: l)
      else copy_n E src n (first + 1) (dst.set d (some x)) (d + 1) (.copyAssign :: l)
    | _, _ => .undefined

/-- The loop of `std::move(b + first, b + first + n, b + d)` inside one block:
`*d++ = std::move(*first++)`. -/
def move_n {T : Type} (E : ElemType T) : Nat → Block T → Nat → Nat → Log → Res (Block T) Unit
  | 0, b, _, _, l => .ok () b l
  | n + 1, b, first, d, l =>
    match slot b first, slot b d with
    | some x, some _ =>
      if E.throws l .moveAssign then .threw b (.moveAssign :: l)
      else move_n E n ((b.set d (some x)).set first (some (E.moved_from x))) (first + 1) (d + 1)
        (.moveAssign :: l)
    | _, _ => .undefined

/-- The algorithm `std::move(b + first, b + last, b + d)` inside one block. -/
def move {T : Type} (E : ElemType T) (b : Block T) (first last d : Nat) (l : Log) :
    Res (Block T) Unit :=
  if last < first then .undefined else move_n E (last - first) b first d l

/-- The loop of `std::move_backward` inside one block: `*(--d_last) = std::move(*(--last))`,
`n` times. -/
def move_backward_n {T : Type} (E : ElemType T) :
    Nat → Block T → Nat → Nat → Log → Res (Block T) Unit
  | 0, b, _, _, l => .ok () b l
  | n + 1, b, last, d_last, l =>
    if last = 0 ∨ d_last = 0 then .undefined
    else
      match slot b (last - 1), slot b (d_last - 1) with
      | some x, some _ =>
        if E.throws l .moveAssign then .threw b (.moveAssign :: l)
        else move_backward_n E n
          ((b.set (d_last - 1) (some x)).set (last - 1) (some (E.moved_from x)))
          (last - 1) (d_last - 1) (.moveAssign :: l)
      | _, _ => .undefined

/-- The algorithm `std::move_backward(b + first, b + last, b + d_last)` inside one block. -/
def move_backward {T : Type} (E : ElemType T) (b : Block T) (first last d_last : Nat) (l : Log) :
    Res (Block T) Unit :=
  if last < first then .undefined else move_backward_n E (last - first) b last d_last l

/-! ## RawMemory -/

/-- The class `RawMemory<T>`: the block `buffer_` points to (the null pointer is the empty
block) and `capacity_`. -/
structure RawMemory (T : Type) where
  buffer_ : Block T := []
  capacity_ : Nat := 0
  deriving DecidableEq, Repr

namespace RawMemory

/-- The static `Allocate(n)`: `operator new(n * sizeof(T))` when `n != 0`, else `nullptr`.
The product is computed in `size_t`; the block has the slots that fit in the bytes asked
for, which are `n` slots when the product does not wrap. -/
def Allocate {T : Type} (E : ElemType T) (n : Nat) (l : Log) : Res Unit (Block T) :=
  if n ≠ 0 then
    if E.throws l (.alloc n) then .threw () (.alloc n :: l)
    else .ok (List.replicate (n * E.sizeof % (SIZE_MAX + 1) / E.sizeof) none) () (.alloc n :: l)
  else .ok [] () l

/-- The constructor `RawMemory(size_t capacity)`. -/
def create {T : Type} (E : ElemType T) (capacity : Nat) (l : Log) : Res Unit (RawMemory T) :=
  (Allocate E capacity l).bind id fun buf _ l1 => .ok ⟨buf, capacity⟩ () l1

/-- The move constructor `RawMemory(RawMemory&& other)`: the new object and `other` afterwards. -/
def moveCtor {T : Type} (other : RawMemory T) : RawMemory T × RawMemory T :=
  (⟨other.buffer_, other.capacity_⟩, ⟨[], 0⟩)

/-- Move assignment `operator=(RawMemory&& rhs)` with `&rhs != this`: the object and `rhs`
afterwards. -/
def moveAssign {T : Type} (_this rhs : RawMemory T) : RawMemory T × RawMemory T :=
  (⟨rhs.buffer_, rhs.capacity_⟩, ⟨[], 0⟩)

/-- The pointer `operator+(offset)`: `assert(offset <= capacity_)`; `none` when the
assertion fails. -/
def plus {T : Type} (m : RawMemory T) (offset : Nat) : Option Nat :=
  if offset ≤ m.capacity_ then some offset else none

/-- The reference `operator[](index)`: `assert(index < capacity_)`; `none` when the
assertion fails. -/
def subscript {T : Type} (m : RawMemory T) (index : Nat) : Option Nat :=
  if index < m.capacity_ then some index else none

/-- The exchange `Swap(other)`: the object and `other` afterwards. -/
def Swap {T : Type} (m other : RawMemory T) : RawMemory T × RawMemory T :=
  (⟨other.buffer_, other.capacity_⟩, ⟨m.buffer_, m.capacity_⟩)

/-- The pointer `GetAddress()`: the first slot. -/
def GetAddress : Nat := 0

/-- The getter `Capacity()`. -/
def Capacity {T : Type} (m : RawMemory T) : Nat := m.capacity_

end RawMemory

/-! ## Vector -/

/-- The class `Vector<T>`. -/
structure Vector (T : Type) where
  data_ : RawMemory T := {}
  size_ : Nat := 0
  deriving DecidableEq, Repr

/-- An argument passed by reference to `PushBack`, `EmplaceBack`, `Insert`, `Emplace`:
an object outside the vector holding `x`, or the element in slot `j` of the vector itself
(as in `v.Insert(pos, v[j])`). -/
inductive Arg (T : Type) where
  | val (x : T)
  | own (j : Nat)
  deriving DecidableEq, Repr

/-- The value category with which an argument of type `T` reaches a forwarding reference
`Args&&`: an lvalue (`Args = T&`), a reference to const (`Args = const T&`, and `const T&&`
after `std::move`: either way the constructor of `T` that takes it is the copy constructor),
or an rvalue (`Args = T`: the constructor that takes it is the move constructor). -/
inductive Cat where
  | lvalue
  | to_const
  | rvalue
  deriving DecidableEq, Repr

/-- The category of `std::move(args)...`: an lvalue becomes an rvalue, a reference to const
stays one. -/
def Cat.move : Cat → Cat
  | .lvalue => .rvalue
  | .to_const => .to_const
  | .rvalue => .rvalue

/-- The constructor call `T(std::forward<Args>(args)...)`, or `T{std::forward<Args>(args)...}`
when `braces` is set: the value of the new object, read through the reference at the moment
of the call; `b` is the block the vector owns then.  Constructing from an rvalue that refers
to an element of the vector leaves that element moved-from. -/
def construct {T : Type} (E : ElemType T) (braces : Bool) (cat : Cat) (arg : Arg T)
    (b : Block T) (l : Log) : Res (Block T) T :=
  match arg with
  | .val x =>
    if E.throws l .construct then .threw b (.construct :: l)
    else .ok (if braces then E.brace_init x else x) b (.construct :: l)
  | .own j =>
    match slot b j with
    | none => .undefined
    | some x =>
      if E.throws l .construct then .threw b (.construct :: l)
      else .ok (if braces then E.brace_init x else x)
        (match cat with
          | .rvalue => b.set j (some (E.moved_from x))
          | _ => b) (.construct :: l)

namespace Vector

/-- The default constructor `Vector()`. -/
def empty {T : Type} : Vector T := {}

/-- The getter `Size()`. -/
def Size {T : Type} (v : Vector T) : Nat := v.size_

/-- The getter `Capacity()`. -/
def Capacity {T : Type} (v : Vector T) : Nat := v.data_.Capacity

/-- The iterator `begin()`. -/
def begin : Nat := RawMemory.GetAddress

/-- The iterator `end()`, that is `data_ + size_`. -/
def end_ {T : Type} (v : Vector T) : Option Nat := v.data_.plus v.size_

/-- The reference `operator[](index)`: `assert(index < size_)`, then `data_[index]`. -/
def subscript {T : Type} (v : Vector T) (index : Nat) : Option Nat :=
  if index < v.size_ then v.data_.subscript index else none

/-- The constructor `Vector(size_t size)`. -/
def ofSize {T : Type} (E : ElemType T) (size : Nat) (l : Log) : Res Unit (Vector T) :=
  (RawMemory.create E size l).bind id fun data _ l1 =>
  (uninitialized_value_construct_n E size data.buffer_ RawMemory.GetAddress l1).bind
    (fun _ => ()) fun _ b l2 =>
  .ok ⟨⟨b, data.capacity_⟩, size⟩ () l2

/-- The copy constructor `Vector(const Vector& other)`. -/
def copyCtor {T : Type} (E : ElemType T) (other : Vector T) (l : Log) : Res Unit (Vector T) :=
  (RawMemory.create E other.size_ l).bind id fun data _ l1 =>
  (uninitialized_copy_n E other.data_.buffer_ other.size_ RawMemory.GetAddress data.buffer_
    RawMemory.GetAddress l1).bind (fun _ => ()) fun _ b l2 =>
  .ok ⟨⟨b, data.capacity_⟩, other.size_⟩ () l2

/-- The move constructor `Vector(Vector&& other)`: the new object and `other` afterwards. -/
def moveCtor {T : Type} (other : Vector T) : Vector T × Vector T :=
  (⟨(RawMemory.moveCtor other.data_).1, other.size_⟩, ⟨(RawMemory.moveCtor other.data_).2, 0⟩)

/-- The destructor `~Vector()`: `std::destroy_n(data_.GetAddress(), size_)`. -/
def dtor {T : Type} (v : Vector T) (l : Log) : Res Unit Unit :=
  (destroy_n v.size_ v.data_.buffer_ RawMemory.GetAddress l).bind (fun _ => ()) fun _ _ l1 =>
  .ok () () l1

/-- The exchange `Swap(Vector& other)`: the object and `other` afterwards. -/
def Swap {T : Type} (v other : Vector T) : Vector T × Vector T :=
  (⟨(v.data_.Swap other.data_).1, other.size_⟩, ⟨(v.data_.Swap other.data_).2, v.size_⟩)

/-- The private `TransferContent(new_data)`; the state is the vector and `new_data`. -/
def TransferContent {T : Type} (E : ElemType T) (v : Vector T) (new_data : RawMemory T)
    (l : Log) : Res (Vector T × RawMemory T) Unit :=
  let relocated : Res (Block T × Block T) Unit :=
    if E.is_nothrow_move_constructible || !E.is_copy_constructible then
      uninitialized_move_n E v.size_ begin v.data_.buffer_ new_data.buffer_
        RawMemory.GetAddress l
    else
      (uninitialized_copy_n E v.data_.buffer_ v.size_ begin new_data.buffer_
        RawMemory.GetAddress l).bind (fun dst => (v.data_.buffer_, dst))
        fun _ dst l1 => .ok () (v.data_.buffer_, dst) l1
  relocated.bind
    (fun s => (⟨⟨s.1, v.data_.capacity_⟩, v.size_⟩, ⟨s.2, new_data.capacity_⟩))
    fun _ s l1 =>
  (destroy_n v.size_ s.1 begin l1).bind
    (fun src => (⟨⟨src, v.data_.capacity_⟩, v.size_⟩, ⟨s.2, new_data.capacity_⟩))
    fun _ src l2 =>
  .ok () (⟨⟨s.2, new_data.capacity_⟩, v.size_⟩, ⟨src, v.data_.capacity_⟩) l2

/-- The member `Reserve(new_capacity)`. -/
def Reserve {T : Type} (E : ElemType T) (new_capacity : Nat) (v : Vector T) (l : Log) :
    Res (Vector T) Unit :=
  if new_capacity ≤ v.data_.Capacity then .ok () v l
  else
    (RawMemory.create E new_capacity l).bind (fun _ => v) fun new_data _ l1 =>
    (v.TransferContent E new_data l1).bind Prod.fst fun _ s l2 => .ok () s.1 l2

/-- The member `Resize(new_size)`. -/
def Resize {T : Type} (E : ElemType T) (new_size : Nat) (v : Vector T) (l : Log) :
    Res (Vector T) Unit :=
  if v.size_ = new_size then .ok () v l
  else if v.size_ < new_size then
    (v.Reserve E new_size l).bind id fun _ v1 l1 =>
    match v1.data_.plus v1.size_ with
    | none => .assertFailed
    | some p =>
      (uninitialized_value_construct_n E (new_size - v1.size_) v1.data_.buffer_ p l1).bind
        (fun b => ⟨⟨b, v1.data_.capacity_⟩, v1.size_⟩) fun _ b l2 =>
      .ok () ⟨⟨b, v1.data_.capacity_⟩, new_size⟩ l2
  else
    match v.data_.plus new_size with
    | none => .assertFailed
    | some p =>
      (destroy_n (v.size_ - new_size) v.data_.buffer_ p l).bind
        (fun b => ⟨⟨b, v.data_.capacity_⟩, v.size_⟩) fun _ b l1 =>
      .ok () ⟨⟨b, v.data_.capacity_⟩, new_size⟩ l1

/-- The member template `EmplaceBack(Args&&... args)`, for an argument that reaches it with
the category `cat`; the result is the slot of the returned reference `data_[size_ - 1]`. -/
def EmplaceBackAs {T : Type} (E : ElemType T) (cat : Cat) (arg : Arg T) (v : Vector T)
    (l : Log) : Res (Vector T) Nat :=
  let grown : Res (Vector T) Unit :=
    if v.size_ = v.Capacity then
      let new_capacity := if v.size_ = 0 then 1 else v.size_ * 2
      (RawMemory.create E new_capacity l).bind (fun _ => v) fun new_data _ l1 =>
      match new_data.subscript v.size_ with
      | none => .assertFailed
      | some p =>
        if new_data.buffer_.length ≤ p then .undefined
        else
          (construct E false cat arg v.data_.buffer_ l1).bind
            (fun b => ⟨⟨b, v.data_.capacity_⟩, v.size_⟩) fun x b l2 =>
          (TransferContent E ⟨⟨b, v.data_.capacity_⟩, v.size_⟩
            ⟨new_data.buffer_.set p (some x), new_data.capacity_⟩ l2).bind
            Prod.fst fun _ s l3 => .ok () s.1 l3
    else
      match v.end_ with
      | none => .assertFailed
      | some p =>
        if v.data_.buffer_.length ≤ p then .undefined
        else
          (construct E false cat arg v.data_.buffer_ l).bind
            (fun b => ⟨⟨b, v.data_.capacity_⟩, v.size_⟩) fun x b l1 =>
          .ok () ⟨⟨b.set p (some x), v.data_.capacity_⟩, v.size_⟩ l1
  grown.bind id fun _ v1 l1 =>
  let v2 : Vector T := ⟨v1.data_, v1.size_ + 1⟩
  match v2.data_.subscript (v2.size_ - 1) with
  | none => .assertFailed
  | some r => .ok r v2 l1

/-- The call `v.EmplaceBack(x)` with `x` an lvalue of type `T`. -/
def EmplaceBack {T : Type} (E : ElemType T) (arg : Arg T) (v : Vector T) (l : Log) :
    Res (Vector T) Nat :=
  v.EmplaceBackAs E .lvalue arg l

/-- The member `PushBack(const T& value)`: `EmplaceBack(value)`. -/
def PushBack {T : Type} (E : ElemType T) (value : Arg T) (v : Vector T) (l : Log) :
    Res (Vector T) Unit :=
  (v.EmplaceBackAs E .to_const value l).bind id fun _ v1 l1 => .ok () v1 l1

/-- The member `PushBack(T&& value)`: `EmplaceBack(std::move(value))`. -/
def PushBackRvalue {T : Type} (E : ElemType T) (value : Arg T) (v : Vector T) (l : Log) :
    Res (Vector T) Unit :=
  (v.EmplaceBackAs E .rvalue value l).bind id fun _ v1 l1 => .ok () v1 l1

/-- The member `PopBack()`. -/
def PopBack {T : Type} (v : Vector T) (l : Log) : Res (Vector T) Unit :=
  if 0 < v.size_ then
    let v1 : Vector T := ⟨v.data_, v.size_ - 1⟩
    match v1.data_.plus v1.size_ with
    | none => .assertFailed
    | some p =>
      (destroy_n 1 v1.data_.buffer_ p l).bind (fun b => ⟨⟨b, v1.data_.capacity_⟩, v1.size_⟩)
        fun _ b l1 => .ok () ⟨⟨b, v1.data_.capacity_⟩, v1.size_⟩ l1
  else .ok () v l

/-- The member template `Emplace(pos, Args&&... args)`, for an argument that reaches it with
the category `cat`, with `pos` the slot the iterator points to; the result is the slot of the
returned iterator `begin() + offset`.  At the end it calls `EmplaceBack(std::move(args)...)`. -/
def EmplaceAs {T : Type} (E : ElemType T) (cat : Cat) (pos : Nat) (arg : Arg T) (v : Vector T)
    (l : Log) : Res (Vector T) Nat :=
  let offset := pos - begin
  match v.end_ with
  | none => .assertFailed
  | some e =>
    if pos = e then
      (v.EmplaceBackAs E cat.move arg l).bind id fun _ v1 l1 => .ok (begin + offset) v1 l1
    else if v.size_ = v.Capacity then
      let new_capacity := if v.size_ = 0 then 1 else v.size_ * 2
      (RawMemory.create E new_capacity l).bind (fun _ => v) fun new_data _ l1 =>
      match new_data.plus offset with
      | none => .assertFailed
      | some p =>
        if new_data.buffer_.length ≤ p then .undefined
        else
          (construct E false cat arg v.data_.buffer_ l1).bind
            (fun b => ⟨⟨b, v.data_.capacity_⟩, v.size_⟩) fun x b l2 =>
          let nb := new_data.buffer_.set p (some x)
          let relocated : Res (Block T × Block T) Unit :=
            if E.is_nothrow_move_constructible || !E.is_copy_constructible then
              (uninitialized_move_n E offset begin b nb RawMemory.GetAddress l2).bind id
                fun _ s l3 =>
              uninitialized_move E (begin + offset) e s.1 s.2 (RawMemory.GetAddress + offset + 1)
                l3
            else
              (uninitialized_copy_n E b offset begin nb RawMemory.GetAddress l2).bind
                (fun dst => (b, dst)) fun _ dst l3 =>
              (uninitialized_copy E b (begin + offset) e dst (RawMemory.GetAddress + offset + 1)
                l3).bind (fun dst1 => (b, dst1)) fun _ dst1 l4 => .ok () (b, dst1) l4
          relocated.bind (fun s => ⟨⟨s.1, v.data_.capacity_⟩, v.size_⟩) fun _ s l3 =>
          (destroy_n v.size_ s.1 begin l3).bind (fun src => ⟨⟨src, v.data_.capacity_⟩, v.size_⟩)
            fun _ _ l4 =>
          .ok (begin + offset) ⟨⟨s.2, new_data.capacity_⟩, v.size_ + 1⟩ l4
    else if e = 0 then .undefined
    else
      match slot v.data_.buffer_ (e - 1) with
      | none => .undefined
      | some y =>
        if v.data_.buffer_.length ≤ e then .undefined
        else if E.moveCtorThrows l then .threw v (.moveCtor :: l)
        else
          let b1 := (v.data_.buffer_.set (e - 1) (some (E.moved_from y))).set e (some y)
          (move_backward E b1 (begin + offset) (e - 1) e (.moveCtor :: l)).bind
            (fun b => ⟨⟨b, v.data_.capacity_⟩, v.size_⟩) fun _ b2 l2 =>
          (construct E true cat arg b2 l2).bind (fun b => ⟨⟨b, v.data_.capacity_⟩, v.size_⟩)
            fun x b3 l3 =>
          match v.data_.subscript offset with
          | none => .assertFailed
          | some p =>
            match slot b3 p with
            | none => .undefined
            | some _ =>
              if E.throws l3 .moveAssign then
                .threw ⟨⟨b3, v.data_.capacity_⟩, v.size_⟩ (.destroy :: .moveAssign :: l3)
              else
                .ok (begin + offset) ⟨⟨b3.set p (some x), v.data_.capacity_⟩, v.size_ + 1⟩
                  (.destroy :: .moveAssign :: l3)

/-- The call `v.Emplace(pos, x)` with `x` an lvalue of type `T`. -/
def Emplace {T : Type} (E : ElemType T) (pos : Nat) (arg : Arg T) (v : Vector T) (l : Log) :
    Res (Vector T) Nat :=
  v.EmplaceAs E .lvalue pos arg l

/-- The member `Insert(pos, const T& value)`: `Emplace(pos, value)`. -/
def Insert {T : Type} (E : ElemType T) (pos : Nat) (value : Arg T) (v : Vector T) (l : Log) :
    Res (Vector T) Nat :=
  v.EmplaceAs E .to_const pos value l

/-- The member `Insert(pos, T&& value)`: `Emplace(pos, std::move(value))`. -/
def InsertRvalue {T : Type} (E : ElemType T) (pos : Nat) (value : Arg T) (v : Vector T)
    (l : Log) : Res (Vector T) Nat :=
  v.EmplaceAs E .rvalue pos value l

/-- The member `Erase(pos)`, with `pos` the slot the iterator points to; the result is the
slot of the returned iterator `begin() + offset`. -/
def Erase {T : Type} (E : ElemType T) (pos : Nat) (v : Vector T) (l : Log) :
    Res (Vector T) Nat :=
  let offset := pos - begin
  match v.end_ with
  | none => .assertFailed
  | some e =>
    (move E v.data_.buffer_ (begin + offset + 1) e (begin + offset) l).bind
      (fun b => ⟨⟨b, v.data_.capacity_⟩, v.size_⟩) fun _ b1 l1 =>
    if e = 0 then .undefined
    else
      (destroy_n 1 b1 (e - 1) l1).bind (fun b => ⟨⟨b, v.data_.capacity_⟩, v.size_⟩)
        fun _ b2 l2 =>
      .ok (begin + offset) ⟨⟨b2, v.data_.capacity_⟩, v.size_ - 1⟩ l2

end Vector

/-! ## Assignment -/

/-- The right-hand side of an assignment `v = rhs`: the vector `v` itself (`&rhs == this`) or
another vector. -/
inductive Operand (T : Type) where
  | self
  | other (rhs : Vector T)
  deriving DecidableEq, Repr

namespace Vector

/-- Copy assignment `operator=(const Vector& rhs)`. -/
def copyAssign {T : Type} (E : ElemType T) (rhs : Operand T) (v : Vector T) (l : Log) :
    Res (Vector T) Unit :=
  match rhs with
  | .self => .ok () v l
  | .other rhs =>
    if rhs.size_ > v.data_.Capacity then
      (copyCtor E rhs l).bind (fun _ => v) fun rhs_copy _ l1 =>
      ((v.Swap rhs_copy).2.dtor l1).bind (fun _ => (v.Swap rhs_copy).1) fun _ _ l2 =>
      .ok () (v.Swap rhs_copy).1 l2
    else if rhs.size_ < v.size_ then
      (copy_n E rhs.data_.buffer_ rhs.size_ RawMemory.GetAddress v.data_.buffer_
        RawMemory.GetAddress l).bind (fun b => ⟨⟨b, v.data_.capacity_⟩, v.size_⟩)
        fun _ b l1 =>
      match v.data_.plus rhs.size_ with
      | none => .assertFailed
      | some p =>
        (destroy_n (v.size_ - rhs.size_) b p l1).bind
          (fun b1 => ⟨⟨b1, v.data_.capacity_⟩, v.size_⟩) fun _ b1 l2 =>
        .ok () ⟨⟨b1, v.data_.capacity_⟩, rhs.size_⟩ l2
    else
      (copy_n E rhs.data_.buffer_ v.size_ RawMemory.GetAddress v.data_.buffer_
        RawMemory.GetAddress l).bind (fun b => ⟨⟨b, v.data_.capacity_⟩, v.size_⟩)
        fun _ b l1 =>
      match rhs.data_.plus v.size_ with
      | none => .assertFailed
      | some first =>
        match v.data_.plus v.size_ with
        | none => .assertFailed
        | some d =>
          (uninitialized_copy_n E rhs.data_.buffer_ (rhs.size_ - v.size_) first b d l1).bind
            (fun b1 => ⟨⟨b1, v.data_.capacity_⟩, v.size_⟩) fun _ b1 l2 =>
          .ok () ⟨⟨b1, v.data_.capacity_⟩, rhs.size_⟩ l2

/-- Move assignment `operator=(Vector&& rhs)`: the object and `rhs` afterwards. -/
def moveAssign {T : Type} (rhs : Operand T) (v : Vector T) : Vector T × Operand T :=
  match rhs with
  | .self => (v, .self)
  | .other rhs =>
    (⟨(RawMemory.moveAssign v.data_ rhs.data_).1, rhs.size_⟩,
      .other ⟨(RawMemory.moveAssign v.data_ rhs.data_).2, 0⟩)

end Vector

/-! ## Callers -/

/-- The statement `v[index] = value` of a caller: `operator[]`, then the copy assignment
of `T`. -/
def Vector.assignAt {T : Type} (E : ElemType T) (index : Nat) (value : T) (v : Vector T)
    (l : Log) : Res (Vector T) Unit :=
  match v.subscript index with
  | none => .assertFailed
  | some r =>
    match slot v.data_.buffer_ r with
    | none => .undefined
    | some _ =>
      if E.throws l .copyAssign then .threw v (.copyAssign :: l)
      else .ok () ⟨⟨v.data_.buffer_.set r (some value), v.data_.capacity_⟩, v.size_⟩
        (.copyAssign :: l)

/-- A mutating call on a vector, its arguments objects outside the vector. -/
inductive Mutation (T : Type) where
  | PushBack (value : T)
  | PopBack
  | Insert (pos : Nat) (value : T)
  | Erase (pos : Nat)
  | Resize (new_size : Nat)
  | assign (index : Nat) (value : T)
  deriving DecidableEq, Repr

/-- The call a `Mutation` names. -/
def Vector.mutate {T : Type} (E : ElemType T) (m : Mutation T) (v : Vector T) (l : Log) :
    Res (Vector T) Unit :=
  match m with
  | .PushBack x => v.PushBack E (.val x) l
  | .PopBack => v.PopBack l
  | .Insert k x => (v.Insert E k (.val x) l).bind id fun _ v1 l1 => .ok () v1 l1
  | .Erase k => (v.Erase E k l).bind id fun _ v1 l1 => .ok () v1 l1
  | .Resize n => v.Resize E n l
  | .assign i x => v.assignAt E i x l

/-- A caller that holds two vectors, the state `(src, copy)`, and calls the mutations on
`copy`, one after the other, until one does not return. -/
def mutateCopy {T : Type} (E : ElemType T) :
    List (Mutation T) → Vector T × Vector T → Log → Res (Vector T × Vector T) Unit
  | [], s, l => .ok () s l
  | m :: ms, s, l =>
    (s.2.mutate E m l).bind (fun c => (s.1, c)) fun _ c l1 => mutateCopy E ms (s.1, c) l1

/-- A caller that holds two distinct vectors, the state `(dst, src)`, and runs `dst = src`;
the operator takes `src` by reference to const. -/
def assignCopy {T : Type} (E : ElemType T) (s : Vector T × Vector T) (l : Log) :
    Res (Vector T × Vector T) Unit :=
  (s.1.copyAssign E (.other s.2) l).bind (fun dst => (dst, s.2)) fun _ dst l1 =>
  .ok () (dst, s.2) l1

/-- A call of a public member function that can change the vector it is called on. -/
inductive Call (T : Type) where
  | PushBack (value : Arg T)
  | PushBackRvalue (value : Arg T)
  | EmplaceBack (cat : Cat) (arg : Arg T)
  | PopBack
  | Insert (pos : Nat) (value : Arg T)
  | InsertRvalue (pos : Nat) (value : Arg T)
  | Emplace (cat : Cat) (pos : Nat) (arg : Arg T)
  | Erase (pos : Nat)
  | Resize (new_size : Nat)
  | Reserve (new_capacity : Nat)
  | copyAssign (rhs : Operand T)
  deriving DecidableEq, Repr

/-- The call a `Call` names. -/
def Vector.call {T : Type} (E : ElemType T) (c : Call T) (v : Vector T) (l : Log) :
    Res (Vector T) Unit :=
  match c with
  | .PushBack x => v.PushBack E x l
  | .PushBackRvalue x => v.PushBackRvalue E x l
  | .EmplaceBack cat x => (v.EmplaceBackAs E cat x l).bind id fun _ v1 l1 => .ok () v1 l1
  | .PopBack => v.PopBack l
  | .Insert k x => (v.Insert E k x l).bind id fun _ v1 l1 => .ok () v1 l1
  | .InsertRvalue k x => (v.InsertRvalue E k x l).bind id fun _ v1 l1 => .ok () v1 l1
  | .Emplace cat k x => (v.EmplaceAs E cat k x l).bind id fun _ v1 l1 => .ok () v1 l1
  | .Erase k => (v.Erase E k l).bind id fun _ v1 l1 => .ok () v1 l1
  | .Resize n => v.Resize E n l
  | .Reserve n => v.Reserve E n l
  | .copyAssign rhs => v.copyAssign E rhs l

/-- A caller that makes the calls on one vector, one after the other; it catches the
exception of a call that throws and goes on with the vector as that call left it. -/
def runCalls {T : Type} (E : ElemType T) : List (Call T) → Vector T → Log → Res (Vector T) Unit
  | [], v, l => .ok () v l
  | c :: cs, v, l =>
    match v.call E c l with
    | .ok _ v1 l1 => runCalls E cs v1 l1
    | .threw v1 l1 => runCalls E cs v1 l1
    | .assertFailed => .assertFailed
    | .undefined => .undefined

/-- The state a call leaves behind, after a normal return or an exception. -/
def Res.final {σ α : Type} : Res σ α → Option σ
  | .ok _ s _ => some s
  | .threw s _ => some s
  | .assertFailed => none
  | .undefined => none

/-! ## Abstraction -/

/-- The vector that holds the elements `xs` in a block of `cap` slots: the first `xs.length`
slots live, the others raw. -/
def Vector.holding {T : Type} (xs : List T) (cap : Nat) : Vector T :=
  ⟨⟨xs.map some ++ List.replicate (cap - xs.length) none, cap⟩, xs.length⟩

/-- The class invariant: the block has `capacity_` slots, `size_ ≤ capacity_`, the slots
`[0, size_)` hold live objects and the other slots are raw. -/
def Vector.Valid {T : Type} (v : Vector T) : Prop :=
  v.data_.buffer_.length = v.data_.capacity_ ∧ v.size_ ≤ v.data_.capacity_
  ∧ ∀ i, (slot v.data_.buffer_ i).isSome = true ↔ i < v.size_

/-- The elements of a vector, slots `[0, size_)`, when all of them are live. -/
def Vector.elements {T : Type} (v : Vector T) : Option (List T) :=
  (v.data_.buffer_.take v.size_).allSome

/-- The value an argument denotes when the vector's elements read `xs`. -/
def Arg.value {T : Type} (arg : Arg T) (xs : List T) : Option T :=
  match arg with
  | .val x => some x
  | .own j => xs[j]?

/-- The elements once the constructor of the new element has taken its argument: `xs`, with
the element an rvalue argument refers to moved-from. -/
def Arg.consumed {T : Type} (E : ElemType T) (cat : Cat) (arg : Arg T) (xs : List T) : List T :=
  match cat, arg with
  | .rvalue, .own j =>
    match xs[j]? with
    | some x => xs.set j (E.moved_from x)
    | none => xs
  | _, _ => xs

/-- The event by which `TransferContent` and `Emplace` relocate one element: the branch
`if constexpr` selects. -/
def ElemType.relocation {T : Type} (E : ElemType T) : Ev :=
  if E.is_nothrow_move_constructible || !E.is_copy_constructible then .moveCtor else .copyCtor

/-- Whether relocating one element throws here. -/
def ElemType.relocationThrows {T : Type} (E : ElemType T) (l : Log) : Bool :=
  if E.is_nothrow_move_constructible || !E.is_copy_constructible then E.moveCtorThrows l
  else E.throws l .copyCtor

/-- An element type none of whose operations throws. -/
def ElemType.NoThrow {T : Type} (E : ElemType T) : Prop := ∀ h e, E.throws h e = false

/-- The capacity `EmplaceBack` and `Emplace` allocate when the vector is full. -/
def grownCapacity (size : Nat) : Nat := if size = 0 then 1 else size * 2

/-- The value read through `operator[](index)`: `none` when an assertion fails or the slot
is raw. -/
def Vector.read {T : Type} (v : Vector T) (index : Nat) : Option T :=
  match v.subscript index with
  | none => none
  | some r => slot v.data_.buffer_ r

/-- The calls `PushBack(v1); ...; PushBack(vn)` in order, each argument an object outside
the vector. -/
def pushAll {T : Type} (E : ElemType T) : List T → Vector T → Log → Res (Vector T) Unit
  | [], v, l => .ok () v l
  | x :: xs, v, l => (v.PushBack E (.val x) l).bind id fun _ v1 l1 => pushAll E xs v1 l1

/-- Some step of the growth of a full vector of `size` elements throws: the allocation of
the new block, the constructor of the new element, or the relocation of the element `j`. -/
def ElemType.growthThrows {T : Type} (E : ElemType T) (size : Nat) (l : Log) : Prop :=
  E.throws l (.alloc (grownCapacity size)) = true
  ∨ E.throws (.alloc (grownCapacity size) :: l) .construct = true
  ∨ ∃ j, j < size ∧ E.relocationThrows
      (List.replicate j E.relocation ++ .construct :: .alloc (grownCapacity size) :: l) = true

/-- Some step of `Reserve(n)` beyond the capacity, on `size` elements, throws: the allocation
of the new block or the relocation of the element `j`. -/
def ElemType.reserveThrows {T : Type} (E : ElemType T) (size n : Nat) (l : Log) : Prop :=
  E.throws l (.alloc n) = true
  ∨ ∃ j, j < size ∧ E.relocationThrows (List.replicate j E.relocation ++ .alloc n :: l) = true

/-- The events that are constructor invocations of the element type. -/
def Ev.isCtor : Ev → Bool
  | .construct => true
  | .valueCtor => true
  | .copyCtor => true
  | .moveCtor => true
  | _ => false

/-- The failure schedule "the constructor throws on its `N`-th invocation". -/
def nthCtorThrows (N : Nat) (h : Log) (e : Ev) : Bool :=
  e.isCtor && ((h.filter Ev.isCtor).length + 1 == N)

/-- The failure schedule "the move assignment throws on its `N`-th invocation". -/
def nthMoveAssignThrows (N : Nat) (h : Log) (e : Ev) : Bool :=
  e == .moveAssign && (h.count .moveAssign + 1 == N)

/-- The failure schedule "every allocation fails". -/
def allocThrows (_ : Log) (e : Ev) : Bool :=
  match e with
  | .alloc _ => true
  | _ => false

/-- A copyable integer-like element type whose move constructor is not `noexcept` (so
relocation copies) and whose operations throw on the given schedule. -/
def faultyElem (throws : Log → Ev → Bool) : ElemType Int :=
  { value_init := 0, moved_from := id, brace_init := id, sizeof := 4, sizeof_pos := by decide,
    is_nothrow_move_constructible := false, is_copy_constructible := true, throws := throws }

/-- A copyable integer-like element type whose move constructor is not `noexcept` and leaves
its source holding `-1`, and whose operations throw on the given schedule. -/
def movingElem (throws : Log → Ev → Bool) : ElemType Int :=
  { value_init := 0, moved_from := fun _ => -1, brace_init := id, sizeof := 4,
    sizeof_pos := by decide, is_nothrow_move_constructible := false,
    is_copy_constructible := true, throws := throws }

/-- The call returns or throws: no assertion fails and nothing undefined is done. -/
def Res.completes {σ α : Type} : Res σ α → Bool
  | .ok _ _ _ => true
  | .threw _ _ => true
  | .assertFailed => false
  | .undefined => false

/-- What a call is shown to meet: no assertion of the source fails, a normal return satisfies
`Q`, an exception leaves a state that satisfies `R`. -/
def Res.Meets {σ α : Type} (r : Res σ α) (Q : α → σ → Prop) (R : σ → Prop) : Prop :=
  match r with
  | .ok a s _ => Q a s
  | .threw s _ => R s
  | .assertFailed => False
  | .undefined => True

/-- The right-hand side of an assignment is a vector with `size_ ≤ capacity_`. -/
def Operand.sound {T : Type} : Operand T → Bool
  | .self => true
  | .other rhs => decide (rhs.size_ ≤ rhs.data_.capacity_)

/-- The argument refers to an object: one outside the vector, or the element `v[j]` with
`j < size_`. -/
def Arg.sound {T : Type} (arg : Arg T) (v : Vector T) : Bool :=
  match arg with
  | .val _ => true
  | .own j => decide (j < v.size_)

/-- The call is made within its precondition: a position in `[0, size]` for `Insert` and
`Emplace`, a position in `[0, size)` for `Erase`, an argument that refers to an object, a
vector with `size_ ≤ capacity_` on the right of an assignment. -/
def Call.sound {T : Type} (c : Call T) (v : Vector T) : Bool :=
  match c with
  | .PushBack value => value.sound v
  | .PushBackRvalue value => value.sound v
  | .EmplaceBack _ arg => arg.sound v
  | .PopBack => true
  | .Insert pos value => decide (pos ≤ v.size_) && value.sound v
  | .InsertRvalue pos value => decide (pos ≤ v.size_) && value.sound v
  | .Emplace _ pos arg => decide (pos ≤ v.size_) && arg.sound v
  | .Erase pos => decide (pos < v.size_)
  | .Resize _ => true
  | .Reserve _ => true
  | .copyAssign rhs => rhs.sound

/-- Every call of the sequence is made within its precondition, in the state the calls
before it have left. -/
def callsSound {T : Type} (E : ElemType T) : List (Call T) → Vector T → Log → Bool
  | [], _, _ => true
  | c :: cs, v, l =>
    c.sound v &&
      match v.call E c l with
      | .ok _ v1 l1 => callsSound E cs v1 l1
      | .threw v1 l1 => callsSound E cs v1 l1
      | _ => true

/-- The number of objects the call asks `Allocate` for: the doubled size when a full vector
grows, the new size or capacity beyond the capacity in `Resize` and `Reserve`, the size of the
right-hand side beyond the capacity in a copy assignment; 0 when the call does not allocate. -/
def Call.allocates {T : Type} (c : Call T) (v : Vector T) : Nat :=
  let grown := if v.size_ = v.data_.capacity_ then grownCapacity v.size_ else 0
  match c with
  | .PushBack _ => grown
  | .PushBackRvalue _ => grown
  | .EmplaceBack _ _ => grown
  | .PopBack => 0
  | .Insert _ _ => grown
  | .InsertRvalue _ _ => grown
  | .Emplace _ _ _ => grown
  | .Erase _ => 0
  | .Resize n => if v.size_ < n ∧ v.data_.capacity_ < n then n else 0
  | .Reserve n => if v.data_.capacity_ < n then n else 0
  | .copyAssign .self => 0
  | .copyAssign (.other rhs) => if v.data_.capacity_ < rhs.size_ then rhs.size_ else 0

/-- Every call of the sequence asks `Allocate` for a number of bytes that `size_t` holds, in
the state the calls before it have left. -/
def callsFit {T : Type} (E : ElemType T) : List (Call T) → Vector T → Log → Bool
  | [], _, _ => true
  | c :: cs, v, l =>
    decide (c.allocates v * E.sizeof ≤ SIZE_MAX) &&
      match v.call E c l with
      | .ok _ v1 l1 => callsFit E cs v1 l1
      | .threw v1 l1 => callsFit E cs v1 l1
      | _ => true

/-- The number of relocations in a log: elements moved or copied into a new block. -/
def relocations (l : Log) : Nat :=
  l.count .moveCtor + l.count .copyCtor

/-- Where appending to an empty vector stands after `n` elements, with capacity `c` and `r`
relocations so far: at the start, or `c` is a power of two with `n ≤ c < 2 * n` and
`r = c - 1`. -/
def Doubling (n c r : Nat) : Prop :=
  (n = 0 ∧ c = 0 ∧ r = 0) ∨ ∃ k, c = 2 ^ k ∧ n ≤ c ∧ c < 2 * n ∧ r + 1 = c

/-- An element type that never throws: `int`. -/
def intElem : ElemType Int :=
  { value_init := 0, moved_from := id, brace_init := id, sizeof := 4, sizeof_pos := by decide,
    is_nothrow_move_constructible := true, is_copy_constructible := true,
    throws := fun _ _ => false }

/-! ## Blocks, slot by slot -/

section Lemmas

variable {T : Type}

theorem slot_eq (b : Block T) (i : Nat) : slot b i = (b[i]?).getD none := by
  simp [slot, List.getD_eq_getElem?_getD]

theorem slot_set (b : Block T) (j : Nat) (a : Option T) (i : Nat) :
    slot (b.set j a) i = if i = j ∧ j < b.length then a else slot b i := by
  simp only [slot_eq, List.getElem?_set]
  by_cases h : j = i
  · subst h
    by_cases h2 : j < b.length
    · simp [h2]
    · simp [h2, List.getElem?_eq_none (Nat.le_of_not_lt h2)]
  · have : ¬ (i = j) := fun e => h e.symm
    simp [h, this]

theorem slot_of_length_le (b : Block T) (i : Nat) (h : b.length ≤ i) : slot b i = none := by
  simp [slot_eq, List.getElem?_eq_none h]

theorem slot_replicate_none (n i : Nat) : slot (List.replicate n (none : Option T)) i = none := by
  simp only [slot_eq, List.getElem?_replicate]
  split <;> rfl

theorem block_ext (b c : Block T) (hl : b.length = c.length)
    (hs : ∀ i, i < b.length → slot b i = slot c i) : b = c := by
  apply List.ext_getElem hl
  intro i h1 h2
  have := hs i h1
  simpa [slot_eq, List.getElem?_eq_getElem h1, List.getElem?_eq_getElem h2] using this

theorem slot_map_some_append (xs : List T) (m : Nat) (i : Nat) :
    slot (xs.map some ++ List.replicate m none) i = xs[i]? := by
  simp only [slot_eq, List.getElem?_append, List.length_map, List.getElem?_map,
    List.getElem?_replicate]
  by_cases h : i < xs.length
  · simp [h, List.getElem?_eq_getElem h]
  · simp [h, List.getElem?_eq_none (Nat.le_of_not_lt h)]
    split <;> rfl

theorem replicate_append_cons (n : Nat) (a : Ev) (l : Log) :
    List.replicate n a ++ a :: l = List.replicate (n + 1) a ++ l := by
  induction n with
  | zero => rfl
  | succ n ih => simp [List.replicate_succ, ih]

/-! ## The standard algorithms -/

/-- On live sources and a destination with room, `uninitialized_copy_n` either constructs the
`n` copies, or throws because a copy constructor threw, leaving the destination as it was
outside the range. -/
theorem uninitialized_copy_n_spec (E : ElemType T) (src : Block T) (n : Nat) :
    ∀ (first : Nat) (dst : Block T) (d : Nat) (l : Log),
    (∀ i, i < n → (slot src (first + i)).isSome = true) → d + n ≤ dst.length →
    (∃ dst1, uninitialized_copy_n E src n first dst d l
          = .ok () dst1 (List.replicate n Ev.copyCtor ++ l)
        ∧ dst1.length = dst.length
        ∧ ∀ i, slot dst1 i = if d ≤ i ∧ i < d + n then slot src (first + (i - d)) else slot dst i)
    ∨ (∃ dst1 l1, uninitialized_copy_n E src n first dst d l = .threw dst1 l1
        ∧ (∃ h, E.throws h .copyCtor = true)
        ∧ dst1.length = dst.length
        ∧ ∀ i, (i < d ∨ d + n ≤ i) → slot dst1 i = slot dst i) := by
  induction n with
  | zero =>
    intro first dst d l _ _
    left
    refine ⟨dst, by simp [uninitialized_copy_n], rfl, ?_⟩
    intro i
    rw [if_neg (by omega)]
  | succ n ih =>
    intro first dst d l hsrc hd
    obtain ⟨x, hx⟩ := Option.isSome_iff_exists.mp (hsrc 0 (by omega))
    simp only [Nat.add_zero] at hx
    have hlen : ¬ dst.length ≤ d := by omega
    by_cases ht : E.throws l .copyCtor = true
    · right
      refine ⟨dst, .copyCtor :: l, ?_, ⟨l, ht⟩, rfl, fun i _ => rfl⟩
      simp [uninitialized_copy_n, hx, hlen, ht]
    · have hsrc1 : ∀ i, i < n → (slot src (first + 1 + i)).isSome = true := by
        intro i hi
        have := hsrc (i + 1) (by omega)
        rwa [show first + (i + 1) = first + 1 + i by omega] at this
      have hd1 : d + 1 + n ≤ (dst.set d (some x)).length := by
        simp only [List.length_set]; omega
      rcases ih (first + 1) (dst.set d (some x)) (d + 1) (.copyCtor :: l) hsrc1 hd1 with
        ⟨dst1, h1, h2, h3⟩ | ⟨dst1, l1, h1, h2, h3, h4⟩
      · left
        refine ⟨dst1, ?_, ?_, ?_⟩
        · simp [uninitialized_copy_n, hx, hlen, ht, h1, replicate_append_cons]
        · simpa using h2
        · intro i
          rw [h3 i, slot_set]
          by_cases hi : i = d
          · subst hi
            have a1 : ¬ (i + 1 ≤ i ∧ i < i + 1 + n) := by omega
            have a2 : (i ≤ i ∧ i < i + (n + 1)) := by omega
            have a3 : i < dst.length := by omega
            simp [a1, a2, a3, hx]
          · by_cases hr : d + 1 ≤ i ∧ i < d + 1 + n
            · have a2 : (d ≤ i ∧ i < d + (n + 1)) := by omega
              have a3 : first + 1 + (i - (d + 1)) = first + (i - d) := by omega
              simp [hr, a2, a3]
            · have a2 : ¬ (d ≤ i ∧ i < d + (n + 1)) := by omega
              simp [hr, a2, hi]
      · right
        refine ⟨dst1.set d none, .destroy :: l1, ?_, h2, ?_, ?_⟩
        · simp [uninitialized_copy_n, hx, hlen, ht, h1]
        · simpa using h3
        · intro i hi
          rw [slot_set, h4 i (by omega), slot_set]
          have : ¬ (i = d) := by omega
          simp [this]

theorem length_lt_of_slot {b : Block T} {i : Nat} {x : T} (h : slot b i = some x) :
    i < b.length := by
  by_contra hc
  rw [slot_of_length_le b i (by omega)] at h
  cases h

/-- On live sources and a destination with room, `uninitialized_move_n` either constructs the
`n` objects, leaving the sources moved-from, or throws because a move constructor that is
not `noexcept` threw. -/
theorem uninitialized_move_n_spec (E : ElemType T) (n : Nat) :
    ∀ (first : Nat) (src dst : Block T) (d : Nat) (l : Log),
    (∀ i, i < n → (slot src (first + i)).isSome = true) → d + n ≤ dst.length →
    (∃ src1 dst1, uninitialized_move_n E n first src dst d l
          = .ok () (src1, dst1) (List.replicate n Ev.moveCtor ++ l)
        ∧ src1.length = src.length ∧ dst1.length = dst.length
        ∧ (∀ i, slot dst1 i
            = if d ≤ i ∧ i < d + n then slot src (first + (i - d)) else slot dst i)
        ∧ (∀ i, slot src1 i
            = if first ≤ i ∧ i < first + n then (slot src i).map E.moved_from else slot src i))
    ∨ (∃ s l1, uninitialized_move_n E n first src dst d l = .threw s l1
        ∧ E.is_nothrow_move_constructible = false ∧ ∃ h, E.throws h .moveCtor = true) := by
  induction n with
  | zero =>
    intro first src dst d l _ _
    left
    refine ⟨src, dst, by simp [uninitialized_move_n], rfl, rfl, ?_, ?_⟩
    · intro i
      rw [if_neg (by omega)]
    · intro i
      rw [if_neg (by omega)]
  | succ n ih =>
    intro first src dst d l hsrc hd
    obtain ⟨x, hx⟩ := Option.isSome_iff_exists.mp (hsrc 0 (by omega))
    simp only [Nat.add_zero] at hx
    have hfirst : first < src.length := length_lt_of_slot hx
    have hlen : ¬ dst.length ≤ d := by omega
    by_cases ht : E.moveCtorThrows l = true
    · right
      refine ⟨(src, dst), .moveCtor :: l, ?_, ?_, ?_⟩
      · simp [uninitialized_move_n, hx, hlen, ht]
      · simp only [ElemType.moveCtorThrows, Bool.and_eq_true, Bool.not_eq_true'] at ht
        exact ht.1
      · simp only [ElemType.moveCtorThrows, Bool.and_eq_true, Bool.not_eq_true'] at ht
        exact ⟨l, ht.2⟩
    · have hsrc1 : ∀ i, i < n →
          (slot (src.set first (some (E.moved_from x))) (first + 1 + i)).isSome = true := by
        intro i hi
        have := hsrc (i + 1) (by omega)
        rw [slot_set, if_neg (by omega)]
        rwa [show first + (i + 1) = first + 1 + i by omega] at this
      have hd1 : d + 1 + n ≤ (dst.set d (some x)).length := by
        simp only [List.length_set]; omega
      rcases ih (first + 1) (src.set first (some (E.moved_from x))) (dst.set d (some x)) (d + 1)
          (.moveCtor :: l) hsrc1 hd1 with
        ⟨src1, dst1, h1, h2, h3, h4, h5⟩ | ⟨s, l1, h1, h2, h3⟩
      · left
        refine ⟨src1, dst1, ?_, ?_, ?_, ?_, ?_⟩
        · simp [uninitialized_move_n, hx, hlen, ht, h1, replicate_append_cons]
        · simpa using h2
        · simpa using h3
        · intro i
          rw [h4 i]
          simp only [slot_set]
          by_cases hi : i = d
          · subst hi
            rw [if_neg (by omega), if_pos ⟨rfl, by omega⟩, if_pos (by omega),
              show first + (i - i) = first by omega, hx]
          · by_cases hr : d + 1 ≤ i ∧ i < d + 1 + n
            · have a3 : first + 1 + (i - (d + 1)) = first + (i - d) := by omega
              rw [if_pos hr, if_neg (by omega), if_pos (by omega), a3]
            · rw [if_neg hr, if_neg (by omega), if_neg (by omega)]
        · intro i
          rw [h5 i, slot_set]
          by_cases hi : i = first
          · subst hi
            rw [if_neg (by omega), if_pos ⟨rfl, hfirst⟩, if_pos (by omega), hx]
            rfl
          · by_cases hr : first + 1 ≤ i ∧ i < first + 1 + n
            · rw [if_pos hr, if_neg (by omega), if_pos (by omega)]
            · rw [if_neg hr, if_neg (by omega), if_neg (by omega)]
      · right
        rcases s with ⟨s1, s2⟩
        refine ⟨(s1, s2.set d none), .destroy :: l1, ?_, h2, h3⟩
        simp [uninitialized_move_n, hx, hlen, ht, h1]

/-- With room in the block, `uninitialized_value_construct_n` either constructs `n`
value-initialized objects or throws because a constructor threw, leaving the block as it was
outside the range. -/
theorem uninitialized_value_construct_n_spec (E : ElemType T) (n : Nat) :
    ∀ (b : Block T) (d : Nat) (l : Log), d + n ≤ b.length →
    (∃ b1, uninitialized_value_construct_n E n b d l
          = .ok () b1 (List.replicate n Ev.valueCtor ++ l)
        ∧ b1.length = b.length
        ∧ ∀ i, slot b1 i = if d ≤ i ∧ i < d + n then some E.value_init else slot b i)
    ∨ (∃ b1 l1, uninitialized_value_construct_n E n b d l = .threw b1 l1
        ∧ (∃ h, E.throws h .valueCtor = true)
        ∧ b1.length = b.length
        ∧ ∀ i, (i < d ∨ d + n ≤ i) → slot b1 i = slot b i) := by
  induction n with
  | zero =>
    intro b d l _
    left
    refine ⟨b, by simp [uninitialized_value_construct_n], rfl, ?_⟩
    intro i
    rw [if_neg (by omega)]
  | succ n ih =>
    intro b d l hd
    have hlen : ¬ b.length ≤ d := by omega
    by_cases ht : E.throws l .valueCtor = true
    · right
      refine ⟨b, .valueCtor :: l, ?_, ⟨l, ht⟩, rfl, fun i _ => rfl⟩
      simp [uninitialized_value_construct_n, hlen, ht]
    · have hd1 : d + 1 + n ≤ (b.set d (some E.value_init)).length := by
        simp only [List.length_set]; omega
      rcases ih (b.set d (some E.value_init)) (d + 1) (.valueCtor :: l) hd1 with
        ⟨b1, h1, h2, h3⟩ | ⟨b1, l1, h1, h2, h3, h4⟩
      · left
        refine ⟨b1, ?_, ?_, ?_⟩
        · simp [uninitialized_value_construct_n, hlen, ht, h1, replicate_append_cons]
        · simpa using h2
        · intro i
          rw [h3 i, slot_set]
          by_cases hi : i = d
          · subst hi
            rw [if_neg (by omega), if_pos ⟨rfl, by omega⟩, if_pos (by omega)]
          · by_cases hr : d + 1 ≤ i ∧ i < d + 1 + n
            · rw [if_pos hr, if_pos (by omega)]
            · rw [if_neg hr, if_neg (by omega), if_neg (by omega)]
      · right
        refine ⟨b1.set d none, .destroy :: l1, ?_, h2, ?_, ?_⟩
        · simp [uninitialized_value_construct_n, hlen, ht, h1]
        · simpa using h3
        · intro i hi
          rw [slot_set, h4 i (by omega), slot_set]
          have : ¬ (i = d) := by omega
          simp [this]

/-- On live objects `destroy_n` returns normally and leaves the `n` slots raw. -/
theorem destroy_n_spec (n : Nat) :
    ∀ (b : Block T) (d : Nat) (l : Log),
    (∀ i, i < n → (slot b (d + i)).isSome = true) →
    ∃ b1, destroy_n n b d l = .ok () b1 (List.replicate n Ev.destroy ++ l)
      ∧ b1.length = b.length
      ∧ ∀ i, slot b1 i = if d ≤ i ∧ i < d + n then none else slot b i := by
  induction n with
  | zero =>
    intro b d l _
    refine ⟨b, by simp [destroy_n], rfl, ?_⟩
    intro i
    rw [if_neg (by omega)]
  | succ n ih =>
    intro b d l hb
    obtain ⟨x, hx⟩ := Option.isSome_iff_exists.mp (hb 0 (by omega))
    simp only [Nat.add_zero] at hx
    have hd : d < b.length := length_lt_of_slot hx
    have hb1 : ∀ i, i < n → (slot (b.set d none) (d + 1 + i)).isSome = true := by
      intro i hi
      have := hb (i + 1) (by omega)
      rw [slot_set, if_neg (by omega)]
      rwa [show d + (i + 1) = d + 1 + i by omega] at this
    obtain ⟨b1, h1, h2, h3⟩ := ih (b.set d none) (d + 1) (.destroy :: l) hb1
    refine ⟨b1, ?_, ?_, ?_⟩
    · simp [destroy_n, hx, h1, replicate_append_cons]
    · simpa using h2
    · intro i
      rw [h3 i, slot_set]
      by_cases hi : i = d
      · subst hi
        rw [if_neg (by omega), if_pos ⟨rfl, hd⟩, if_pos (by omega)]
      · by_cases hr : d + 1 ≤ i ∧ i < d + 1 + n
        · rw [if_pos hr, if_pos (by omega)]
        · rw [if_neg hr, if_neg (by omega), if_neg (by omega)]

/-- The algorithm `destroy_n` never throws. -/
theorem destroy_n_ne_threw (n : Nat) :
    ∀ (b : Block T) (d : Nat) (l : Log) (b1 : Block T) (l1 : Log),
    destroy_n n b d l ≠ .threw b1 l1 := by
  induction n with
  | zero => intro b d l b1 l1; simp [destroy_n]
  | succ n ih =>
    intro b d l b1 l1
    simp only [destroy_n]
    split
    · simp
    · exact ih _ _ _ _ _

/-- The loop of `std::move` one slot to the left, `first = d + 1`, on live objects: it
shifts `n` objects down and leaves the last source moved-from, or throws because a move
assignment threw. -/
theorem move_n_spec (E : ElemType T) (n : Nat) :
    ∀ (b : Block T) (first d : Nat) (l : Log), first = d + 1 →
    (∀ i, i ≤ n → (slot b (d + i)).isSome = true) →
    (∃ b1, move_n E n b first d l = .ok () b1 (List.replicate n Ev.moveAssign ++ l)
        ∧ b1.length = b.length
        ∧ ∀ i, slot b1 i = if d ≤ i ∧ i < d + n then slot b (i + 1)
            else if i = d + n ∧ 0 < n then (slot b i).map E.moved_from else slot b i)
    ∨ (∃ b1 l1, move_n E n b first d l = .threw b1 l1
        ∧ ∃ h, E.throws h .moveAssign = true) := by
  induction n with
  | zero =>
    intro b first d l _ _
    left
    refine ⟨b, by simp [move_n], rfl, ?_⟩
    intro i
    rw [if_neg (by omega), if_neg (by omega)]
  | succ n ih =>
    intro b first d l hf hb
    subst hf
    obtain ⟨x, hx⟩ := Option.isSome_iff_exists.mp (hb 1 (by omega))
    obtain ⟨y, hy⟩ := Option.isSome_iff_exists.mp (hb 0 (by omega))
    simp only [Nat.add_zero] at hy
    have hd : d < b.length := length_lt_of_slot hy
    have hd1 : d + 1 < b.length := length_lt_of_slot hx
    by_cases ht : E.throws l .moveAssign = true
    · right
      refine ⟨b, .moveAssign :: l, ?_, ⟨l, ht⟩⟩
      simp [move_n, hx, hy, ht]
    · have hb1 : ∀ i, i ≤ n →
          (slot ((b.set d (some x)).set (d + 1) (some (E.moved_from x))) (d + 1 + i)).isSome
            = true := by
        intro i hi
        simp only [slot_set, List.length_set]
        by_cases h0 : i = 0
        · subst h0
          rw [if_pos ⟨rfl, hd1⟩]
          rfl
        · rw [if_neg (by omega), if_neg (by omega)]
          have := hb (i + 1) (by omega)
          rwa [show d + (i + 1) = d + 1 + i by omega] at this
      rcases ih ((b.set d (some x)).set (d + 1) (some (E.moved_from x))) (d + 1 + 1) (d + 1)
          (.moveAssign :: l) rfl hb1 with ⟨b1, h1, h2, h3⟩ | ⟨b1, l1, h1, h2⟩
      · left
        refine ⟨b1, ?_, ?_, ?_⟩
        · simp [move_n, hx, hy, ht, h1, replicate_append_cons]
        · simpa using h2
        · intro i
          rw [h3 i]
          simp only [slot_set, List.length_set]
          split_ifs <;> first | rfl | omega | simp_all
      · right
        refine ⟨b1, l1, ?_, h2⟩
        simp [move_n, hx, hy, ht, h1]

/-- The loop of `std::move_backward` one slot to the right, `d_last = last + 1`, on live
objects: it shifts `n` objects up and leaves the first source moved-from, or throws because a
move assignment threw. -/
theorem move_backward_n_spec (E : ElemType T) (n : Nat) :
    ∀ (b : Block T) (last d_last : Nat) (l : Log), d_last = last + 1 → n ≤ last →
    (∀ i, i ≤ n → (slot b (last - i)).isSome = true) →
    (∃ b1, move_backward_n E n b last d_last l
          = .ok () b1 (List.replicate n Ev.moveAssign ++ l)
        ∧ b1.length = b.length
        ∧ ∀ i, slot b1 i = if last - n < i ∧ i ≤ last then slot b (i - 1)
            else if i = last - n ∧ 0 < n then (slot b i).map E.moved_from else slot b i)
    ∨ (∃ b1 l1, move_backward_n E n b last d_last l = .threw b1 l1
        ∧ ∃ h, E.throws h .moveAssign = true) := by
  induction n with
  | zero =>
    intro b last d_last l _ _ _
    left
    refine ⟨b, by simp [move_backward_n], rfl, ?_⟩
    intro i
    rw [if_neg (by omega), if_neg (by omega)]
  | succ n ih =>
    intro b last d_last l hf hn hb
    subst hf
    obtain ⟨x, hx⟩ := Option.isSome_iff_exists.mp (hb 1 (by omega))
    obtain ⟨y, hy⟩ := Option.isSome_iff_exists.mp (hb 0 (by omega))
    simp only [Nat.sub_zero] at hy
    have hl : last < b.length := length_lt_of_slot hy
    have hl0 : ¬ last = 0 := by omega
    by_cases ht : E.throws l .moveAssign = true
    · right
      refine ⟨b, .moveAssign :: l, ?_, ⟨l, ht⟩⟩
      simp [move_backward_n, hx, hy, ht, hl0]
    · have hb1 : ∀ i, i ≤ n →
          (slot ((b.set last (some x)).set (last - 1) (some (E.moved_from x)))
            (last - 1 - i)).isSome = true := by
        intro i hi
        simp only [slot_set, List.length_set]
        by_cases h0 : i = 0
        · subst h0
          rw [if_pos ⟨rfl, by omega⟩]
          rfl
        · rw [if_neg (by omega), if_neg (by omega)]
          have := hb (i + 1) (by omega)
          rwa [show last - (i + 1) = last - 1 - i by omega] at this
      rcases ih ((b.set last (some x)).set (last - 1) (some (E.moved_from x))) (last - 1) last
          (.moveAssign :: l) (by omega) (by omega) hb1 with ⟨b1, h1, h2, h3⟩ | ⟨b1, l1, h1, h2⟩
      · left
        refine ⟨b1, ?_, ?_, ?_⟩
        · simp [move_backward_n, hx, hy, ht, hl0, h1, replicate_append_cons]
        · simpa using h2
        · intro i
          rw [h3 i]
          simp only [slot_set, List.length_set]
          split_ifs <;> first
            | rfl
            | omega
            | (rw [show i = last - 1 by omega, hx]; rfl)
            | (rw [show i - 1 = last - 1 by omega, hx])
      · right
        refine ⟨b1, l1, ?_, h2⟩
        simp [move_backward_n, hx, hy, ht, hl0, h1]

/-! ## Vectors that hold a list -/

theorem holding_size (xs : List T) (cap : Nat) : (Vector.holding xs cap).size_ = xs.length := rfl

theorem holding_capacity (xs : List T) (cap : Nat) :
    (Vector.holding xs cap).data_.capacity_ = cap := rfl

theorem holding_length (xs : List T) (cap : Nat) (h : xs.length ≤ cap) :
    (Vector.holding xs cap).data_.buffer_.length = cap := by
  simp only [Vector.holding, List.length_append, List.length_map, List.length_replicate]
  omega

theorem holding_slot (xs : List T) (cap : Nat) (i : Nat) :
    slot (Vector.holding xs cap).data_.buffer_ i = xs[i]? := by
  simp only [Vector.holding]
  exact slot_map_some_append xs _ i

/-- A vector whose block has `cap` slots, the slots reading `xs`, is the vector holding `xs`. -/
theorem eq_holding (b : Block T) (cap n : Nat) (xs : List T) (hn : n = xs.length)
    (hcap : xs.length ≤ cap) (hl : b.length = cap) (hs : ∀ i, slot b i = xs[i]?) :
    (⟨⟨b, cap⟩, n⟩ : Vector T) = Vector.holding xs cap := by
  subst hn
  have hb : b = (Vector.holding xs cap).data_.buffer_ := by
    apply block_ext
    · rw [hl, holding_length xs cap hcap]
    · intro i _
      rw [hs i, holding_slot]
  simp only [hb, Vector.holding]

theorem getElem?_insert (xs : List T) (k : Nat) (x : T) (hk : k ≤ xs.length) (i : Nat) :
    (xs.take k ++ x :: xs.drop k)[i]?
      = if i < k then xs[i]? else if i = k then some x else xs[i - 1]? := by
  have hlen : (xs.take k).length = k := by simp [List.length_take]; omega
  by_cases h1 : i < k
  · rw [if_pos h1, List.getElem?_append_left (by omega), List.getElem?_take_of_lt h1]
  · rw [if_neg h1, List.getElem?_append_right (by omega), hlen]
    by_cases h2 : i = k
    · subst h2
      simp
    · rw [if_neg h2]
      obtain ⟨m, hm⟩ : ∃ m, i - k = m + 1 := ⟨i - k - 1, by omega⟩
      rw [hm, List.getElem?_cons_succ, List.getElem?_drop]
      congr 1
      omega

theorem getElem?_erase (xs : List T) (k : Nat) (hk : k ≤ xs.length) (i : Nat) :
    (xs.take k ++ xs.drop (k + 1))[i]? = if i < k then xs[i]? else xs[i + 1]? := by
  have hlen : (xs.take k).length = k := by simp [List.length_take]; omega
  by_cases h1 : i < k
  · rw [if_pos h1, List.getElem?_append_left (by omega), List.getElem?_take_of_lt h1]
  · rw [if_neg h1, List.getElem?_append_right (by omega), hlen, List.getElem?_drop]
    congr 1
    omega

theorem getElem?_snoc (xs : List T) (x : T) (i : Nat) :
    (xs ++ [x])[i]? = if i < xs.length then xs[i]? else if i = xs.length then some x else none := by
  by_cases h1 : i < xs.length
  · rw [if_pos h1, List.getElem?_append_left h1]
  · rw [if_neg h1, List.getElem?_append_right (by omega)]
    by_cases h2 : i = xs.length
    · subst h2
      simp
    · rw [if_neg h2]
      apply List.getElem?_eq_none
      simp only [List.length_singleton]
      omega

theorem isSome_getElem? (xs : List T) (i : Nat) (h : i < xs.length) : (xs[i]?).isSome = true := by
  rw [List.getElem?_eq_getElem h]
  rfl

theorem exists_list_of_live (b : Block T) (n : Nat) :
    (∀ i, i < n → (slot b i).isSome = true) →
    ∃ xs : List T, xs.length = n ∧ ∀ i, i < n → slot b i = xs[i]? := by
  induction n with
  | zero => intro _; exact ⟨[], rfl, fun i hi => absurd hi (Nat.not_lt_zero i)⟩
  | succ n ih =>
    intro h
    obtain ⟨xs, h1, h2⟩ := ih (fun i hi => h i (by omega))
    obtain ⟨x, hx⟩ := Option.isSome_iff_exists.mp (h n (by omega))
    refine ⟨xs ++ [x], by simp [h1], ?_⟩
    intro i hi
    by_cases hin : i < n
    · rw [h2 i hin, List.getElem?_append_left (by omega)]
    · have hieq : i = n := by omega
      subst hieq
      rw [hx, List.getElem?_append_right (by omega), h1]
      simp

/-- The vectors that satisfy the class invariant are the vectors holding a list within
their capacity. -/
theorem valid_iff_holding (v : Vector T) :
    v.Valid ↔ ∃ xs : List T, xs.length ≤ v.data_.capacity_
      ∧ v = Vector.holding xs v.data_.capacity_ := by
  obtain ⟨⟨b, cap⟩, n⟩ := v
  constructor
  · rintro ⟨h1, h2, h3⟩
    simp only at h1 h2 h3
    obtain ⟨xs, g1, g2⟩ := exists_list_of_live b n (fun i hi => (h3 i).mpr hi)
    refine ⟨xs, by simp only; omega, ?_⟩
    apply eq_holding b cap n xs g1.symm (by omega) h1
    intro i
    by_cases hi : i < n
    · exact g2 i hi
    · have hnone : slot b i = none := by
        cases hs : slot b i with
        | none => rfl
        | some x =>
          have := (h3 i).mp (by simp only [hs]; rfl)
          exact absurd this hi
      rw [hnone, List.getElem?_eq_none (by omega)]
  · rintro ⟨xs, h1, h2⟩
    rw [h2]
    refine ⟨holding_length xs _ h1, h1, ?_⟩
    intro i
    rw [holding_slot, holding_size]
    constructor
    · intro h
      by_contra hc
      rw [List.getElem?_eq_none (by omega)] at h
      cases h
    · intro h
      exact isSome_getElem? xs i h

theorem holding_live (xs : List T) (cap : Nat) (d n : Nat) (h : d + n ≤ xs.length) :
    ∀ i, i < n → (slot (Vector.holding xs cap).data_.buffer_ (d + i)).isSome = true := by
  intro i hi
  rw [holding_slot]
  exact isSome_getElem? xs _ (by omega)

/-- When `uninitialized_copy_n` returns normally, none of its copy constructors threw. -/
theorem uninitialized_copy_n_ok (E : ElemType T) (src : Block T) (n : Nat) :
    ∀ (first : Nat) (dst : Block T) (d : Nat) (l : Log) (dst1 : Block T) (l1 : Log),
    uninitialized_copy_n E src n first dst d l = .ok () dst1 l1 →
    ∀ j, j < n → E.throws (List.replicate j Ev.copyCtor ++ l) .copyCtor = false := by
  induction n with
  | zero => intro _ _ _ _ _ _ _ j hj; omega
  | succ n ih =>
    intro first dst d l dst1 l1 h j hj
    simp only [uninitialized_copy_n] at h
    split at h
    · cases h
    · split at h
      · cases h
      · split at h
        · cases h
        · rename_i ht
          split at h
          · cases h
          · rename_i r hr
            cases j with
            | zero => simpa using ht
            | succ j =>
              rw [← replicate_append_cons]
              exact ih _ _ _ _ _ _ h j (by omega)

/-- When `uninitialized_move_n` returns normally, none of its move constructors threw. -/
theorem uninitialized_move_n_ok (E : ElemType T) (n : Nat) :
    ∀ (first : Nat) (src dst : Block T) (d : Nat) (l : Log) (s1 : Block T × Block T) (l1 : Log),
    uninitialized_move_n E n first src dst d l = .ok () s1 l1 →
    ∀ j, j < n → E.moveCtorThrows (List.replicate j Ev.moveCtor ++ l) = false := by
  induction n with
  | zero => intro _ _ _ _ _ _ _ _ j hj; omega
  | succ n ih =>
    intro first src dst d l s1 l1 h j hj
    simp only [uninitialized_move_n] at h
    split at h
    · cases h
    · split at h
      · cases h
      · split at h
        · cases h
        · rename_i ht
          split at h
          · cases h
          · rename_i r hr
            cases j with
            | zero => simpa using ht
            | succ j =>
              rw [← replicate_append_cons]
              exact ih _ _ _ _ _ _ _ h j (by omega)

/-! ## The member functions on a vector that holds a list -/

/-- Relocation into a new block with room: `TransferContent` returns with the elements in the
new block, in order, or throws; when it throws and the type is copyable or its move
constructor is `noexcept`, the vector is as before. -/
theorem TransferContent_spec (E : ElemType T) (xs : List T) (cap : Nat) (nb : Block T)
    (ncap : Nat) (hnl : nb.length = ncap) (hn : xs.length ≤ ncap) (l : Log) :
    (∃ nb1 old, (Vector.holding xs cap).TransferContent E ⟨nb, ncap⟩ l
          = .ok () (⟨⟨nb1, ncap⟩, xs.length⟩, old)
              (List.replicate xs.length Ev.destroy
                ++ (List.replicate xs.length E.relocation ++ l))
        ∧ nb1.length = ncap
        ∧ (∀ i, slot nb1 i = if i < xs.length then xs[i]? else slot nb i)
        ∧ ∀ j, j < xs.length →
            E.relocationThrows (List.replicate j E.relocation ++ l) = false)
    ∨ (∃ s l1, (Vector.holding xs cap).TransferContent E ⟨nb, ncap⟩ l = .threw s l1
        ∧ (∃ h e, E.throws h e = true)
        ∧ (E.is_nothrow_move_constructible = true ∨ E.is_copy_constructible = true
            → s.1 = Vector.holding xs cap)) := by
  have hlive := holding_live xs cap 0 xs.length (by omega)
  by_cases hc : (E.is_nothrow_move_constructible || !E.is_copy_constructible) = true
  · have hrel : E.relocation = .moveCtor := by simp [ElemType.relocation, hc]
    rcases uninitialized_move_n_spec E xs.length 0 (Vector.holding xs cap).data_.buffer_ nb 0 l
        hlive (by omega) with ⟨src1, dst1, h1, h2, h3, h4, h5⟩ | ⟨s, l1, h1, h2, h3⟩
    · have hlive1 : ∀ i, i < xs.length → (slot src1 (0 + i)).isSome = true := by
        intro i hi
        rw [h5, if_pos (by omega), Nat.zero_add, holding_slot, List.getElem?_eq_getElem hi]
        rfl
      obtain ⟨src2, g1, g2, g3⟩ := destroy_n_spec xs.length src1 0
        (List.replicate xs.length Ev.moveCtor ++ l) hlive1
      left
      refine ⟨dst1, ⟨src2, cap⟩, ?_, by rw [h3, hnl], ?_, ?_⟩
      · simp only [Vector.TransferContent, hc, if_true, holding_size, Vector.begin,
          RawMemory.GetAddress, h1, Res.bind, g1, hrel, holding_capacity]
      · intro i
        rw [h4 i]
        by_cases hi : i < xs.length
        · rw [if_pos (by omega), if_pos hi, holding_slot]
          congr 1
          omega
        · rw [if_neg (by omega), if_neg hi]
      · intro j hj
        simp only [ElemType.relocationThrows, hc, if_true, hrel]
        exact uninitialized_move_n_ok E _ _ _ _ _ _ _ _ h1 j hj
    · right
      refine ⟨(⟨⟨s.1, cap⟩, xs.length⟩, ⟨s.2, ncap⟩), l1, ?_, ?_, ?_⟩
      · simp only [Vector.TransferContent, hc, if_true, holding_size, Vector.begin,
          RawMemory.GetAddress, h1, Res.bind, holding_capacity]
      · obtain ⟨h, hh⟩ := h3
        exact ⟨h, _, hh⟩
      · intro hor
        rw [h2] at hc hor
        rcases hor with hor | hor
        · cases hor
        · rw [hor] at hc
          cases hc
  · have hrel : E.relocation = .copyCtor := by simp [ElemType.relocation, hc]
    rcases uninitialized_copy_n_spec E (Vector.holding xs cap).data_.buffer_ xs.length 0 nb 0 l
        hlive (by omega) with ⟨dst1, h1, h2, h3⟩ | ⟨dst1, l1, h1, h2, h3, h4⟩
    · obtain ⟨src2, g1, g2, g3⟩ := destroy_n_spec xs.length
        (Vector.holding xs cap).data_.buffer_ 0 (List.replicate xs.length Ev.copyCtor ++ l) hlive
      left
      refine ⟨dst1, ⟨src2, cap⟩, ?_, by rw [h2, hnl], ?_, ?_⟩
      · simp only [Vector.TransferContent, if_neg hc, holding_size, Vector.begin,
          RawMemory.GetAddress, h1, Res.bind, g1, hrel, holding_capacity]
      · intro i
        rw [h3 i]
        by_cases hi : i < xs.length
        · rw [if_pos (by omega), if_pos hi, holding_slot]
          congr 1
          omega
        · rw [if_neg (by omega), if_neg hi]
      · intro j hj
        simp only [ElemType.relocationThrows, if_neg hc, hrel]
        exact uninitialized_copy_n_ok E _ _ _ _ _ _ _ _ h1 j hj
    · right
      refine ⟨(Vector.holding xs cap, ⟨dst1, ncap⟩), l1, ?_, ?_, fun _ => rfl⟩
      · simp only [Vector.TransferContent, if_neg hc, holding_size, Vector.begin,
          RawMemory.GetAddress, h1, Res.bind, holding_capacity]
        rfl
      · obtain ⟨h, hh⟩ := h2
        exact ⟨h, _, hh⟩

theorem holding_set_buffer (xs : List T) (cap j : Nat) (y : T) (hj : j < xs.length) :
    (Vector.holding xs cap).data_.buffer_.set j (some y)
      = (Vector.holding (xs.set j y) cap).data_.buffer_ := by
  simp only [Vector.holding, List.length_set]
  rw [List.set_append, if_pos (by simpa using hj), List.map_set]

theorem consumed_length (E : ElemType T) (cat : Cat) (arg : Arg T) (xs : List T) :
    (arg.consumed E cat xs).length = xs.length := by
  unfold Arg.consumed
  split
  · split
    · exact List.length_set _ _ _
    · rfl
  · rfl

theorem consumed_lvalue (E : ElemType T) (arg : Arg T) (xs : List T) :
    arg.consumed E .lvalue xs = xs := by
  cases arg <;> rfl

theorem consumed_to_const (E : ElemType T) (arg : Arg T) (xs : List T) :
    arg.consumed E .to_const xs = xs := by
  cases arg <;> rfl

theorem consumed_val (E : ElemType T) (cat : Cat) (x : T) (xs : List T) :
    (Arg.val x).consumed E cat xs = xs := by
  cases cat <;> rfl

theorem holding_rebuild (ys : List T) (cap n : Nat) (h : ys.length = n) :
    (⟨⟨(Vector.holding ys cap).data_.buffer_, cap⟩, n⟩ : Vector T) = Vector.holding ys cap := by
  subst h
  rfl

/-- On a vector holding `xs`, the constructor of the new element throws, or returns the value
its argument denotes (list-initialized when `braces` is set) and leaves the block holding the
elements with the argument consumed. -/
theorem construct_eq (E : ElemType T) (braces : Bool) (cat : Cat) (arg : Arg T) (xs : List T)
    (cap : Nat) (x : T) (hx : arg.value xs = some x) (l : Log) :
    construct E braces cat arg (Vector.holding xs cap).data_.buffer_ l
      = if E.throws l .construct then
          .threw (Vector.holding xs cap).data_.buffer_ (.construct :: l)
        else .ok (if braces then E.brace_init x else x)
          (Vector.holding (arg.consumed E cat xs) cap).data_.buffer_ (.construct :: l) := by
  cases arg with
  | val y =>
    simp only [Arg.value, Option.some.injEq] at hx
    subst hx
    rw [consumed_val]
    rfl
  | own j =>
    simp only [Arg.value] at hx
    have hj : j < xs.length := by
      by_contra hc
      rw [List.getElem?_eq_none (by omega)] at hx
      cases hx
    cases cat with
    | lvalue => simp only [construct, holding_slot, hx, consumed_lvalue]
    | to_const => simp only [construct, holding_slot, hx, consumed_to_const]
    | rvalue =>
      simp only [construct, holding_slot, hx, Arg.consumed, holding_set_buffer xs cap j _ hj]

/-- When `n * sizeof(T)` does not wrap, the block `RawMemory(n)` allocates has `n` slots. -/
theorem create_eq (E : ElemType T) (n : Nat) (hn : n ≠ 0) (hfit : n * E.sizeof ≤ SIZE_MAX)
    (l : Log) :
    (RawMemory.create E n l : Res Unit (RawMemory T))
      = if E.throws l (.alloc n) then .threw () (.alloc n :: l)
        else .ok ⟨List.replicate n none, n⟩ () (.alloc n :: l) := by
  have hslots : n * E.sizeof % (SIZE_MAX + 1) / E.sizeof = n := by
    rw [Nat.mod_eq_of_lt (by omega), Nat.mul_div_cancel _ E.sizeof_pos]
  simp only [RawMemory.create, RawMemory.Allocate, hn, ne_eq, not_false_eq_true, if_true,
    hslots]
  split <;> rfl

theorem create_zero (E : ElemType T) (l : Log) :
    (RawMemory.create E 0 l : Res Unit (RawMemory T)) = .ok ⟨[], 0⟩ () l := by
  simp [RawMemory.create, RawMemory.Allocate, Res.bind]

theorem grownCapacity_gt (n : Nat) : n < grownCapacity n := by
  unfold grownCapacity
  split <;> omega

/-- On a vector holding `xs`, `EmplaceBack` appends the value of its argument, after the
constructor has taken the argument, and returns the slot of the new last element; or it
throws, and when it throws without reallocating, or the type is copyable or its move
constructor is `noexcept`, the vector holds `xs` as before, or `xs` with the argument consumed
when the new element had been constructed. -/
theorem EmplaceBackAs_spec (E : ElemType T) (cat : Cat) (xs : List T) (cap : Nat)
    (hcap : xs.length ≤ cap)
    (hfit : xs.length = cap → grownCapacity cap * E.sizeof ≤ SIZE_MAX)
    (arg : Arg T) (x : T) (hx : arg.value xs = some x) (l : Log) :
    (∃ l1, (Vector.holding xs cap).EmplaceBackAs E cat arg l
          = .ok xs.length
              (Vector.holding (arg.consumed E cat xs ++ [x])
                (if xs.length = cap then grownCapacity cap else cap)) l1
        ∧ (l1 = if xs.length = cap then
            List.replicate xs.length Ev.destroy ++ (List.replicate xs.length E.relocation
              ++ Ev.construct :: Ev.alloc (grownCapacity cap) :: l)
          else Ev.construct :: l)
        ∧ (if xs.length = cap then
            E.throws l (.alloc (grownCapacity cap)) = false
            ∧ E.throws (.alloc (grownCapacity cap) :: l) .construct = false
            ∧ ∀ j, j < xs.length → E.relocationThrows (List.replicate j E.relocation
                ++ Ev.construct :: Ev.alloc (grownCapacity cap) :: l) = false
          else E.throws l .construct = false))
    ∨ (∃ s l1, (Vector.holding xs cap).EmplaceBackAs E cat arg l = .threw s l1
        ∧ (∃ h e, E.throws h e = true)
        ∧ (xs.length < cap ∨ E.is_nothrow_move_constructible = true
            ∨ E.is_copy_constructible = true →
            s = Vector.holding xs cap ∨ s = Vector.holding (arg.consumed E cat xs) cap)) := by
  obtain ⟨ys, hys⟩ : ∃ ys, ys = arg.consumed E cat xs := ⟨_, rfl⟩
  have hlen : ys.length = xs.length := by rw [hys, consumed_length]
  rw [← hys]
  have hcon := construct_eq E false cat arg xs cap x hx
  rw [← hys] at hcon
  simp only [Bool.false_eq_true, if_false] at hcon
  by_cases hfull : xs.length = cap
  · subst hfull
    have hg := grownCapacity_gt xs.length
    have hg0 : grownCapacity xs.length ≠ 0 := by omega
    have hg1 : ¬ grownCapacity xs.length ≤ xs.length := by omega
    have hgdef : (if xs.length = 0 then 1 else xs.length * 2) = grownCapacity xs.length := rfl
    by_cases ha : E.throws l (.alloc (grownCapacity xs.length)) = true
    · right
      refine ⟨Vector.holding xs xs.length, .alloc (grownCapacity xs.length) :: l, ?_,
        ⟨_, _, ha⟩, fun _ => Or.inl rfl⟩
      simp only [Vector.EmplaceBackAs, holding_size, Vector.Capacity, RawMemory.Capacity,
        holding_capacity, if_true, hgdef, create_eq E _ hg0 (hfit rfl), ha, Res.bind, id, id]
    · simp only [Bool.not_eq_true] at ha
      by_cases hc : E.throws (.alloc (grownCapacity xs.length) :: l) .construct = true
      · right
        refine ⟨Vector.holding xs xs.length,
          .construct :: .alloc (grownCapacity xs.length) :: l, ?_, ⟨_, _, hc⟩,
          fun _ => Or.inl rfl⟩
        simp only [Vector.EmplaceBackAs, holding_size, Vector.Capacity, RawMemory.Capacity,
          holding_capacity, if_true, hgdef, create_eq E _ hg0 (hfit rfl), ha, Res.bind, id,
          RawMemory.subscript, hg, hcon, hc, Bool.false_eq_true,
          if_false, List.length_replicate, hg1]
        rfl
      · simp only [Bool.not_eq_true] at hc
        have hnl : ((List.replicate (grownCapacity xs.length) (none : Option T)).set xs.length
            (some x)).length = grownCapacity xs.length := by simp
        rcases TransferContent_spec E ys xs.length _ (grownCapacity xs.length) hnl (by omega)
            (.construct :: .alloc (grownCapacity xs.length) :: l) with
          ⟨nb1, old, h1, h2, h3, h4⟩ | ⟨s, l1, h1, h2, h3⟩
        · rw [hlen] at h1
          simp only [hlen] at h3 h4
          left
          refine ⟨_, ?_, rfl, ?_⟩
          swap
          · rw [if_pos rfl]
            exact ⟨ha, hc, h4⟩
          have hv : (⟨⟨nb1, grownCapacity xs.length⟩, xs.length + 1⟩ : Vector T)
              = Vector.holding (ys ++ [x]) (grownCapacity xs.length) := by
            apply eq_holding
            · simp [hlen]
            · simp only [List.length_append, List.length_singleton]; omega
            · exact h2
            · intro i
              rw [h3 i, getElem?_snoc, slot_set, slot_replicate_none, List.length_replicate,
                hlen]
              split_ifs <;> first | rfl | omega
          simp only [Vector.EmplaceBackAs, holding_size, Vector.Capacity, RawMemory.Capacity,
            holding_capacity, if_true, hgdef, create_eq E _ hg0 (hfit rfl), ha, Res.bind, id,
            RawMemory.subscript, hg, hcon, hc, List.length_replicate,
            holding_rebuild ys xs.length xs.length hlen,
            h1, Nat.add_sub_cancel, hv, Bool.false_eq_true, if_false, hg1]
        · right
          refine ⟨s.1, l1, ?_, h2, ?_⟩
          · simp only [Vector.EmplaceBackAs, holding_size, Vector.Capacity, RawMemory.Capacity,
              holding_capacity, if_true, hgdef, create_eq E _ hg0 (hfit rfl), ha, Res.bind, id,
              RawMemory.subscript, hg, hcon, hc, List.length_replicate,
              holding_rebuild ys xs.length xs.length hlen,
              h1, Bool.false_eq_true, if_false, hg1]
          · intro hor
            rcases hor with hor | hor
            · omega
            · exact Or.inr (h3 hor)
  · have hlt : xs.length < cap := by omega
    have hne : ¬ cap ≤ xs.length := by omega
    by_cases hc : E.throws l .construct = true
    · right
      refine ⟨Vector.holding xs cap, .construct :: l, ?_, ⟨_, _, hc⟩, fun _ => Or.inl rfl⟩
      simp only [Vector.EmplaceBackAs, holding_size, Vector.Capacity, RawMemory.Capacity,
        holding_capacity, hfull, if_false, Vector.end_, RawMemory.plus, hcap, if_true,
        hcon, hc, Res.bind, id, id, holding_length xs cap hcap, hne]
      rfl
    · simp only [Bool.not_eq_true] at hc
      left
      refine ⟨_, ?_, by rw [if_neg hfull], by rw [if_neg hfull]; exact hc⟩
      have hv : (⟨⟨(Vector.holding ys cap).data_.buffer_.set xs.length (some x), cap⟩,
          xs.length + 1⟩ : Vector T) = Vector.holding (ys ++ [x]) cap := by
        apply eq_holding
        · simp [hlen]
        · simp only [List.length_append, List.length_singleton]; omega
        · rw [List.length_set, holding_length ys cap (by omega)]
        · intro i
          rw [getElem?_snoc, slot_set, holding_slot, holding_length ys cap (by omega), hlen]
          split_ifs <;> first | rfl | omega | (apply List.getElem?_eq_none; omega)
      simp only [Vector.EmplaceBackAs, holding_size, Vector.Capacity, RawMemory.Capacity,
        holding_capacity, hfull, if_false, Vector.end_, RawMemory.plus, hcap, if_true,
        hcon, hc, Res.bind, id, holding_length xs cap hcap, hne,
        Nat.add_sub_cancel, hv, RawMemory.subscript, hlt, Bool.false_eq_true]

/-- For an argument the constructor does not consume (an lvalue or a reference to const, or
an object outside the vector), `EmplaceBack` appends the value of its argument to `xs`, or
throws; when it throws without reallocating, or the type is copyable or its move constructor
is `noexcept`, the vector is as before. -/
theorem EmplaceBackAs_kept (E : ElemType T) (cat : Cat) (xs : List T) (cap : Nat)
    (hcap : xs.length ≤ cap)
    (hfit : xs.length = cap → grownCapacity cap * E.sizeof ≤ SIZE_MAX)
    (arg : Arg T) (hkeep : arg.consumed E cat xs = xs) (x : T) (hx : arg.value xs = some x)
    (l : Log) :
    (∃ l1, (Vector.holding xs cap).EmplaceBackAs E cat arg l
          = .ok xs.length
              (Vector.holding (xs ++ [x]) (if xs.length = cap then grownCapacity cap else cap)) l1
        ∧ (l1 = if xs.length = cap then
            List.replicate xs.length Ev.destroy ++ (List.replicate xs.length E.relocation
              ++ Ev.construct :: Ev.alloc (grownCapacity cap) :: l)
          else Ev.construct :: l)
        ∧ (if xs.length = cap then
            E.throws l (.alloc (grownCapacity cap)) = false
            ∧ E.throws (.alloc (grownCapacity cap) :: l) .construct = false
            ∧ ∀ j, j < xs.length → E.relocationThrows (List.replicate j E.relocation
                ++ Ev.construct :: Ev.alloc (grownCapacity cap) :: l) = false
          else E.throws l .construct = false))
    ∨ (∃ s l1, (Vector.holding xs cap).EmplaceBackAs E cat arg l = .threw s l1
        ∧ (∃ h e, E.throws h e = true)
        ∧ (xs.length < cap ∨ E.is_nothrow_move_constructible = true
            ∨ E.is_copy_constructible = true → s = Vector.holding xs cap)) := by
  have h := EmplaceBackAs_spec E cat xs cap hcap hfit arg x hx l
  rw [hkeep] at h
  rcases h with h | ⟨s, l1, h1, h2, h3⟩
  · exact Or.inl h
  · exact Or.inr ⟨s, l1, h1, h2, fun hor => (h3 hor).elim id id⟩

/-- On a vector holding `xs`, `v.EmplaceBack(x)` with `x` an lvalue appends the value of `x`
and returns the slot of the new last element, or throws; when it throws without reallocating,
or the type is copyable or its move constructor is `noexcept`, the vector is as before. -/
theorem EmplaceBack_spec (E : ElemType T) (xs : List T) (cap : Nat) (hcap : xs.length ≤ cap)
    (hfit : xs.length = cap → grownCapacity cap * E.sizeof ≤ SIZE_MAX)
    (arg : Arg T) (x : T) (hx : arg.value xs = some x) (l : Log) :
    (∃ l1, (Vector.holding xs cap).EmplaceBack E arg l
          = .ok xs.length
              (Vector.holding (xs ++ [x]) (if xs.length = cap then grownCapacity cap else cap)) l1
        ∧ (l1 = if xs.length = cap then
            List.replicate xs.length Ev.destroy ++ (List.replicate xs.length E.relocation
              ++ Ev.construct :: Ev.alloc (grownCapacity cap) :: l)
          else Ev.construct :: l)
        ∧ (if xs.length = cap then
            E.throws l (.alloc (grownCapacity cap)) = false
            ∧ E.throws (.alloc (grownCapacity cap) :: l) .construct = false
            ∧ ∀ j, j < xs.length → E.relocationThrows (List.replicate j E.relocation
                ++ Ev.construct :: Ev.alloc (grownCapacity cap) :: l) = false
          else E.throws l .construct = false))
    ∨ (∃ s l1, (Vector.holding xs cap).EmplaceBack E arg l = .threw s l1
        ∧ (∃ h e, E.throws h e = true)
        ∧ (xs.length < cap ∨ E.is_nothrow_move_constructible = true
            ∨ E.is_copy_constructible = true → s = Vector.holding xs cap)) :=
  EmplaceBackAs_kept E .lvalue xs cap hcap hfit arg (consumed_lvalue E arg xs) x hx l

/-- On a vector holding `xs`, `Erase` at a position `k < xs.length` removes the element
there, keeps the block, and returns `k`; it throws only if a move assignment throws. -/
theorem Erase_spec (E : ElemType T) (xs : List T) (cap : Nat) (hcap : xs.length ≤ cap)
    (k : Nat) (hk : k < xs.length) (l : Log) :
    (∃ l1, (Vector.holding xs cap).Erase E k l
          = .ok k (Vector.holding (xs.take k ++ xs.drop (k + 1)) cap) l1
        ∧ l1 = Ev.destroy :: (List.replicate (xs.length - (k + 1)) Ev.moveAssign ++ l))
    ∨ (∃ s l1, (Vector.holding xs cap).Erase E k l = .threw s l1
        ∧ ∃ h, E.throws h .moveAssign = true) := by
  have hnot : ¬ xs.length < k + 1 := by omega
  have hne : ¬ xs.length = 0 := by omega
  have hlive : ∀ i, i ≤ xs.length - (k + 1) →
      (slot (Vector.holding xs cap).data_.buffer_ (k + i)).isSome = true := by
    intro i hi
    rw [holding_slot]
    exact isSome_getElem? xs _ (by omega)
  rcases move_n_spec E (xs.length - (k + 1)) (Vector.holding xs cap).data_.buffer_ (k + 1) k l
      rfl hlive with ⟨b1, h1, h2, h3⟩ | ⟨b1, l1, h1, h2⟩
  · have hlive1 : ∀ i, i < 1 → (slot b1 (xs.length - 1 + i)).isSome = true := by
      intro i hi
      have hi0 : i = 0 := by omega
      subst hi0
      rw [h3, holding_slot, holding_slot, Nat.add_zero]
      have e1 : (xs[xs.length - 1]?).isSome = true := isSome_getElem? xs _ (by omega)
      have e2 : (xs[xs.length - 1 + 1]?) = none := List.getElem?_eq_none (by omega)
      obtain ⟨z, hz⟩ := Option.isSome_iff_exists.mp e1
      split_ifs <;> first | omega | simp [hz]
    obtain ⟨b2, g1, g2, g3⟩ := destroy_n_spec 1 b1 (xs.length - 1)
      (List.replicate (xs.length - (k + 1)) Ev.moveAssign ++ l) hlive1
    left
    refine ⟨_, ?_, rfl⟩
    have hv : (⟨⟨b2, cap⟩, xs.length - 1⟩ : Vector T)
        = Vector.holding (xs.take k ++ xs.drop (k + 1)) cap := by
      apply eq_holding
      · simp only [List.length_append, List.length_take, List.length_drop]; omega
      · simp only [List.length_append, List.length_take, List.length_drop]; omega
      · rw [g2, h2, holding_length xs cap hcap]
      · intro i
        rw [g3 i, h3 i, getElem?_erase xs k (by omega), holding_slot, holding_slot]
        split_ifs <;> first
          | rfl
          | omega
          | (rw [List.getElem?_eq_none (by omega), List.getElem?_eq_none (by omega)]; done)
          | (rw [List.getElem?_eq_none (by omega)]; done)
    simp only [Vector.Erase, Vector.begin, RawMemory.GetAddress, Nat.sub_zero, Nat.zero_add,
      Vector.end_, RawMemory.plus, holding_size, holding_capacity, hcap, if_true, move, hnot,
      if_false, h1, Res.bind, hne, g1, hv, List.replicate_one, List.singleton_append]
  · right
    refine ⟨⟨⟨b1, cap⟩, xs.length⟩, l1, ?_, h2⟩
    simp only [Vector.Erase, Vector.begin, RawMemory.GetAddress, Nat.sub_zero, Nat.zero_add,
      Vector.end_, RawMemory.plus, holding_size, holding_capacity, hcap, if_true, move, hnot,
      if_false, h1, Res.bind]

/-- The two `uninitialized_move` calls of `Emplace`, around the slot `k` of the new block. -/
theorem Emplace_relocate_move (E : ElemType T) (xs : List T) (cap k : Nat) (hk : k < xs.length)
    (nb : Block T) (hnl : xs.length + 1 ≤ nb.length) (l : Log) :
    (∃ src1 dst1,
        ((uninitialized_move_n E k 0 (Vector.holding xs cap).data_.buffer_ nb 0 l).bind id
          fun _ s l3 => uninitialized_move E k xs.length s.1 s.2 (k + 1) l3)
          = .ok () (src1, dst1)
              (List.replicate (xs.length - k) Ev.moveCtor ++ (List.replicate k Ev.moveCtor ++ l))
        ∧ dst1.length = nb.length
        ∧ (∀ i, i < xs.length → (slot src1 (0 + i)).isSome = true)
        ∧ (∀ i, slot dst1 i
            = if i < k then xs[i]? else if k < i ∧ i ≤ xs.length then xs[i - 1]? else slot nb i)
        ∧ ∀ j, j < xs.length → E.moveCtorThrows (List.replicate j Ev.moveCtor ++ l) = false)
    ∨ (∃ s l1,
        ((uninitialized_move_n E k 0 (Vector.holding xs cap).data_.buffer_ nb 0 l).bind id
          fun _ s l3 => uninitialized_move E k xs.length s.1 s.2 (k + 1) l3) = .threw s l1
        ∧ E.is_nothrow_move_constructible = false ∧ ∃ h, E.throws h .moveCtor = true) := by
  have hlive := holding_live xs cap 0 k (by omega)
  have hnot : ¬ xs.length < k := by omega
  rcases uninitialized_move_n_spec E k 0 (Vector.holding xs cap).data_.buffer_ nb 0 l
      hlive (by omega) with ⟨src1, dst1, h1, h2, h3, h4, h5⟩ | ⟨s, l1, h1, h2, h3⟩
  · have hlive1 : ∀ i, i < xs.length - k → (slot src1 (k + i)).isSome = true := by
      intro i hi
      rw [h5, if_neg (by omega), holding_slot]
      exact isSome_getElem? xs _ (by omega)
    rcases uninitialized_move_n_spec E (xs.length - k) k src1 dst1 (k + 1)
        (List.replicate k Ev.moveCtor ++ l) hlive1 (by omega) with
      ⟨src2, dst2, g1, g2, g3, g4, g5⟩ | ⟨s, l1, g1, g2, g3⟩
    · left
      refine ⟨src2, dst2, ?_, by rw [g3, h3], ?_, ?_, ?_⟩
      · simp only [h1, Res.bind, uninitialized_move, hnot, if_false, g1]
      · intro i hi
        rw [g5, h5, holding_slot, Nat.zero_add]
        obtain ⟨z, hz⟩ := Option.isSome_iff_exists.mp (isSome_getElem? xs i hi)
        split_ifs <;> simp [hz]
      · intro i
        rw [g4, h5, h4, holding_slot, holding_slot]
        split_ifs <;> first
          | rfl
          | omega
          | (congr 1; omega)
      · intro j hj
        by_cases hjk : j < k
        · exact uninitialized_move_n_ok E _ _ _ _ _ _ _ _ h1 j hjk
        · have := uninitialized_move_n_ok E _ _ _ _ _ _ _ _ g1 (j - k) (by omega)
          rwa [← List.append_assoc, ← List.replicate_add,
            show j - k + k = j by omega] at this
    · right
      exact ⟨s, l1, by simp only [h1, Res.bind, uninitialized_move, hnot, if_false, g1], g2, g3⟩
  · right
    exact ⟨s, l1, by simp only [h1, Res.bind, id], h2, h3⟩

/-- The two `uninitialized_copy` calls of `Emplace`, around the slot `k` of the new block. -/
theorem Emplace_relocate_copy (E : ElemType T) (xs : List T) (cap k : Nat) (hk : k < xs.length)
    (nb : Block T) (hnl : xs.length + 1 ≤ nb.length) (l : Log) :
    (∃ dst1,
        ((uninitialized_copy_n E (Vector.holding xs cap).data_.buffer_ k 0 nb 0 l).bind
          (fun dst => ((Vector.holding xs cap).data_.buffer_, dst)) fun _ dst l3 =>
          (uninitialized_copy E (Vector.holding xs cap).data_.buffer_ k xs.length dst (k + 1)
            l3).bind (fun dst1 => ((Vector.holding xs cap).data_.buffer_, dst1))
            fun _ dst1 l4 => .ok () ((Vector.holding xs cap).data_.buffer_, dst1) l4)
          = .ok () ((Vector.holding xs cap).data_.buffer_, dst1)
              (List.replicate (xs.length - k) Ev.copyCtor ++ (List.replicate k Ev.copyCtor ++ l))
        ∧ dst1.length = nb.length
        ∧ (∀ i, slot dst1 i
            = if i < k then xs[i]? else if k < i ∧ i ≤ xs.length then xs[i - 1]? else slot nb i)
        ∧ ∀ j, j < xs.length → E.throws (List.replicate j Ev.copyCtor ++ l) .copyCtor = false)
    ∨ (∃ dst1 l1,
        ((uninitialized_copy_n E (Vector.holding xs cap).data_.buffer_ k 0 nb 0 l).bind
          (fun dst => ((Vector.holding xs cap).data_.buffer_, dst)) fun _ dst l3 =>
          (uninitialized_copy E (Vector.holding xs cap).data_.buffer_ k xs.length dst (k + 1)
            l3).bind (fun dst1 => ((Vector.holding xs cap).data_.buffer_, dst1))
            fun _ dst1 l4 => .ok () ((Vector.holding xs cap).data_.buffer_, dst1) l4)
          = .threw ((Vector.holding xs cap).data_.buffer_, dst1) l1
        ∧ ∃ h, E.throws h .copyCtor = true) := by
  have hlive := holding_live xs cap 0 k (by omega)
  have hnot : ¬ xs.length < k := by omega
  rcases uninitialized_copy_n_spec E (Vector.holding xs cap).data_.buffer_ k 0 nb 0 l
      hlive (by omega) with ⟨dst1, h1, h2, h3⟩ | ⟨dst1, l1, h1, h2, h3, h4⟩
  · have hlive1 := holding_live xs cap k (xs.length - k) (by omega)
    rcases uninitialized_copy_n_spec E (Vector.holding xs cap).data_.buffer_ (xs.length - k) k
        dst1 (k + 1) (List.replicate k Ev.copyCtor ++ l) hlive1 (by omega) with
      ⟨dst2, g1, g2, g3⟩ | ⟨dst2, l1, g1, g2, g3, g4⟩
    · left
      refine ⟨dst2, ?_, by rw [g2, h2], ?_, ?_⟩
      · simp only [h1, Res.bind, uninitialized_copy, hnot, if_false, g1]
      · intro i
        rw [g3, h3, holding_slot, holding_slot]
        split_ifs <;> first
          | rfl
          | omega
          | (congr 1; omega)
      · intro j hj
        by_cases hjk : j < k
        · exact uninitialized_copy_n_ok E _ _ _ _ _ _ _ _ h1 j hjk
        · have := uninitialized_copy_n_ok E _ _ _ _ _ _ _ _ g1 (j - k) (by omega)
          rwa [← List.append_assoc, ← List.replicate_add,
            show j - k + k = j by omega] at this
    · right
      exact ⟨dst2, l1, by simp only [h1, Res.bind, uninitialized_copy, hnot, if_false, g1], g2⟩
  · right
    exact ⟨dst1, l1, by simp only [h1, Res.bind], h2⟩

theorem bind_ok {σ τ α β : Type} (a : α) (s : σ) (l : Log) (u : σ → τ)
    (k : α → σ → Log → Res τ β) : (Res.ok a s l).bind u k = k a s l := rfl

theorem bind_threw {σ τ α β : Type} (s : σ) (l : Log) (u : σ → τ)
    (k : α → σ → Log → Res τ β) : (Res.threw s l : Res σ α).bind u k = .threw (u s) l := rfl

/-- On a full vector holding `xs`, `Emplace` before the end reallocates: it inserts the value
of its argument at `k`, among the elements left once the constructor has taken the argument,
in a block of doubled capacity, and returns `k`; or it throws, and when it throws and the
type is copyable or its move constructor is `noexcept`, the vector holds `xs` as before, or
`xs` with the argument consumed when the new element had been constructed. -/
theorem EmplaceAs_realloc_spec (E : ElemType T) (cat : Cat) (xs : List T) (k : Nat)
    (hk : k < xs.length) (hfit : grownCapacity xs.length * E.sizeof ≤ SIZE_MAX)
    (arg : Arg T) (x : T) (hx : arg.value xs = some x) (l : Log) :
    (∃ l1, (Vector.holding xs xs.length).EmplaceAs E cat k arg l
          = .ok k (Vector.holding ((arg.consumed E cat xs).take k ++ x
              :: (arg.consumed E cat xs).drop k) (grownCapacity xs.length)) l1
        ∧ l1 = List.replicate xs.length Ev.destroy ++ (List.replicate (xs.length - k) E.relocation
            ++ (List.replicate k E.relocation
              ++ Ev.construct :: Ev.alloc (grownCapacity xs.length) :: l))
        ∧ E.throws l (.alloc (grownCapacity xs.length)) = false
        ∧ E.throws (.alloc (grownCapacity xs.length) :: l) .construct = false
        ∧ ∀ j, j < xs.length → E.relocationThrows (List.replicate j E.relocation
            ++ Ev.construct :: Ev.alloc (grownCapacity xs.length) :: l) = false)
    ∨ (∃ s l1, (Vector.holding xs xs.length).EmplaceAs E cat k arg l = .threw s l1
        ∧ (∃ h e, E.throws h e = true)
        ∧ (E.is_nothrow_move_constructible = true ∨ E.is_copy_constructible = true
            → s = Vector.holding xs xs.length
              ∨ s = Vector.holding (arg.consumed E cat xs) xs.length)) := by
  obtain ⟨ys, hys⟩ : ∃ ys, ys = arg.consumed E cat xs := ⟨_, rfl⟩
  have hlen : ys.length = xs.length := by rw [hys, consumed_length]
  rw [← hys]
  have hcon := construct_eq E false cat arg xs xs.length x hx
  rw [← hys] at hcon
  simp only [Bool.false_eq_true, if_false] at hcon
  have hg := grownCapacity_gt xs.length
  have hg0 : grownCapacity xs.length ≠ 0 := by omega
  have hg1 : ¬ grownCapacity xs.length ≤ k := by omega
  have hg2 : k ≤ grownCapacity xs.length := by omega
  have hg3 : xs.length + 1 ≤ grownCapacity xs.length := by omega
  have hne : ¬ k = xs.length := by omega
  have hgdef : (if xs.length = 0 then 1 else xs.length * 2) = grownCapacity xs.length := rfl
  by_cases ha : E.throws l (.alloc (grownCapacity xs.length)) = true
  · right
    refine ⟨Vector.holding xs xs.length, .alloc (grownCapacity xs.length) :: l, ?_,
      ⟨_, _, ha⟩, fun _ => Or.inl rfl⟩
    simp only [Vector.EmplaceAs, Vector.begin, RawMemory.GetAddress, Nat.sub_zero, Nat.zero_add,
      Vector.end_, RawMemory.plus, holding_size, holding_capacity, le_refl, if_true, hne,
      if_false, Vector.Capacity, RawMemory.Capacity, hgdef, create_eq E _ hg0 hfit, ha,
      bind_threw]
  · simp only [Bool.not_eq_true] at ha
    by_cases hc : E.throws (.alloc (grownCapacity xs.length) :: l) .construct = true
    · right
      refine ⟨Vector.holding xs xs.length,
        .construct :: .alloc (grownCapacity xs.length) :: l, ?_, ⟨_, _, hc⟩,
        fun _ => Or.inl rfl⟩
      simp only [Vector.EmplaceAs, Vector.begin, RawMemory.GetAddress, Nat.sub_zero,
        Nat.zero_add, Vector.end_, RawMemory.plus, holding_size, holding_capacity, le_refl,
        if_true, hne, if_false, Vector.Capacity, RawMemory.Capacity, hgdef,
        create_eq E _ hg0 hfit, ha, bind_threw, bind_ok, Bool.false_eq_true, hg2, hcon, hc,
        List.length_replicate, hg1]
      rfl
    · simp only [Bool.not_eq_true] at hc
      have hnl : ys.length + 1 ≤ ((List.replicate (grownCapacity xs.length)
          (none : Option T)).set k (some x)).length := by simp; omega
      have hvec : ∀ dst1 : Block T, dst1.length
            = ((List.replicate (grownCapacity xs.length) (none : Option T)).set k (some x)).length →
          (∀ i, slot dst1 i = if i < k then ys[i]? else if k < i ∧ i ≤ ys.length then ys[i - 1]?
            else slot ((List.replicate (grownCapacity xs.length) (none : Option T)).set k
              (some x)) i) →
          (⟨⟨dst1, grownCapacity xs.length⟩, xs.length + 1⟩ : Vector T)
            = Vector.holding (ys.take k ++ x :: ys.drop k) (grownCapacity xs.length) := by
        intro dst1 hl hs
        apply eq_holding
        · simp only [List.length_append, List.length_take, List.length_cons, List.length_drop]
          omega
        · simp only [List.length_append, List.length_take, List.length_cons, List.length_drop]
          omega
        · rw [hl]; simp
        · intro i
          rw [hs i, getElem?_insert ys k x (by omega), slot_set, slot_replicate_none,
            List.length_replicate]
          split_ifs <;> first
            | rfl
            | omega
            | (rw [List.getElem?_eq_none (by omega)]; done)
      by_cases hcond : (E.is_nothrow_move_constructible || !E.is_copy_constructible) = true
      · have hrel : E.relocation = .moveCtor := by simp [ElemType.relocation, hcond]
        rcases Emplace_relocate_move E ys xs.length k (by omega) _ hnl
            (.construct :: .alloc (grownCapacity xs.length) :: l) with
          ⟨src1, dst1, h1, h2, h3, h4, h5⟩ | ⟨s, l1, h1, h2, h3⟩
        · rw [hlen] at h1
          simp only [hlen] at h3 h5
          obtain ⟨src2, g1, _, _⟩ := destroy_n_spec xs.length src1 0
            (List.replicate (xs.length - k) Ev.moveCtor ++ (List.replicate k Ev.moveCtor
              ++ Ev.construct :: Ev.alloc (grownCapacity xs.length) :: l)) h3
          left
          refine ⟨_, ?_, rfl, ha, hc, ?_⟩
          swap
          · intro j hj
            simp only [ElemType.relocationThrows, hcond, if_true, hrel]
            exact h5 j hj
          simp only [Vector.EmplaceAs, Vector.begin, RawMemory.GetAddress, Nat.sub_zero,
            Nat.zero_add, Vector.end_, RawMemory.plus, holding_size, holding_capacity, le_refl,
            if_true, hne, if_false, Vector.Capacity, RawMemory.Capacity, hgdef,
            create_eq E _ hg0 hfit, ha, bind_threw, bind_ok, Bool.false_eq_true, hg2,
            hcon, hc, List.length_replicate, hg1, hcond, h1, g1,
            hvec dst1 h2 h4, hrel]
        · rw [hlen] at h1
          right
          refine ⟨⟨⟨s.1, xs.length⟩, xs.length⟩, l1, ?_, ?_, ?_⟩
          · simp only [Vector.EmplaceAs, Vector.begin, RawMemory.GetAddress, Nat.sub_zero,
              Nat.zero_add, Vector.end_, RawMemory.plus, holding_size, holding_capacity, le_refl,
              if_true, hne, if_false, Vector.Capacity, RawMemory.Capacity, hgdef,
              create_eq E _ hg0 hfit, ha, bind_threw, bind_ok, Bool.false_eq_true, hg2,
              hcon, hc, List.length_replicate, hg1, hcond, h1]
          · obtain ⟨h, hh⟩ := h3
            exact ⟨h, _, hh⟩
          · intro hor
            rw [h2] at hcond hor
            rcases hor with hor | hor
            · cases hor
            · rw [hor] at hcond
              cases hcond
      · have hrel : E.relocation = .copyCtor := by simp [ElemType.relocation, hcond]
        rcases Emplace_relocate_copy E ys xs.length k (by omega) _ hnl
            (.construct :: .alloc (grownCapacity xs.length) :: l) with
          ⟨dst1, h1, h2, h4, h5⟩ | ⟨dst1, l1, h1, h3⟩
        · rw [hlen] at h1
          simp only [hlen] at h5
          obtain ⟨src2, g1, _, _⟩ := destroy_n_spec xs.length
            (Vector.holding ys xs.length).data_.buffer_ 0
            (List.replicate (xs.length - k) Ev.copyCtor ++ (List.replicate k Ev.copyCtor
              ++ Ev.construct :: Ev.alloc (grownCapacity xs.length) :: l))
            (holding_live ys xs.length 0 xs.length (by omega))
          left
          refine ⟨_, ?_, rfl, ha, hc, ?_⟩
          swap
          · intro j hj
            simp only [ElemType.relocationThrows, if_neg hcond, hrel]
            exact h5 j hj
          simp only [Vector.EmplaceAs, Vector.begin, RawMemory.GetAddress, Nat.sub_zero,
            Nat.zero_add, Vector.end_, RawMemory.plus, holding_size, holding_capacity, le_refl,
            if_true, hne, if_false, Vector.Capacity, RawMemory.Capacity, hgdef,
            create_eq E _ hg0 hfit, ha, bind_threw, bind_ok, Bool.false_eq_true, hg2,
            hcon, hc, List.length_replicate, hg1, if_neg hcond, h1, g1,
            hvec dst1 h2 h4, hrel]
        · rw [hlen] at h1
          right
          refine ⟨Vector.holding ys xs.length, l1, ?_, ?_, fun _ => Or.inr rfl⟩
          · simp only [Vector.EmplaceAs, Vector.begin, RawMemory.GetAddress, Nat.sub_zero,
              Nat.zero_add, Vector.end_, RawMemory.plus, holding_size, holding_capacity, le_refl,
              if_true, hne, if_false, Vector.Capacity, RawMemory.Capacity, hgdef,
              create_eq E _ hg0 hfit, ha, bind_threw, bind_ok, Bool.false_eq_true, hg2,
              hcon, hc, List.length_replicate, hg1, if_neg hcond, h1,
              holding_rebuild ys xs.length xs.length hlen]
          · obtain ⟨h, hh⟩ := h3
            exact ⟨h, _, hh⟩

/-- The shift of the in-place branch of `Emplace`: after the last element is moved into the
slot at the end and the range `[k, size - 1)` is moved backward, the block reads the old
elements with a moved-from object at `k`. -/
theorem Emplace_shift (E : ElemType T) (xs : List T) (cap k : Nat) (hk : k < xs.length)
    (hcap : xs.length < cap) (xk ylast : T) (hxk : xs[k]? = some xk)
    (hlast : xs[xs.length - 1]? = some ylast) (l : Log) :
    (∃ b2, move_backward_n E (xs.length - 1 - k)
          (((Vector.holding xs cap).data_.buffer_.set (xs.length - 1)
            (some (E.moved_from ylast))).set xs.length (some ylast)) (xs.length - 1) xs.length l
          = .ok () b2 (List.replicate (xs.length - 1 - k) Ev.moveAssign ++ l)
        ∧ b2 = (Vector.holding (xs.take k ++ E.moved_from xk :: xs.drop k) cap).data_.buffer_)
    ∨ (∃ b2 l1, move_backward_n E (xs.length - 1 - k)
          (((Vector.holding xs cap).data_.buffer_.set (xs.length - 1)
            (some (E.moved_from ylast))).set xs.length (some ylast)) (xs.length - 1) xs.length l
          = .threw b2 l1
        ∧ ∃ h, E.throws h .moveAssign = true) := by
  have hlen := holding_length xs cap (by omega)
  have hlive : ∀ i, i ≤ xs.length - 1 - k →
      (slot (((Vector.holding xs cap).data_.buffer_.set (xs.length - 1)
        (some (E.moved_from ylast))).set xs.length (some ylast)) (xs.length - 1 - i)).isSome
        = true := by
    intro i hi
    simp only [slot_set, List.length_set, holding_slot, hlen]
    have := isSome_getElem? xs (xs.length - 1 - i) (by omega)
    split_ifs <;> first | rfl | assumption
  rcases move_backward_n_spec E (xs.length - 1 - k) _ (xs.length - 1) xs.length l (by omega)
      (by omega) hlive with ⟨b2, h1, h2, h3⟩ | ⟨b2, l1, h1, h2⟩
  · left
    refine ⟨b2, h1, ?_⟩
    apply block_ext
    · rw [h2, holding_length]
      · simp only [List.length_set, hlen]
      · simp only [List.length_append, List.length_take, List.length_cons, List.length_drop]
        omega
    · intro i _
      rw [h3 i, holding_slot, getElem?_insert xs k _ (by omega)]
      simp only [slot_set, List.length_set, holding_slot, hlen]
      have hkl : k = xs.length - 1 → xk = ylast := by
        intro e
        rw [← e, hxk] at hlast
        exact Option.some.inj hlast
      split_ifs <;> first
        | rfl
        | omega
        | (rw [List.getElem?_eq_none (by omega), List.getElem?_eq_none (by omega)]; done)
        | (rw [hkl (by omega)]; first | done | rfl)
        | (rw [show i = k by omega, hxk]; first | done | rfl)
        | (rw [show i - 1 = xs.length - 1 by omega, hlast]; first | done | rfl)
  · right
    exact ⟨b2, l1, h1, h2⟩

/-- On a vector holding `xs` with a free slot, `Emplace` before the end shifts in place: it
constructs the new element, list-initialized, from what its argument denotes after the shift,
assigns it to slot `k`, keeps the block, and returns `k`, or throws. -/
theorem EmplaceAs_inplace_spec (E : ElemType T) (cat : Cat) (xs : List T) (cap k : Nat)
    (hk : k < xs.length) (hcap : xs.length < cap) (arg : Arg T) (xk y : T)
    (hxk : xs[k]? = some xk)
    (hy : arg.value (xs.take k ++ E.moved_from xk :: xs.drop k) = some y) (l : Log) :
    (∃ l1, (Vector.holding xs cap).EmplaceAs E cat k arg l
          = .ok k (Vector.holding
              ((arg.consumed E cat (xs.take k ++ E.moved_from xk :: xs.drop k)).set k
                (E.brace_init y)) cap) l1
        ∧ l1 = Ev.destroy :: Ev.moveAssign :: Ev.construct
            :: (List.replicate (xs.length - 1 - k) Ev.moveAssign ++ Ev.moveCtor :: l))
    ∨ (∃ s l1, (Vector.holding xs cap).EmplaceAs E cat k arg l = .threw s l1
        ∧ ∃ h e, E.throws h e = true) := by
  have hlen := holding_length xs cap (by omega)
  have hle : xs.length ≤ cap := by omega
  have hne : ¬ k = xs.length := by omega
  have hfull : ¬ xs.length = cap := by omega
  have h0 : ¬ xs.length = 0 := by omega
  have hcl : ¬ cap ≤ xs.length := by omega
  have hnot : ¬ xs.length - 1 < k := by omega
  have hkc : k < cap := by omega
  obtain ⟨ylast, hlast⟩ := Option.isSome_iff_exists.mp
    (isSome_getElem? xs (xs.length - 1) (by omega))
  by_cases hm : E.moveCtorThrows l = true
  · right
    refine ⟨Vector.holding xs cap, .moveCtor :: l, ?_, ?_⟩
    · simp only [Vector.EmplaceAs, Vector.begin, RawMemory.GetAddress, Nat.sub_zero,
        Nat.zero_add, Vector.end_, RawMemory.plus, holding_size, holding_capacity, hle, if_true,
        hne, if_false, Vector.Capacity, RawMemory.Capacity, hfull, h0, holding_slot, hlast,
        hlen, hcl, hm]
    · simp only [ElemType.moveCtorThrows, Bool.and_eq_true] at hm
      exact ⟨_, _, hm.2⟩
  · simp only [Bool.not_eq_true] at hm
    rcases Emplace_shift E xs cap k hk hcap xk ylast hxk hlast (.moveCtor :: l) with
      ⟨b2, h1, h2⟩ | ⟨b2, l1, h1, h2⟩
    · obtain ⟨zs, hzs⟩ : ∃ zs, zs
          = arg.consumed E cat (xs.take k ++ E.moved_from xk :: xs.drop k) := ⟨_, rfl⟩
      have hzl : zs.length = xs.length + 1 := by
        rw [hzs, consumed_length]
        simp only [List.length_append, List.length_take, List.length_cons, List.length_drop]
        omega
      have hcon := construct_eq E true cat arg _ cap y hy
        (List.replicate (xs.length - 1 - k) Ev.moveAssign ++ .moveCtor :: l)
      rw [← hzs, ← h2] at hcon
      simp only [if_true] at hcon
      obtain ⟨w0, hw0⟩ := Option.isSome_iff_exists.mp (isSome_getElem? zs k (by omega))
      have hslot : slot (Vector.holding zs cap).data_.buffer_ k = some w0 := by
        rw [holding_slot, hw0]
      rw [← hzs]
      by_cases hc : E.throws (List.replicate (xs.length - 1 - k) Ev.moveAssign ++ .moveCtor :: l)
          .construct = true
      · right
        refine ⟨⟨⟨b2, cap⟩, xs.length⟩, .construct :: (List.replicate (xs.length - 1 - k)
          Ev.moveAssign ++ .moveCtor :: l), ?_, ⟨_, _, hc⟩⟩
        simp only [Vector.EmplaceAs, Vector.begin, RawMemory.GetAddress, Nat.sub_zero,
          Nat.zero_add, Vector.end_, RawMemory.plus, holding_size, holding_capacity, hle,
          if_true, hne, if_false, Vector.Capacity, RawMemory.Capacity, hfull, h0, holding_slot,
          hlast, hlen, hcl, hm, Bool.false_eq_true, move_backward, hnot, h1, bind_ok, hcon, hc,
          bind_threw]
      · simp only [Bool.not_eq_true] at hc
        by_cases hs : E.throws (.construct :: (List.replicate (xs.length - 1 - k) Ev.moveAssign
            ++ .moveCtor :: l)) .moveAssign = true
        · right
          refine ⟨⟨⟨(Vector.holding zs cap).data_.buffer_, cap⟩, xs.length⟩,
            .destroy :: .moveAssign :: .construct
              :: (List.replicate (xs.length - 1 - k) Ev.moveAssign ++ .moveCtor :: l), ?_,
            ⟨_, _, hs⟩⟩
          simp only [Vector.EmplaceAs, Vector.begin, RawMemory.GetAddress, Nat.sub_zero,
            Nat.zero_add, Vector.end_, RawMemory.plus, holding_size, holding_capacity, hle,
            if_true, hne, if_false, Vector.Capacity, RawMemory.Capacity, hfull, h0,
            holding_slot, hlast, hlen, hcl, hm, Bool.false_eq_true, move_backward, hnot, h1,
            bind_ok, hcon, hc, RawMemory.subscript, hkc, hw0, hs]
        · simp only [Bool.not_eq_true] at hs
          left
          refine ⟨_, ?_, rfl⟩
          have hv : (⟨⟨(Vector.holding zs cap).data_.buffer_.set k (some (E.brace_init y)),
              cap⟩, xs.length + 1⟩ : Vector T)
              = Vector.holding (zs.set k (E.brace_init y)) cap := by
            rw [holding_set_buffer zs cap k _ (by omega)]
            exact holding_rebuild _ cap _ (by rw [List.length_set, hzl])
          simp only [Vector.EmplaceAs, Vector.begin, RawMemory.GetAddress, Nat.sub_zero,
            Nat.zero_add, Vector.end_, RawMemory.plus, holding_size, holding_capacity, hle,
            if_true, hne, if_false, Vector.Capacity, RawMemory.Capacity, hfull, h0,
            holding_slot, hlast, hlen, hcl, hm, Bool.false_eq_true, move_backward, hnot, h1,
            bind_ok, hcon, hc, RawMemory.subscript, hkc, hw0, hs, hv]
    · right
      refine ⟨⟨⟨b2, cap⟩, xs.length⟩, l1, ?_, ?_⟩
      · simp only [Vector.EmplaceAs, Vector.begin, RawMemory.GetAddress, Nat.sub_zero,
          Nat.zero_add, Vector.end_, RawMemory.plus, holding_size, holding_capacity, hle,
          if_true, hne, if_false, Vector.Capacity, RawMemory.Capacity, hfull, h0, holding_slot,
          hlast, hlen, hcl, hm, Bool.false_eq_true, move_backward, hnot, h1, bind_threw]
      · obtain ⟨h, hh⟩ := h2
        exact ⟨h, _, hh⟩

/-- On a vector holding `xs`, `Emplace` at the end is `EmplaceBack` of `std::move(args)...`
and returns the position of the new last element. -/
theorem EmplaceAs_tail_spec (E : ElemType T) (cat : Cat) (xs : List T) (cap : Nat)
    (hcap : xs.length ≤ cap)
    (hfit : xs.length = cap → grownCapacity cap * E.sizeof ≤ SIZE_MAX)
    (arg : Arg T) (x : T) (hx : arg.value xs = some x) (l : Log) :
    (∃ l1, (Vector.holding xs cap).EmplaceAs E cat xs.length arg l
          = .ok xs.length
              (Vector.holding (arg.consumed E cat.move xs ++ [x])
                (if xs.length = cap then grownCapacity cap else cap)) l1
        ∧ (if xs.length = cap then
            E.throws l (.alloc (grownCapacity cap)) = false
            ∧ E.throws (.alloc (grownCapacity cap) :: l) .construct = false
            ∧ ∀ j, j < xs.length → E.relocationThrows (List.replicate j E.relocation
                ++ Ev.construct :: Ev.alloc (grownCapacity cap) :: l) = false
          else E.throws l .construct = false))
    ∨ (∃ s l1, (Vector.holding xs cap).EmplaceAs E cat xs.length arg l = .threw s l1
        ∧ (∃ h e, E.throws h e = true)
        ∧ (xs.length < cap ∨ E.is_nothrow_move_constructible = true
            ∨ E.is_copy_constructible = true →
            s = Vector.holding xs cap ∨ s = Vector.holding (arg.consumed E cat.move xs) cap)) := by
  rcases EmplaceBackAs_spec E cat.move xs cap hcap hfit arg x hx l with
    ⟨l1, h1, _, h4⟩ | ⟨s, l1, h1, h2, h3⟩
  · left
    refine ⟨l1, ?_, h4⟩
    simp only [Vector.EmplaceAs, Vector.begin, RawMemory.GetAddress, Nat.sub_zero, Nat.zero_add,
      Vector.end_, RawMemory.plus, holding_size, holding_capacity, hcap, if_true, h1, bind_ok]
  · right
    refine ⟨s, l1, ?_, h2, h3⟩
    simp only [Vector.EmplaceAs, Vector.begin, RawMemory.GetAddress, Nat.sub_zero, Nat.zero_add,
      Vector.end_, RawMemory.plus, holding_size, holding_capacity, hcap, if_true, h1,
      bind_threw, id]

/-- With capacity already `n` or more, `Reserve(n)` returns at once. -/
theorem Reserve_noop (E : ElemType T) (v : Vector T) (n : Nat) (hn : n ≤ v.data_.capacity_)
    (l : Log) : v.Reserve E n l = .ok () v l := by
  simp only [Vector.Reserve, RawMemory.Capacity, hn, if_true]

/-- On a vector holding `xs`, `Reserve(n)` beyond the capacity moves the elements into a block
of `n` slots, or throws; when it throws and the type is copyable or its move constructor is
`noexcept`, the vector is as before. -/
theorem Reserve_spec (E : ElemType T) (xs : List T) (cap n : Nat) (hcap : xs.length ≤ cap)
    (hn : cap < n) (hfit : n * E.sizeof ≤ SIZE_MAX) (l : Log) :
    (∃ l1, (Vector.holding xs cap).Reserve E n l = .ok () (Vector.holding xs n) l1
        ∧ l1 = List.replicate xs.length Ev.destroy
            ++ (List.replicate xs.length E.relocation ++ Ev.alloc n :: l)
        ∧ E.throws l (.alloc n) = false
        ∧ ∀ j, j < xs.length →
            E.relocationThrows (List.replicate j E.relocation ++ Ev.alloc n :: l) = false)
    ∨ (∃ s l1, (Vector.holding xs cap).Reserve E n l = .threw s l1
        ∧ (∃ h e, E.throws h e = true)
        ∧ (E.is_nothrow_move_constructible = true ∨ E.is_copy_constructible = true
            → s = Vector.holding xs cap)) := by
  have hn0 : n ≠ 0 := by omega
  have hnc : ¬ n ≤ cap := by omega
  by_cases ha : E.throws l (.alloc n) = true
  · right
    refine ⟨Vector.holding xs cap, .alloc n :: l, ?_, ⟨_, _, ha⟩, fun _ => rfl⟩
    simp only [Vector.Reserve, RawMemory.Capacity, holding_capacity, hnc, if_false,
      create_eq E _ hn0 hfit, ha, if_true, bind_threw]
  · simp only [Bool.not_eq_true] at ha
    rcases TransferContent_spec E xs cap (List.replicate n none) n (by simp) (by omega)
        (.alloc n :: l) with ⟨nb1, old, h1, h2, h3, h4⟩ | ⟨s, l1, h1, h2, h3⟩
    · left
      refine ⟨_, ?_, rfl, ha, h4⟩
      have hv : (⟨⟨nb1, n⟩, xs.length⟩ : Vector T) = Vector.holding xs n := by
        apply eq_holding _ _ _ _ rfl (by omega) h2
        intro i
        rw [h3 i, slot_replicate_none]
        split_ifs <;> first | rfl | (rw [List.getElem?_eq_none (by omega)])
      simp only [Vector.Reserve, RawMemory.Capacity, holding_capacity, hnc, if_false,
        create_eq E _ hn0 hfit, ha, Bool.false_eq_true, bind_ok, h1, hv]
    · right
      refine ⟨s.1, l1, ?_, h2, h3⟩
      simp only [Vector.Reserve, RawMemory.Capacity, holding_capacity, hnc, if_false,
        create_eq E _ hn0 hfit, ha, Bool.false_eq_true, bind_ok, h1, bind_threw]

/-! ## Consequences for element types that do not throw -/

theorem intElem_noThrow : intElem.NoThrow := fun _ _ => rfl

theorem holding_read (xs : List T) (cap i : Nat) (hcap : xs.length ≤ cap) (hi : i < xs.length) :
    (Vector.holding xs cap).read i = xs[i]? := by
  have hic : i < cap := by omega
  simp only [Vector.read, Vector.subscript, holding_size, hi, if_true, RawMemory.subscript,
    holding_capacity, hic, holding_slot]

theorem holding_read_of_le (xs : List T) (cap i : Nat) (hi : xs.length ≤ i) :
    (Vector.holding xs cap).read i = none := by
  have hic : ¬ i < xs.length := by omega
  simp only [Vector.read, Vector.subscript, holding_size, hic, if_false]

theorem empty_eq_holding : (Vector.empty : Vector T) = Vector.holding [] 0 := rfl

/-- Without exceptions `EmplaceBack` appends the value of its argument. -/
theorem EmplaceBack_noThrow (E : ElemType T) (hE : E.NoThrow) (xs : List T) (cap : Nat)
    (hcap : xs.length ≤ cap)
    (hfit : xs.length = cap → grownCapacity cap * E.sizeof ≤ SIZE_MAX)
    (arg : Arg T) (x : T) (hx : arg.value xs = some x) (l : Log) :
    ∃ l1, (Vector.holding xs cap).EmplaceBack E arg l
      = .ok xs.length
          (Vector.holding (xs ++ [x]) (if xs.length = cap then grownCapacity cap else cap)) l1 := by
  rcases EmplaceBack_spec E xs cap hcap hfit arg x hx l with
    ⟨l1, h1, _, _⟩ | ⟨s, l1, _, ⟨h, e, he⟩, _⟩
  · exact ⟨l1, h1⟩
  · rw [hE h e] at he
    cases he

/-- `PushBack(const T&)` appends the value of its argument and returns, or throws; when it
throws without reallocating, or the type is copyable or its move constructor is `noexcept`,
the vector is as before. -/
theorem PushBack_spec (E : ElemType T) (xs : List T) (cap : Nat) (hcap : xs.length ≤ cap)
    (hfit : xs.length = cap → grownCapacity cap * E.sizeof ≤ SIZE_MAX)
    (arg : Arg T) (x : T) (hx : arg.value xs = some x) (l : Log) :
    (∃ l1, (Vector.holding xs cap).PushBack E arg l
          = .ok ()
              (Vector.holding (xs ++ [x]) (if xs.length = cap then grownCapacity cap else cap)) l1
        ∧ (l1 = if xs.length = cap then
            List.replicate xs.length Ev.destroy ++ (List.replicate xs.length E.relocation
              ++ Ev.construct :: Ev.alloc (grownCapacity cap) :: l)
          else Ev.construct :: l)
        ∧ (xs.length = cap → ¬ E.growthThrows xs.length l))
    ∨ (∃ s l1, (Vector.holding xs cap).PushBack E arg l = .threw s l1
        ∧ (∃ h e, E.throws h e = true)
        ∧ (xs.length < cap ∨ E.is_nothrow_move_constructible = true
            ∨ E.is_copy_constructible = true → s = Vector.holding xs cap)) := by
  rcases EmplaceBackAs_kept E .to_const xs cap hcap hfit arg (consumed_to_const E arg xs) x hx l
    with ⟨l1, h1, h2, h4⟩ | ⟨s, l1, h1, h2, h3⟩
  · left
    refine ⟨l1, ?_, h2, ?_⟩
    · simp only [Vector.PushBack, h1, bind_ok]
    · intro hfull
      rw [if_pos hfull] at h4
      subst hfull
      rintro (h | h | ⟨j, hj, h⟩)
      · rw [h4.1] at h; cases h
      · rw [h4.2.1] at h; cases h
      · rw [h4.2.2 j hj] at h; cases h
  · right
    refine ⟨s, l1, ?_, h2, h3⟩
    simp only [Vector.PushBack, h1, bind_threw, id]

theorem grown_ge (xs : List T) (cap : Nat) (x : T) (hcap : xs.length ≤ cap) :
    (xs ++ [x]).length ≤ (if xs.length = cap then grownCapacity cap else cap) := by
  have := grownCapacity_gt cap
  simp only [List.length_append, List.length_singleton]
  split <;> omega

/-- A request for fewer objects than one that does not wrap does not wrap. -/
theorem fits_of_le (E : ElemType T) (a b : Nat) (hab : a ≤ b) (hb : b * E.sizeof ≤ SIZE_MAX) :
    a * E.sizeof ≤ SIZE_MAX :=
  Nat.le_trans (Nat.mul_le_mul_right _ hab) hb

/-- What a full vector of `n` elements asks for when it grows is at most twice the number of
elements it will then hold. -/
theorem grownCapacity_le (n : Nat) : grownCapacity n ≤ 2 * (n + 1) := by
  unfold grownCapacity
  split <;> omega

/-- Without exceptions a run of `PushBack` calls appends the values in order. -/
theorem pushAll_holding (E : ElemType T) (hE : E.NoThrow) (vs : List T) :
    ∀ (xs : List T) (cap : Nat) (l : Log), xs.length ≤ cap →
    2 * (xs ++ vs).length * E.sizeof ≤ SIZE_MAX →
    ∃ cap1 l1, pushAll E vs (Vector.holding xs cap) l = .ok () (Vector.holding (xs ++ vs) cap1) l1
      ∧ (xs ++ vs).length ≤ cap1 := by
  induction vs with
  | nil =>
    intro xs cap l hcap _
    exact ⟨cap, l, by simp [pushAll], by simpa using hcap⟩
  | cons x vs ih =>
    intro xs cap l hcap hfit
    have hstep : xs.length = cap → grownCapacity cap * E.sizeof ≤ SIZE_MAX := by
      intro hfull
      refine fits_of_le E _ _ ?_ hfit
      have := grownCapacity_le cap
      simp only [List.length_append, List.length_cons]
      omega
    rcases PushBack_spec E xs cap hcap hstep (.val x) x rfl l with
      ⟨l1, h1, _⟩ | ⟨s, l1, _, ⟨h, e, he⟩, _⟩
    · obtain ⟨cap1, l2, h2, h3⟩ := ih (xs ++ [x]) _ l1 (grown_ge xs cap x hcap)
        (by simpa using hfit)
      refine ⟨cap1, l2, ?_, by simpa using h3⟩
      simp only [pushAll, h1, bind_ok, h2, List.append_assoc, List.singleton_append]
    · rw [hE h e] at he
      cases he

theorem take_append_drop_insert (xs : List T) (k : Nat) (y : T) (hk : k ≤ xs.length) :
    (xs.take k ++ y :: xs.drop k).take k ++ (xs.take k ++ y :: xs.drop k).drop (k + 1) = xs := by
  apply List.ext_getElem?
  intro i
  rw [getElem?_erase _ k (by
    simp only [List.length_append, List.length_take, List.length_cons, List.length_drop]; omega),
    getElem?_insert xs k y hk, getElem?_insert xs k y hk]
  split_ifs <;> first | rfl | omega

theorem set_insert (xs : List T) (k : Nat) (m w : T) (hk : k ≤ xs.length) :
    (xs.take k ++ m :: xs.drop k).set k w = xs.take k ++ w :: xs.drop k := by
  rw [List.set_append, if_neg (by simp only [List.length_take]; omega)]
  simp only [List.length_take, Nat.min_eq_left hk, Nat.sub_self, List.set_cons_zero]

/-- On a vector holding `xs`, `Insert(pos, const T&)` at `k ≤ size` returns `k` and leaves
the elements before `k`, one new element, and the elements from `k` on, in a block grown only
when the vector was full; or it throws.  The new element is the value the argument had at the
call when the vector was full or `k` is the end; on the in-place path it is list-initialized
from what the argument denotes after the shift. -/
theorem Insert_spec (E : ElemType T) (xs : List T) (cap : Nat)
    (hcap : xs.length ≤ cap)
    (hfit : xs.length = cap → grownCapacity cap * E.sizeof ≤ SIZE_MAX)
    (k : Nat) (hk : k ≤ xs.length) (arg : Arg T) (x : T)
    (hx : arg.value xs = some x) (l : Log) :
    (∃ y l1, (Vector.holding xs cap).Insert E k arg l
        = .ok k (Vector.holding (xs.take k ++ y :: xs.drop k)
            (if xs.length = cap then grownCapacity cap else cap)) l1
      ∧ (xs.length = cap ∨ k = xs.length → y = x)
      ∧ (arg = .val x → xs.length < cap → k < xs.length → y = E.brace_init x)
      ∧ (xs.length = cap → ¬ E.growthThrows xs.length l))
    ∨ (∃ s l1, (Vector.holding xs cap).Insert E k arg l = .threw s l1
      ∧ (∃ h e, E.throws h e = true)
      ∧ (xs.length = cap → E.is_nothrow_move_constructible = true
            ∨ E.is_copy_constructible = true → s = Vector.holding xs cap)) := by
  unfold Vector.Insert
  by_cases hend : k = xs.length
  · subst hend
    have h := EmplaceAs_tail_spec E .to_const xs cap hcap hfit arg x hx l
    simp only [Cat.move, consumed_to_const] at h
    rcases h with ⟨l1, h1, h4⟩ | ⟨s, l1, h1, h2, h3⟩
    · left
      refine ⟨x, l1, ?_, fun _ => rfl, fun _ _ h => absurd h (Nat.lt_irrefl _), ?_⟩
      · simpa using h1
      · intro hfull
        rw [if_pos hfull] at h4
        subst hfull
        rintro (h | h | ⟨j, hj, h⟩)
        · rw [h4.1] at h; cases h
        · rw [h4.2.1] at h; cases h
        · rw [h4.2.2 j hj] at h; cases h
    · right
      exact ⟨s, l1, h1, h2, fun _ hor => (h3 (Or.inr hor)).elim id id⟩
  · have hlt : k < xs.length := by omega
    by_cases hfull : xs.length = cap
    · subst hfull
      have h := EmplaceAs_realloc_spec E .to_const xs k hlt (hfit rfl) arg x hx l
      simp only [consumed_to_const] at h
      rcases h with ⟨l1, h1, _, h4, h5, h6⟩ | ⟨s, l1, h1, h2, h3⟩
      · left
        refine ⟨x, l1, ?_, fun _ => rfl, fun _ h => absurd h (Nat.lt_irrefl _), ?_⟩
        · simpa using h1
        · intro _
          rintro (h | h | ⟨j, hj, h⟩)
          · rw [h4] at h; cases h
          · rw [h5] at h; cases h
          · rw [h6 j hj] at h; cases h
      · right
        exact ⟨s, l1, h1, h2, fun _ hor => (h3 hor).elim id id⟩
    · obtain ⟨xk, hxk⟩ := Option.isSome_iff_exists.mp (isSome_getElem? xs k hlt)
      have hy : ∃ y, arg.value (xs.take k ++ E.moved_from xk :: xs.drop k) = some y
          ∧ (arg = .val x → y = x) := by
        cases arg with
        | val x0 =>
          refine ⟨x0, rfl, fun _ => ?_⟩
          simpa [Arg.value] using hx
        | own j =>
          simp only [Arg.value] at hx
          have hj : j < xs.length := by
            by_contra hc
            rw [List.getElem?_eq_none (by omega)] at hx
            cases hx
          obtain ⟨y, hy⟩ := Option.isSome_iff_exists.mp
            (isSome_getElem? (xs.take k ++ E.moved_from xk :: xs.drop k) j (by
              simp only [List.length_append, List.length_take, List.length_cons,
                List.length_drop]
              omega))
          exact ⟨y, hy, fun h => by cases h⟩
      obtain ⟨y, hy1, hy2⟩ := hy
      have h := EmplaceAs_inplace_spec E .to_const xs cap k hlt (by omega) arg xk y hxk hy1 l
      simp only [consumed_to_const, set_insert xs k _ _ (Nat.le_of_lt hlt)] at h
      rcases h with ⟨l1, h1, _⟩ | ⟨s, l1, h1, hth⟩
      · left
        refine ⟨E.brace_init y, l1, ?_, ?_, ?_, fun h => absurd h hfull⟩
        · rw [if_neg hfull]
          exact h1
        · rintro (hor | hor)
          · exact absurd hor hfull
          · exact absurd hor hend
        · intro ha _ _
          rw [hy2 ha]
      · right
        exact ⟨s, l1, h1, hth, fun h => absurd h hfull⟩

/-- Without exceptions `Insert` at `k ≤ size` returns `k` and leaves the elements before `k`,
one new element, and the elements from `k` on. -/
theorem Insert_noThrow (E : ElemType T) (hE : E.NoThrow) (xs : List T) (cap : Nat)
    (hcap : xs.length ≤ cap)
    (hfit : xs.length = cap → grownCapacity cap * E.sizeof ≤ SIZE_MAX)
    (k : Nat) (hk : k ≤ xs.length) (arg : Arg T) (x : T)
    (hx : arg.value xs = some x) (l : Log) :
    ∃ y l1, (Vector.holding xs cap).Insert E k arg l
        = .ok k (Vector.holding (xs.take k ++ y :: xs.drop k)
            (if xs.length = cap then grownCapacity cap else cap)) l1
      ∧ (xs.length = cap ∨ k = xs.length → y = x) := by
  rcases Insert_spec E xs cap hcap hfit k hk arg x hx l with
    ⟨y, l1, h1, h2, _⟩ | ⟨s, l1, _, ⟨h, e, he⟩, _⟩
  · exact ⟨y, l1, h1, h2⟩
  · rw [hE h e] at he
    cases he

/-- Unless a move assignment throws, `Erase` at `k < size` returns `k` and leaves the elements
without the one at `k`, in the same block. -/
theorem Erase_noThrow (E : ElemType T) (hE : ∀ h, E.throws h .moveAssign = false)
    (xs : List T) (cap : Nat) (hcap : xs.length ≤ cap) (k : Nat) (hk : k < xs.length) (l : Log) :
    ∃ l1, (Vector.holding xs cap).Erase E k l
      = .ok k (Vector.holding (xs.take k ++ xs.drop (k + 1)) cap) l1 := by
  rcases Erase_spec E xs cap hcap k hk l with ⟨l1, h1, _⟩ | ⟨s, l1, _, h, he⟩
  · exact ⟨l1, h1⟩
  · rw [hE h] at he
    cases he

theorem getElem?_resize (xs : List T) (n : Nat) (d : T) (i : Nat) :
    (xs.take n ++ List.replicate (n - xs.length) d)[i]?
      = if i < n then (if i < xs.length then xs[i]? else some d) else none := by
  rw [List.getElem?_append, List.getElem?_take, List.getElem?_replicate, List.length_take]
  split_ifs <;> first | rfl | omega | (rw [List.getElem?_eq_none (by omega)])

theorem length_resize (xs : List T) (n : Nat) (d : T) :
    (xs.take n ++ List.replicate (n - xs.length) d).length = n := by
  simp only [List.length_append, List.length_take, List.length_replicate]
  omega

/-- Without exceptions the copy constructor builds a vector with the same elements in a block
of exactly `size` slots. -/
theorem copyCtor_noThrow (E : ElemType T) (hE : E.NoThrow) (xs : List T) (cap : Nat)
    (hfit : xs.length * E.sizeof ≤ SIZE_MAX) (l : Log) :
    ∃ l1, Vector.copyCtor E (Vector.holding xs cap) l
      = .ok (Vector.holding xs xs.length) () l1 := by
  have hcreate : ∃ l0, (RawMemory.create E xs.length l : Res Unit (RawMemory T))
      = .ok ⟨List.replicate xs.length none, xs.length⟩ () l0 := by
    by_cases h0 : xs.length = 0
    · rw [h0, create_zero]
      exact ⟨l, rfl⟩
    · rw [create_eq E _ h0 hfit, hE]
      exact ⟨_, rfl⟩
  obtain ⟨l0, h0⟩ := hcreate
  rcases uninitialized_copy_n_spec E (Vector.holding xs cap).data_.buffer_ xs.length 0
      (List.replicate xs.length none) 0 l0 (holding_live xs cap 0 _ (by omega)) (by simp) with
    ⟨b1, g1, g2, g3⟩ | ⟨b1, l2, _, ⟨h, he⟩, _⟩
  · refine ⟨List.replicate xs.length Ev.copyCtor ++ l0, ?_⟩
    have hv : (⟨⟨b1, xs.length⟩, xs.length⟩ : Vector T) = Vector.holding xs xs.length := by
      apply eq_holding _ _ _ _ rfl (Nat.le_refl _)
      · rw [g2]; simp
      · intro i
        rw [g3 i, holding_slot, slot_replicate_none]
        split_ifs <;> first
          | rfl
          | (congr 1; omega)
          | (rw [List.getElem?_eq_none (by omega)])
    simp only [Vector.copyCtor, holding_size, h0, bind_ok, RawMemory.GetAddress, g1, hv]
  · rw [hE h _] at he
    cases he

theorem allSome_map_some (xs : List T) : (xs.map some).allSome = some xs := by
  induction xs with
  | nil => rfl
  | cons x xs ih =>
    simp only [List.allSome, List.map_cons, List.mapM_cons, id] at ih ⊢
    rw [ih]
    rfl

theorem holding_elements (xs : List T) (cap : Nat) :
    (Vector.holding xs cap).elements = some xs := by
  simp only [Vector.elements, Vector.holding]
  rw [List.take_left' (by simp)]
  exact allSome_map_some xs

/-! ## Growth under a failure schedule -/

/-- On a full vector of a copyable type, `EmplaceBack` of an argument the constructor does
not consume either returns, no step of the growth having thrown, or throws and leaves the
vector as it was. -/
theorem EmplaceBackAs_full (E : ElemType T) (cat : Cat) (hcopy : E.is_copy_constructible = true)
    (xs : List T) (hfit : grownCapacity xs.length * E.sizeof ≤ SIZE_MAX)
    (arg : Arg T) (hkeep : arg.consumed E cat xs = xs) (x : T) (hx : arg.value xs = some x)
    (l : Log) :
    (∃ r v1 l1, (Vector.holding xs xs.length).EmplaceBackAs E cat arg l = .ok r v1 l1
        ∧ ¬ E.growthThrows xs.length l)
    ∨ (∃ l1, (Vector.holding xs xs.length).EmplaceBackAs E cat arg l
        = .threw (Vector.holding xs xs.length) l1) := by
  rcases EmplaceBackAs_kept E cat xs xs.length (Nat.le_refl _) (fun _ => hfit) arg hkeep x hx l
    with ⟨l1, h1, _, h4⟩ | ⟨s, l1, h1, _, h3⟩
  · left
    rw [if_pos rfl] at h4
    refine ⟨_, _, l1, h1, ?_⟩
    rintro (h | h | ⟨j, hj, h⟩)
    · rw [h4.1] at h; cases h
    · rw [h4.2.1] at h; cases h
    · rw [h4.2.2 j hj] at h; cases h
  · right
    rw [h3 (Or.inr (Or.inr hcopy))] at h1
    exact ⟨l1, h1⟩

/-- On a full vector of a copyable type, `Emplace` at `k ≤ size` of an argument the
constructor does not consume (before the end as it is passed, at the end after `std::move`)
either returns, no step of the growth having thrown, or throws and leaves the vector as it
was. -/
theorem EmplaceAs_full (E : ElemType T) (cat : Cat) (hcopy : E.is_copy_constructible = true)
    (xs : List T) (hfit : grownCapacity xs.length * E.sizeof ≤ SIZE_MAX)
    (k : Nat) (hk : k ≤ xs.length) (arg : Arg T)
    (hkeep : k < xs.length → arg.consumed E cat xs = xs)
    (hkeep1 : k = xs.length → arg.consumed E cat.move xs = xs)
    (x : T) (hx : arg.value xs = some x) (l : Log) :
    (∃ r v1 l1, (Vector.holding xs xs.length).EmplaceAs E cat k arg l = .ok r v1 l1
        ∧ ¬ E.growthThrows xs.length l)
    ∨ (∃ l1, (Vector.holding xs xs.length).EmplaceAs E cat k arg l
        = .threw (Vector.holding xs xs.length) l1) := by
  by_cases hend : k = xs.length
  · subst hend
    have h := EmplaceAs_tail_spec E cat xs xs.length (Nat.le_refl _) (fun _ => hfit) arg x hx l
    rw [hkeep1 rfl] at h
    rcases h with ⟨l1, h1, h4⟩ | ⟨s, l1, h1, _, h3⟩
    · left
      rw [if_pos rfl] at h4
      refine ⟨_, _, l1, h1, ?_⟩
      rintro (h | h | ⟨j, hj, h⟩)
      · rw [h4.1] at h; cases h
      · rw [h4.2.1] at h; cases h
      · rw [h4.2.2 j hj] at h; cases h
    · right
      have : s = Vector.holding xs xs.length := (h3 (Or.inr (Or.inr hcopy))).elim id id
      rw [this] at h1
      exact ⟨l1, h1⟩
  · have h := EmplaceAs_realloc_spec E cat xs k (by omega) hfit arg x hx l
    rw [hkeep (by omega)] at h
    rcases h with ⟨l1, h1, _, h4, h5, h6⟩ | ⟨s, l1, h1, _, h3⟩
    · left
      refine ⟨_, _, l1, h1, ?_⟩
      rintro (h | h | ⟨j, hj, h⟩)
      · rw [h4] at h; cases h
      · rw [h5] at h; cases h
      · rw [h6 j hj] at h; cases h
    · right
      have : s = Vector.holding xs xs.length := (h3 (Or.inr hcopy)).elim id id
      rw [this] at h1
      exact ⟨l1, h1⟩

/-- Beyond the capacity, on a type that is copyable or has a `noexcept` move constructor,
`Reserve` either returns, no step having thrown, or throws and leaves the vector as it
was. -/
theorem Reserve_grow (E : ElemType T)
    (hE : E.is_nothrow_move_constructible = true ∨ E.is_copy_constructible = true)
    (xs : List T) (cap n : Nat) (hcap : xs.length ≤ cap) (hn : cap < n)
    (hfit : n * E.sizeof ≤ SIZE_MAX) (l : Log) :
    (∃ l1, (Vector.holding xs cap).Reserve E n l = .ok () (Vector.holding xs n) l1
        ∧ ¬ E.reserveThrows xs.length n l)
    ∨ (∃ l1, (Vector.holding xs cap).Reserve E n l = .threw (Vector.holding xs cap) l1) := by
  rcases Reserve_spec E xs cap n hcap hn hfit l with ⟨l1, h1, _, h4, h5⟩ | ⟨s, l1, h1, _, h3⟩
  · left
    refine ⟨l1, h1, ?_⟩
    rintro (h | ⟨j, hj, h⟩)
    · rw [h4] at h; cases h
    · rw [h5 j hj] at h; cases h
  · right
    rw [h3 hE] at h1
    exact ⟨l1, h1⟩

/-- Whatever is called on the copy, the other vector of the caller stays as it is. -/
theorem mutateCopy_fst (E : ElemType T) (ms : List (Mutation T)) :
    ∀ (src c : Vector T) (l : Log) (s : Vector T × Vector T),
    (mutateCopy E ms (src, c) l).final = some s → s.1 = src := by
  induction ms with
  | nil =>
    intro src c l s h
    simp only [mutateCopy, Res.final, Option.some.injEq] at h
    rw [← h]
  | cons m ms ih =>
    intro src c l s h
    simp only [mutateCopy] at h
    cases hm : c.mutate E m l with
    | ok a c1 l1 =>
      rw [hm, bind_ok] at h
      exact ih src c1 l1 s h
    | threw c1 l1 =>
      rw [hm, bind_threw] at h
      simp only [Res.final, Option.some.injEq] at h
      rw [← h]
    | assertFailed =>
      rw [hm] at h
      cases h
    | undefined =>
      rw [hm] at h
      cases h

/-! ## Sizes and capacities, whatever the block holds -/

theorem Meets.bind {σ τ α β : Type} (r : Res σ α) (u : σ → τ) (k : α → σ → Log → Res τ β)
    (Q : α → σ → Prop) (R : σ → Prop) (Q1 : β → τ → Prop) (R1 : τ → Prop)
    (hr : r.Meets Q R) (hu : ∀ s, R s → R1 (u s))
    (hk : ∀ a s l, Q a s → (k a s l).Meets Q1 R1) : (r.bind u k).Meets Q1 R1 := by
  cases r with
  | ok a s l => exact hk a s l hr
  | threw s l => exact hu s hr
  | assertFailed => exact hr
  | undefined => trivial

theorem Meets.mono {σ α : Type} (r : Res σ α) (Q Q1 : α → σ → Prop) (R R1 : σ → Prop)
    (hr : r.Meets Q R) (hQ : ∀ a s, Q a s → Q1 a s) (hR : ∀ s, R s → R1 s) : r.Meets Q1 R1 := by
  cases r with
  | ok a s l => exact hQ a s hr
  | threw s l => exact hR s hr
  | assertFailed => exact hr
  | undefined => trivial

theorem uninitialized_copy_n_meets (E : ElemType T) (src : Block T) (n : Nat) :
    ∀ (first : Nat) (dst : Block T) (d : Nat) (l : Log),
    (uninitialized_copy_n E src n first dst d l).Meets (fun _ _ => True) (fun _ => True) := by
  induction n with
  | zero => intro first dst d l; trivial
  | succ n ih =>
    intro first dst d l
    unfold uninitialized_copy_n
    split
    · trivial
    · split_ifs
      · trivial
      · trivial
      · have := ih (first + 1) (dst.set d (some ‹T›)) (d + 1) (.copyCtor :: l)
        split
        · trivial
        · assumption

theorem uninitialized_move_n_meets (E : ElemType T) (n : Nat) :
    ∀ (first : Nat) (src dst : Block T) (d : Nat) (l : Log),
    (uninitialized_move_n E n first src dst d l).Meets (fun _ _ => True) (fun _ => True) := by
  induction n with
  | zero => intro first src dst d l; trivial
  | succ n ih =>
    intro first src dst d l
    unfold uninitialized_move_n
    split
    · trivial
    · split_ifs
      · trivial
      · trivial
      · have := ih (first + 1) (src.set first (some (E.moved_from ‹T›))) (dst.set d (some ‹T›))
          (d + 1) (.moveCtor :: l)
        split
        · trivial
        · assumption

theorem uninitialized_value_construct_n_meets (E : ElemType T) (n : Nat) :
    ∀ (b : Block T) (d : Nat) (l : Log),
    (uninitialized_value_construct_n E n b d l).Meets (fun _ _ => True) (fun _ => True) := by
  induction n with
  | zero => intro b d l; trivial
  | succ n ih =>
    intro b d l
    unfold uninitialized_value_construct_n
    split_ifs
    · trivial
    · trivial
    · have := ih (b.set d (some E.value_init)) (d + 1) (.valueCtor :: l)
      split
      · trivial
      · assumption

theorem destroy_n_meets (n : Nat) :
    ∀ (b : Block T) (d : Nat) (l : Log),
    (destroy_n n b d l).Meets (fun _ _ => True) (fun _ => False) := by
  induction n with
  | zero => intro b d l; trivial
  | succ n ih =>
    intro b d l
    unfold destroy_n
    split
    · trivial
    · exact ih _ _ _

theorem copy_n_meets (E : ElemType T) (src : Block T) (n : Nat) :
    ∀ (first : Nat) (dst : Block T) (d : Nat) (l : Log),
    (copy_n E src n first dst d l).Meets (fun _ _ => True) (fun _ => True) := by
  induction n with
  | zero => intro first dst d l; trivial
  | succ n ih =>
    intro first dst d l
    unfold copy_n
    split
    · split_ifs
      · trivial
      · exact ih _ _ _ _
    · trivial

theorem move_n_meets (E : ElemType T) (n : Nat) :
    ∀ (b : Block T) (first d : Nat) (l : Log),
    (move_n E n b first d l).Meets (fun _ _ => True) (fun _ => True) := by
  induction n with
  | zero => intro b first d l; trivial
  | succ n ih =>
    intro b first d l
    unfold move_n
    split
    · split_ifs
      · trivial
      · exact ih _ _ _ _
    · trivial

theorem move_backward_n_meets (E : ElemType T) (n : Nat) :
    ∀ (b : Block T) (last d_last : Nat) (l : Log),
    (move_backward_n E n b last d_last l).Meets (fun _ _ => True) (fun _ => True) := by
  induction n with
  | zero => intro b last d_last l; trivial
  | succ n ih =>
    intro b last d_last l
    unfold move_backward_n
    split_ifs
    · trivial
    · split <;> trivial
    · split
      · exact ih _ _ _ _
      · trivial

theorem construct_meets (E : ElemType T) (braces : Bool) (cat : Cat) (arg : Arg T)
    (b : Block T) (l : Log) :
    (construct E braces cat arg b l).Meets (fun _ _ => True) (fun _ => True) := by
  unfold construct
  cases arg with
  | val x =>
    simp only []
    by_cases h : E.throws l .construct = true
    · rw [if_pos h]; trivial
    · rw [if_neg h]; trivial
  | own j =>
    simp only []
    split
    · trivial
    · by_cases h : E.throws l .construct = true
      · rw [if_pos h]; trivial
      · rw [if_neg h]; trivial

theorem create_meets (E : ElemType T) (n : Nat) (l : Log) :
    (RawMemory.create E n l : Res Unit (RawMemory T)).Meets
      (fun m _ => m.capacity_ = n) (fun _ => True) := by
  unfold RawMemory.create RawMemory.Allocate
  split_ifs <;> simp [Res.bind, Res.Meets]

theorem TransferContent_meets (E : ElemType T) (v : Vector T) (new_data : RawMemory T)
    (l : Log) :
    (v.TransferContent E new_data l).Meets
      (fun _ s => s.1.size_ = v.size_ ∧ s.1.data_.capacity_ = new_data.capacity_)
      (fun s => s.1.size_ = v.size_ ∧ s.1.data_.capacity_ = v.data_.capacity_) := by
  simp only [Vector.TransferContent]
  refine Meets.bind _ _ _ (fun _ _ => True) (fun _ => True) _ _ ?_ ?_ ?_
  · split_ifs
    · exact uninitialized_move_n_meets ..
    · refine Meets.bind _ _ _ (fun _ _ => True) (fun _ => True) _ _
        (uninitialized_copy_n_meets ..) ?_ ?_
      · intro _ _; trivial
      · intro _ _ _ _; trivial
  · intro s _; exact ⟨rfl, rfl⟩
  · intro a s l1 _
    refine Meets.bind _ _ _ (fun _ _ => True) (fun _ => False) _ _ (destroy_n_meets ..) ?_ ?_
    · intro _ h; exact h.elim
    · intro _ _ _ _; exact ⟨rfl, rfl⟩

theorem Reserve_meets (E : ElemType T) (n : Nat) (v : Vector T) (l : Log) :
    (v.Reserve E n l).Meets
      (fun _ s => s.size_ = v.size_ ∧ s.data_.capacity_ = max v.data_.capacity_ n)
      (fun s => s.size_ = v.size_ ∧ s.data_.capacity_ = v.data_.capacity_) := by
  unfold Vector.Reserve
  split_ifs with h
  · simp only [RawMemory.Capacity] at h
    exact ⟨rfl, (Nat.max_eq_left h).symm⟩
  · simp only [RawMemory.Capacity, not_le] at h
    refine Meets.bind _ _ _ (fun m _ => m.capacity_ = n) (fun _ => True) _ _
      (create_meets E n l) ?_ ?_
    · intro _ _; exact ⟨rfl, rfl⟩
    · intro m _ l1 hm
      refine Meets.bind _ _ _ _ _ _ _ (TransferContent_meets E v m l1) ?_ ?_
      · intro s hs; exact hs
      · intro _ s l2 hs
        exact ⟨hs.1, by rw [hs.2, hm, Nat.max_eq_right (Nat.le_of_lt h)]⟩

theorem Resize_meets (E : ElemType T) (n : Nat) (v : Vector T) (l : Log)
    (hv : v.size_ ≤ v.data_.capacity_) :
    (v.Resize E n l).Meets
      (fun _ s => s.size_ = n ∧ s.data_.capacity_ = max v.data_.capacity_ n)
      (fun s => s.size_ = v.size_ ∧ v.data_.capacity_ ≤ s.data_.capacity_) := by
  unfold Vector.Resize
  split_ifs with h1 h2
  · exact ⟨h1, by rw [Nat.max_eq_left (by omega)]⟩
  · refine Meets.bind _ _ _ _ _ _ _ (Reserve_meets E n v l) ?_ ?_
    · intro s hs; exact ⟨hs.1, Nat.le_of_eq hs.2.symm⟩
    · intro _ v1 l1 hs
      have hp : v1.data_.plus v1.size_ = some v1.size_ := by
        simp only [RawMemory.plus, ite_eq_left_iff, not_le]
        intro hlt
        have := hs.1
        have := hs.2
        have := Nat.le_max_left v.data_.capacity_ n
        omega
      rw [hp]
      simp only []
      refine Meets.bind _ _ _ (fun _ _ => True) (fun _ => True) _ _
        (uninitialized_value_construct_n_meets ..) ?_ ?_
      · intro _ _
        exact ⟨hs.1, by rw [hs.2]; exact Nat.le_max_left _ _⟩
      · intro _ _ _ _
        exact ⟨rfl, hs.2⟩
  · have hp : v.data_.plus n = some n := by
      simp only [RawMemory.plus, ite_eq_left_iff, not_le]
      intro hlt
      omega
    rw [hp]
    simp only []
    refine Meets.bind _ _ _ (fun _ _ => True) (fun _ => False) _ _ (destroy_n_meets ..) ?_ ?_
    · intro _ h; exact h.elim
    · intro _ _ _ _
      exact ⟨rfl, by rw [Nat.max_eq_left]; omega⟩

theorem PopBack_meets (v : Vector T) (l : Log) (hv : v.size_ ≤ v.data_.capacity_) :
    (v.PopBack l).Meets
      (fun _ s => s.size_ = v.size_ - 1 ∧ s.data_.capacity_ = v.data_.capacity_)
      (fun _ => False) := by
  unfold Vector.PopBack
  split_ifs with h
  · simp only []
    have hp : v.data_.plus (v.size_ - 1) = some (v.size_ - 1) := by
      simp only [RawMemory.plus, ite_eq_left_iff, not_le]
      intro hlt
      omega
    rw [hp]
    simp only []
    refine Meets.bind _ _ _ (fun _ _ => True) (fun _ => False) _ _ (destroy_n_meets ..) ?_ ?_
    · intro _ h; exact h.elim
    · intro _ _ _ _
      exact ⟨rfl, rfl⟩
  · have : v.size_ = 0 := by omega
    exact ⟨by omega, rfl⟩

theorem EmplaceBackAs_meets (E : ElemType T) (cat : Cat) (arg : Arg T) (v : Vector T)
    (l : Log) (hv : v.size_ ≤ v.data_.capacity_) :
    (v.EmplaceBackAs E cat arg l).Meets
      (fun r s => r = v.size_ ∧ s.size_ = v.size_ + 1
        ∧ s.data_.capacity_ = if v.size_ = v.data_.capacity_ then grownCapacity v.data_.capacity_
            else v.data_.capacity_)
      (fun s => s.size_ = v.size_ ∧ s.data_.capacity_ = v.data_.capacity_) := by
  simp only [Vector.EmplaceBackAs, Vector.Capacity, RawMemory.Capacity, Vector.end_]
  refine Meets.bind _ _ _
    (fun _ s => s.size_ = v.size_
      ∧ s.data_.capacity_ = if v.size_ = v.data_.capacity_ then grownCapacity v.data_.capacity_
          else v.data_.capacity_)
    (fun s => s.size_ = v.size_ ∧ s.data_.capacity_ = v.data_.capacity_) _ _ ?_ ?_ ?_
  · rw [show (if v.size_ = 0 then 1 else v.size_ * 2) = grownCapacity v.size_ from rfl]
    by_cases hfull : v.size_ = v.data_.capacity_
    · rw [if_pos hfull, if_pos hfull]
      refine Meets.bind _ _ _ (fun m _ => m.capacity_ = grownCapacity v.size_) (fun _ => True) _ _
        (create_meets E _ l) ?_ ?_
      · intro _ _; exact ⟨rfl, rfl⟩
      · intro m _ l1 hm
        have hp : m.subscript v.size_ = some v.size_ := by
          simp only [RawMemory.subscript, ite_eq_left_iff, not_lt]
          intro hlt
          have := grownCapacity_gt v.size_
          omega
        rw [hp]
        simp only []
        by_cases hroom : m.buffer_.length ≤ v.size_
        · rw [if_pos hroom]; trivial
        · rw [if_neg hroom]
          refine Meets.bind _ _ _ (fun _ _ => True) (fun _ => True) _ _ (construct_meets ..) ?_ ?_
          · intro _ _; exact ⟨rfl, rfl⟩
          · intro x b l2 _
            refine Meets.bind _ _ _ _ _ _ _
              (TransferContent_meets E ⟨⟨b, v.data_.capacity_⟩, v.size_⟩ _ l2) ?_ ?_
            · intro s hs; exact hs
            · intro _ s l3 hs
              exact ⟨hs.1, by rw [hs.2]; simp only []; rw [hm, hfull]⟩
    · rw [if_neg hfull, if_neg hfull]
      have hp : v.data_.plus v.size_ = some v.size_ := by
        simp only [RawMemory.plus, ite_eq_left_iff, not_le]
        intro hlt
        omega
      rw [hp]
      simp only []
      by_cases hroom : v.data_.buffer_.length ≤ v.size_
      · rw [if_pos hroom]; trivial
      · rw [if_neg hroom]
        refine Meets.bind _ _ _ (fun _ _ => True) (fun _ => True) _ _ (construct_meets ..) ?_ ?_
        · intro _ _; exact ⟨rfl, rfl⟩
        · intro x _ l1 _
          exact ⟨rfl, rfl⟩
  · intro s hs; exact hs
  · intro _ v1 l1 hs
    have hp : v1.data_.subscript (v1.size_ + 1 - 1) = some v.size_ := by
      simp only [RawMemory.subscript, Nat.add_sub_cancel, hs.1, hs.2]
      have := grownCapacity_gt v.data_.capacity_
      split_ifs <;> first | rfl | omega
    rw [hp]
    exact ⟨rfl, by simp only [hs.1], hs.2⟩

theorem EmplaceBack_meets (E : ElemType T) (arg : Arg T) (v : Vector T) (l : Log)
    (hv : v.size_ ≤ v.data_.capacity_) :
    (v.EmplaceBack E arg l).Meets
      (fun r s => r = v.size_ ∧ s.size_ = v.size_ + 1
        ∧ s.data_.capacity_ = if v.size_ = v.data_.capacity_ then grownCapacity v.data_.capacity_
            else v.data_.capacity_)
      (fun s => s.size_ = v.size_ ∧ s.data_.capacity_ = v.data_.capacity_) :=
  EmplaceBackAs_meets E .lvalue arg v l hv

theorem Erase_meets (E : ElemType T) (pos : Nat) (v : Vector T) (l : Log)
    (hv : v.size_ ≤ v.data_.capacity_) :
    (v.Erase E pos l).Meets
      (fun r s => r = pos ∧ s.size_ = v.size_ - 1 ∧ s.data_.capacity_ = v.data_.capacity_)
      (fun s => s.size_ = v.size_ ∧ s.data_.capacity_ = v.data_.capacity_) := by
  simp only [Vector.Erase, Vector.end_, Vector.begin, RawMemory.GetAddress]
  have hp : v.data_.plus v.size_ = some v.size_ := by
    simp only [RawMemory.plus, ite_eq_left_iff, not_le]
    intro hlt
    omega
  rw [hp]
  simp only []
  refine Meets.bind _ _ _ (fun _ _ => True) (fun _ => True) _ _ ?_ ?_ ?_
  · unfold move
    split_ifs
    · trivial
    · exact move_n_meets ..
  · intro _ _; exact ⟨rfl, rfl⟩
  · intro _ b1 l1 _
    split_ifs
    · trivial
    · refine Meets.bind _ _ _ (fun _ _ => True) (fun _ => False) _ _ (destroy_n_meets ..) ?_ ?_
      · intro _ h; exact h.elim
      · intro _ _ _ _
        exact ⟨by simp, rfl, rfl⟩

theorem dtor_meets (v : Vector T) (l : Log) :
    (v.dtor l).Meets (fun _ _ => True) (fun _ => False) := by
  unfold Vector.dtor
  refine Meets.bind _ _ _ (fun _ _ => True) (fun _ => False) _ _ (destroy_n_meets ..) ?_ ?_
  · intro _ h; exact h.elim
  · intro _ _ _ _; trivial

theorem copyCtor_meets (E : ElemType T) (other : Vector T) (l : Log) :
    (Vector.copyCtor E other l).Meets
      (fun c _ => c.size_ = other.size_ ∧ c.data_.capacity_ = other.size_) (fun _ => True) := by
  unfold Vector.copyCtor
  refine Meets.bind _ _ _ (fun m _ => m.capacity_ = other.size_) (fun _ => True) _ _
    (create_meets E _ l) ?_ ?_
  · intro _ _; trivial
  · intro m _ l1 hm
    refine Meets.bind _ _ _ (fun _ _ => True) (fun _ => True) _ _
      (uninitialized_copy_n_meets ..) ?_ ?_
    · intro _ _; trivial
    · intro _ _ _ _; exact ⟨rfl, hm⟩

theorem ofSize_meets (E : ElemType T) (size : Nat) (l : Log) :
    (Vector.ofSize E size l).Meets
      (fun c _ => c.size_ = size ∧ c.data_.capacity_ = size) (fun _ => True) := by
  unfold Vector.ofSize
  refine Meets.bind _ _ _ (fun m _ => m.capacity_ = size) (fun _ => True) _ _
    (create_meets E _ l) ?_ ?_
  · intro _ _; trivial
  · intro m _ l1 hm
    refine Meets.bind _ _ _ (fun _ _ => True) (fun _ => True) _ _
      (uninitialized_value_construct_n_meets ..) ?_ ?_
    · intro _ _; trivial
    · intro _ _ _ _; exact ⟨rfl, hm⟩

theorem copyAssign_meets (E : ElemType T) (rhs : Vector T) (v : Vector T) (l : Log)
    (hv : v.size_ ≤ v.data_.capacity_) (hr : rhs.size_ ≤ rhs.data_.capacity_) :
    (v.copyAssign E (.other rhs) l).Meets
      (fun _ s => s.size_ = rhs.size_
        ∧ s.data_.capacity_ = if v.data_.capacity_ < rhs.size_ then rhs.size_
            else v.data_.capacity_)
      (fun s => s.size_ = v.size_ ∧ s.data_.capacity_ = v.data_.capacity_) := by
  simp only [Vector.copyAssign, RawMemory.Capacity, gt_iff_lt]
  split_ifs with h1 h2
  · refine Meets.bind _ _ _ _ _ _ _ (copyCtor_meets E rhs l) ?_ ?_
    · intro _ _; exact ⟨rfl, rfl⟩
    · intro c _ l1 hc
      refine Meets.bind _ _ _ (fun _ _ => True) (fun _ => False) _ _ (dtor_meets ..) ?_ ?_
      · intro _ h; exact h.elim
      · intro _ _ _ _
        exact ⟨hc.1, hc.2⟩
  · refine Meets.bind _ _ _ (fun _ _ => True) (fun _ => True) _ _ (copy_n_meets ..) ?_ ?_
    · intro _ _; exact ⟨rfl, rfl⟩
    · intro _ b l1 _
      have hp : v.data_.plus rhs.size_ = some rhs.size_ := by
        simp only [RawMemory.plus, ite_eq_left_iff, not_le]
        intro hlt
        omega
      rw [hp]
      simp only []
      refine Meets.bind _ _ _ (fun _ _ => True) (fun _ => False) _ _ (destroy_n_meets ..) ?_ ?_
      · intro _ h; exact h.elim
      · intro _ _ _ _; exact ⟨rfl, rfl⟩
  · refine Meets.bind _ _ _ (fun _ _ => True) (fun _ => True) _ _ (copy_n_meets ..) ?_ ?_
    · intro _ _; exact ⟨rfl, rfl⟩
    · intro _ b l1 _
      have hp : rhs.data_.plus v.size_ = some v.size_ := by
        simp only [RawMemory.plus, ite_eq_left_iff, not_le]
        intro hlt
        omega
      have hq : v.data_.plus v.size_ = some v.size_ := by
        simp only [RawMemory.plus, ite_eq_left_iff, not_le]
        intro hlt
        omega
      rw [hp, hq]
      simp only []
      refine Meets.bind _ _ _ (fun _ _ => True) (fun _ => True) _ _
        (uninitialized_copy_n_meets ..) ?_ ?_
      · intro _ _; exact ⟨rfl, rfl⟩
      · intro _ _ _ _; exact ⟨rfl, rfl⟩

theorem uninitialized_move_meets (E : ElemType T) (first last : Nat) (src dst : Block T)
    (d : Nat) (l : Log) :
    (uninitialized_move E first last src dst d l).Meets (fun _ _ => True) (fun _ => True) := by
  unfold uninitialized_move
  split_ifs
  · trivial
  · exact uninitialized_move_n_meets ..

theorem uninitialized_copy_meets (E : ElemType T) (src : Block T) (first last : Nat)
    (dst : Block T) (d : Nat) (l : Log) :
    (uninitialized_copy E src first last dst d l).Meets (fun _ _ => True) (fun _ => True) := by
  unfold uninitialized_copy
  split_ifs
  · trivial
  · exact uninitialized_copy_n_meets ..

theorem move_backward_meets (E : ElemType T) (b : Block T) (first last d_last : Nat) (l : Log) :
    (move_backward E b first last d_last l).Meets (fun _ _ => True) (fun _ => True) := by
  unfold move_backward
  split_ifs
  · trivial
  · exact move_backward_n_meets ..

theorem EmplaceAs_meets (E : ElemType T) (cat : Cat) (pos : Nat) (arg : Arg T) (v : Vector T)
    (l : Log) (hv : v.size_ ≤ v.data_.capacity_) (hk : pos ≤ v.size_) :
    (v.EmplaceAs E cat pos arg l).Meets
      (fun r s => r = pos ∧ s.size_ = v.size_ + 1
        ∧ s.data_.capacity_ = if v.size_ = v.data_.capacity_ then grownCapacity v.data_.capacity_
            else v.data_.capacity_)
      (fun s => s.size_ = v.size_ ∧ s.data_.capacity_ = v.data_.capacity_) := by
  simp only [Vector.EmplaceAs, Vector.begin, RawMemory.GetAddress, Nat.sub_zero, Nat.zero_add,
    Vector.end_, Vector.Capacity, RawMemory.Capacity]
  have hp : v.data_.plus v.size_ = some v.size_ := by
    simp only [RawMemory.plus, ite_eq_left_iff, not_le]
    intro hlt
    omega
  rw [hp]
  simp only []
  by_cases hend : pos = v.size_
  · rw [if_pos hend]
    refine Meets.bind _ _ _ _ _ _ _ (EmplaceBackAs_meets E cat.move arg v l hv) ?_ ?_
    · intro s hs; exact hs
    · intro _ s l1 hs
      exact ⟨rfl, hs.2.1, hs.2.2⟩
  · rw [if_neg hend]
    rw [show (if v.size_ = 0 then 1 else v.size_ * 2) = grownCapacity v.size_ from rfl]
    by_cases hfull : v.size_ = v.data_.capacity_
    · rw [if_pos hfull, if_pos hfull]
      refine Meets.bind _ _ _ (fun m _ => m.capacity_ = grownCapacity v.size_) (fun _ => True) _ _
        (create_meets E _ l) ?_ ?_
      · intro _ _; exact ⟨rfl, rfl⟩
      · intro m _ l1 hm
        have hq : m.plus pos = some pos := by
          simp only [RawMemory.plus, ite_eq_left_iff, not_le]
          intro hlt
          have := grownCapacity_gt v.size_
          omega
        rw [hq]
        simp only []
        by_cases hroom : m.buffer_.length ≤ pos
        · rw [if_pos hroom]; trivial
        · rw [if_neg hroom]
          refine Meets.bind _ _ _ (fun _ _ => True) (fun _ => True) _ _ (construct_meets ..) ?_ ?_
          · intro _ _; exact ⟨rfl, rfl⟩
          · intro x b l2 _
            by_cases hbranch : (E.is_nothrow_move_constructible || !E.is_copy_constructible) = true
            · rw [if_pos hbranch]
              refine Meets.bind _ _ _ (fun _ _ => True) (fun _ => True) _ _ ?_ ?_ ?_
              · refine Meets.bind _ _ _ (fun _ _ => True) (fun _ => True) _ _
                  (uninitialized_move_n_meets ..) ?_ ?_
                · intro _ _; trivial
                · intro _ _ _ _; exact uninitialized_move_meets ..
              · intro _ _; exact ⟨rfl, rfl⟩
              · intro _ s l3 _
                refine Meets.bind _ _ _ (fun _ _ => True) (fun _ => False) _ _
                  (destroy_n_meets ..) ?_ ?_
                · intro _ h; exact h.elim
                · intro _ _ _ _
                  exact ⟨rfl, rfl, by simp only []; rw [hm, hfull]⟩
            · rw [if_neg hbranch]
              refine Meets.bind _ _ _ (fun _ _ => True) (fun _ => True) _ _ ?_ ?_ ?_
              · refine Meets.bind _ _ _ (fun _ _ => True) (fun _ => True) _ _
                  (uninitialized_copy_n_meets ..) ?_ ?_
                · intro _ _; trivial
                · intro _ _ _ _
                  refine Meets.bind _ _ _ (fun _ _ => True) (fun _ => True) _ _
                    (uninitialized_copy_meets ..) ?_ ?_
                  · intro _ _; trivial
                  · intro _ _ _ _; trivial
              · intro _ _; exact ⟨rfl, rfl⟩
              · intro _ s l3 _
                refine Meets.bind _ _ _ (fun _ _ => True) (fun _ => False) _ _
                  (destroy_n_meets ..) ?_ ?_
                · intro _ h; exact h.elim
                · intro _ _ _ _
                  exact ⟨rfl, rfl, by simp only []; rw [hm, hfull]⟩
    · rw [if_neg hfull, if_neg hfull]
      by_cases he : v.size_ = 0
      · rw [if_pos he]; trivial
      · rw [if_neg he]
        split
        · trivial
        · split_ifs with hlen hthrow
          · trivial
          · exact ⟨rfl, rfl⟩
          · refine Meets.bind _ _ _ (fun _ _ => True) (fun _ => True) _ _
              (move_backward_meets ..) ?_ ?_
            · intro _ _; exact ⟨rfl, rfl⟩
            · intro _ b2 l2 _
              refine Meets.bind _ _ _ (fun _ _ => True) (fun _ => True) _ _
                (construct_meets ..) ?_ ?_
              · intro _ _; exact ⟨rfl, rfl⟩
              · intro x b3 l3 _
                have hq : v.data_.subscript pos = some pos := by
                  simp only [RawMemory.subscript, ite_eq_left_iff, not_lt]
                  intro hlt
                  omega
                rw [hq]
                simp only []
                split
                · trivial
                · split_ifs
                  · exact ⟨rfl, rfl⟩
                  · exact ⟨rfl, rfl, rfl⟩

theorem Emplace_meets (E : ElemType T) (pos : Nat) (arg : Arg T) (v : Vector T) (l : Log)
    (hv : v.size_ ≤ v.data_.capacity_) (hk : pos ≤ v.size_) :
    (v.Emplace E pos arg l).Meets
      (fun r s => r = pos ∧ s.size_ = v.size_ + 1
        ∧ s.data_.capacity_ = if v.size_ = v.data_.capacity_ then grownCapacity v.data_.capacity_
            else v.data_.capacity_)
      (fun s => s.size_ = v.size_ ∧ s.data_.capacity_ = v.data_.capacity_) :=
  EmplaceAs_meets E .lvalue pos arg v l hv hk

theorem call_meets (E : ElemType T) (c : Call T) (v : Vector T) (l : Log)
    (hv : v.size_ ≤ v.data_.capacity_) (hc : c.sound v = true) :
    (v.call E c l).Meets
      (fun _ s => s.size_ ≤ s.data_.capacity_ ∧ v.data_.capacity_ ≤ s.data_.capacity_)
      (fun s => s.size_ ≤ s.data_.capacity_ ∧ v.data_.capacity_ ≤ s.data_.capacity_) := by
  have hg := grownCapacity_gt v.data_.capacity_
  cases c with
  | PushBack x =>
    refine Meets.bind _ _ _ _ _ _ _ (EmplaceBackAs_meets E .to_const x v l hv) ?_ ?_
    · intro s hs; simp only [id]; constructor <;> omega
    · intro _ s _ hs
      obtain ⟨_, h1, h2⟩ := hs
      simp only [Res.Meets]
      split_ifs at h2 <;> constructor <;> omega
  | PushBackRvalue x =>
    refine Meets.bind _ _ _ _ _ _ _ (EmplaceBackAs_meets E .rvalue x v l hv) ?_ ?_
    · intro s hs; simp only [id]; constructor <;> omega
    · intro _ s _ hs
      obtain ⟨_, h1, h2⟩ := hs
      simp only [Res.Meets]
      split_ifs at h2 <;> constructor <;> omega
  | EmplaceBack cat x =>
    refine Meets.bind _ _ _ _ _ _ _ (EmplaceBackAs_meets E cat x v l hv) ?_ ?_
    · intro s hs; simp only [id]; constructor <;> omega
    · intro _ s _ hs
      obtain ⟨_, h1, h2⟩ := hs
      simp only [Res.Meets]
      split_ifs at h2 <;> constructor <;> omega
  | PopBack =>
    refine Meets.mono _ _ _ _ _ (PopBack_meets v l hv) ?_ ?_
    · intro _ s hs; constructor <;> omega
    · intro _ h; exact h.elim
  | Insert k x =>
    simp only [Call.sound, Bool.and_eq_true, decide_eq_true_eq] at hc
    refine Meets.bind _ _ _ _ _ _ _ (EmplaceAs_meets E .to_const k x v l hv hc.1) ?_ ?_
    · intro s hs; simp only [id]; constructor <;> omega
    · intro _ s _ hs
      obtain ⟨_, h1, h2⟩ := hs
      simp only [Res.Meets]
      split_ifs at h2 <;> constructor <;> omega
  | InsertRvalue k x =>
    simp only [Call.sound, Bool.and_eq_true, decide_eq_true_eq] at hc
    refine Meets.bind _ _ _ _ _ _ _ (EmplaceAs_meets E .rvalue k x v l hv hc.1) ?_ ?_
    · intro s hs; simp only [id]; constructor <;> omega
    · intro _ s _ hs
      obtain ⟨_, h1, h2⟩ := hs
      simp only [Res.Meets]
      split_ifs at h2 <;> constructor <;> omega
  | Emplace cat k x =>
    simp only [Call.sound, Bool.and_eq_true, decide_eq_true_eq] at hc
    refine Meets.bind _ _ _ _ _ _ _ (EmplaceAs_meets E cat k x v l hv hc.1) ?_ ?_
    · intro s hs; simp only [id]; constructor <;> omega
    · intro _ s _ hs
      obtain ⟨_, h1, h2⟩ := hs
      simp only [Res.Meets]
      split_ifs at h2 <;> constructor <;> omega
  | Erase k =>
    refine Meets.bind _ _ _ _ _ _ _ (Erase_meets E k v l hv) ?_ ?_
    · intro s hs; simp only [id]; constructor <;> omega
    · intro _ s _ hs
      obtain ⟨_, h1, h2⟩ := hs
      simp only [Res.Meets]
      constructor <;> omega
  | Resize n =>
    refine Meets.mono _ _ _ _ _ (Resize_meets E n v l hv) ?_ ?_
    · intro _ s hs
      have := Nat.le_max_left v.data_.capacity_ n
      have := Nat.le_max_right v.data_.capacity_ n
      constructor <;> omega
    · intro s hs; constructor <;> omega
  | Reserve n =>
    refine Meets.mono _ _ _ _ _ (Reserve_meets E n v l) ?_ ?_
    · intro _ s hs
      have := Nat.le_max_left v.data_.capacity_ n
      constructor <;> omega
    · intro s hs; constructor <;> omega
  | copyAssign rhs =>
    cases rhs with
    | self => exact ⟨hv, Nat.le_refl _⟩
    | other rhs =>
      simp only [Call.sound, Operand.sound, decide_eq_true_eq] at hc
      refine Meets.mono _ _ _ _ _ (copyAssign_meets E rhs v l hv hc) ?_ ?_
      · intro _ s hs
        obtain ⟨h1, h2⟩ := hs
        split_ifs at h2 <;> constructor <;> omega
      · intro s hs; constructor <;> omega

theorem runCalls_meets (E : ElemType T) (cs : List (Call T)) :
    ∀ (v : Vector T) (l : Log), v.size_ ≤ v.data_.capacity_ → callsSound E cs v l = true →
    (runCalls E cs v l).Meets
      (fun _ s => s.size_ ≤ s.data_.capacity_ ∧ v.data_.capacity_ ≤ s.data_.capacity_)
      (fun _ => False) := by
  induction cs with
  | nil => intro v l hv _; exact ⟨hv, Nat.le_refl _⟩
  | cons c cs ih =>
    intro v l hv hs
    simp only [callsSound, Bool.and_eq_true] at hs
    have hc := call_meets E c v l hv hs.1
    have hs2 := hs.2
    unfold runCalls
    cases hr : v.call E c l with
    | ok a v1 l1 =>
      rw [hr] at hc hs2
      simp only [Res.Meets] at hc
      simp only [] at hs2 ⊢
      refine Meets.mono _ _ _ _ _ (ih v1 l1 hc.1 hs2) ?_ ?_
      · intro _ s h; exact ⟨h.1, Nat.le_trans hc.2 h.2⟩
      · intro _ h; exact h
    | threw v1 l1 =>
      rw [hr] at hc hs2
      simp only [Res.Meets] at hc
      simp only [] at hs2 ⊢
      refine Meets.mono _ _ _ _ _ (ih v1 l1 hc.1 hs2) ?_ ?_
      · intro _ s h; exact ⟨h.1, Nat.le_trans hc.2 h.2⟩
      · intro _ h; exact h
    | assertFailed =>
      rw [hr] at hc
      exact hc.elim
    | undefined => trivial

/-! ## PopBack, Vector(size) and copy assignment on the elements -/

/-- On a vector holding `xs`, `PopBack` destroys the last element, if there is one, and
returns. -/
theorem PopBack_spec (xs : List T) (cap : Nat) (hcap : xs.length ≤ cap) (l : Log) :
    (Vector.holding xs cap).PopBack l
      = .ok () (Vector.holding xs.dropLast cap) (if xs.length = 0 then l else Ev.destroy :: l) := by
  by_cases hx : xs.length = 0
  · have := List.length_eq_zero.mp hx
    subst this
    rfl
  · have hpos : 0 < xs.length := by omega
    unfold Vector.PopBack
    rw [if_pos (by simpa [Vector.holding] using hpos), if_neg hx]
    simp only [holding_size, holding_capacity]
    have hp : (Vector.holding xs cap).data_.plus (xs.length - 1) = some (xs.length - 1) := by
      simp only [RawMemory.plus, holding_capacity, ite_eq_left_iff, not_le]
      intro hlt
      omega
    rw [hp]
    simp only []
    obtain ⟨b1, hd, hlen, hslot⟩ := destroy_n_spec 1 (Vector.holding xs cap).data_.buffer_
      (xs.length - 1) l (by
        intro i hi
        rw [holding_slot]
        exact isSome_getElem? _ _ (by omega))
    rw [hd]
    simp only [bind_ok, List.replicate, List.nil_append, List.singleton_append]
    congr 1
    apply eq_holding
    · simp
    · simp; omega
    · rw [hlen, holding_length _ _ hcap]
    · intro i
      rw [hslot, holding_slot]
      simp only [List.getElem?_dropLast]
      split_ifs <;> first | rfl | omega | (rw [List.getElem?_eq_none (by omega)]; done)

/-- On live sources and live destinations, `copy_n` either assigns the `n` copies, or throws
because a copy assignment threw, leaving every slot outside the range as it was. -/
theorem copy_n_spec (E : ElemType T) (src : Block T) (n : Nat) :
    ∀ (first : Nat) (dst : Block T) (d : Nat) (l : Log),
    (∀ i, i < n → (slot src (first + i)).isSome = true) →
    (∀ i, i < n → (slot dst (d + i)).isSome = true) →
    (∃ dst1, copy_n E src n first dst d l = .ok () dst1 (List.replicate n Ev.copyAssign ++ l)
        ∧ dst1.length = dst.length
        ∧ ∀ i, slot dst1 i = if d ≤ i ∧ i < d + n then slot src (first + (i - d)) else slot dst i)
    ∨ (∃ dst1 l1, copy_n E src n first dst d l = .threw dst1 l1
        ∧ (∃ h, E.throws h .copyAssign = true)
        ∧ dst1.length = dst.length
        ∧ ∀ i, (i < d ∨ d + n ≤ i) → slot dst1 i = slot dst i) := by
  induction n with
  | zero =>
    intro first dst d l _ _
    left
    refine ⟨dst, by simp [copy_n], rfl, ?_⟩
    intro i
    rw [if_neg (by omega)]
  | succ n ih =>
    intro first dst d l hsrc hdst
    obtain ⟨x, hx⟩ := Option.isSome_iff_exists.mp (hsrc 0 (by omega))
    obtain ⟨y, hy⟩ := Option.isSome_iff_exists.mp (hdst 0 (by omega))
    simp only [Nat.add_zero] at hx hy
    have hd : d < dst.length := length_lt_of_slot hy
    by_cases ht : E.throws l .copyAssign = true
    · right
      refine ⟨dst, .copyAssign :: l, ?_, ⟨l, ht⟩, rfl, fun i _ => rfl⟩
      simp [copy_n, hx, hy, ht]
    · have hsrc1 : ∀ i, i < n → (slot src (first + 1 + i)).isSome = true := by
        intro i hi
        have := hsrc (i + 1) (by omega)
        rwa [show first + (i + 1) = first + 1 + i by omega] at this
      have hdst1 : ∀ i, i < n → (slot (dst.set d (some x)) (d + 1 + i)).isSome = true := by
        intro i hi
        rw [slot_set, if_neg (by omega)]
        have := hdst (i + 1) (by omega)
        rwa [show d + (i + 1) = d + 1 + i by omega] at this
      rcases ih (first + 1) (dst.set d (some x)) (d + 1) (.copyAssign :: l) hsrc1 hdst1 with
        ⟨dst1, h1, h2, h3⟩ | ⟨dst1, l1, h1, h2, h3, h4⟩
      · left
        refine ⟨dst1, ?_, ?_, ?_⟩
        · simp [copy_n, hx, hy, ht, h1, replicate_append_cons]
        · simpa using h2
        · intro i
          rw [h3 i, slot_set]
          by_cases hi : i = d
          · subst hi
            have a1 : ¬ (i + 1 ≤ i ∧ i < i + 1 + n) := by omega
            have a2 : (i ≤ i ∧ i < i + (n + 1)) := by omega
            simp [a1, a2, hd, hx]
          · by_cases hr : d + 1 ≤ i ∧ i < d + 1 + n
            · have a2 : (d ≤ i ∧ i < d + (n + 1)) := by omega
              have a3 : first + 1 + (i - (d + 1)) = first + (i - d) := by omega
              simp [hr, a2, a3]
            · have a2 : ¬ (d ≤ i ∧ i < d + (n + 1)) := by omega
              simp [hr, a2, hi]
      · right
        refine ⟨dst1, l1, ?_, h2, ?_, ?_⟩
        · simp [copy_n, hx, hy, ht, h1]
        · simpa using h3
        · intro i hi
          rw [h4 i (by omega), slot_set]
          have : ¬ (i = d) := by omega
          simp [this]

/-- The copy constructor makes a vector holding the elements of `other` in a block of just
their number, or throws because the allocation or a copy constructor threw. -/
theorem copyCtor_spec (E : ElemType T) (ys : List T) (cap : Nat)
    (hfit : ys.length * E.sizeof ≤ SIZE_MAX) (l : Log) :
    Vector.copyCtor E (Vector.holding ys cap) l
        = .ok (Vector.holding ys ys.length) ()
            (List.replicate ys.length Ev.copyCtor
              ++ (if ys.length = 0 then l else Ev.alloc ys.length :: l))
    ∨ (∃ l1, Vector.copyCtor E (Vector.holding ys cap) l = .threw () l1
        ∧ ∃ h e, E.throws h e = true) := by
  unfold Vector.copyCtor
  simp only [holding_size, RawMemory.GetAddress]
  have key : ∀ (b : Block T) (l0 : Log), b.length = ys.length → (∀ i, slot b i = none) →
      (uninitialized_copy_n E (Vector.holding ys cap).data_.buffer_ ys.length 0 b 0 l0).bind
          (fun _ => ()) (fun _ b1 l2 => Res.ok (⟨⟨b1, ys.length⟩, ys.length⟩ : Vector T) () l2)
        = .ok (Vector.holding ys ys.length) () (List.replicate ys.length Ev.copyCtor ++ l0)
      ∨ ∃ l1, (uninitialized_copy_n E (Vector.holding ys cap).data_.buffer_ ys.length 0 b 0
            l0).bind (fun _ => ())
            (fun _ b1 l2 => Res.ok (⟨⟨b1, ys.length⟩, ys.length⟩ : Vector T) () l2)
          = .threw () l1 ∧ ∃ h e, E.throws h e = true := by
    intro b l0 hb hnone
    rcases uninitialized_copy_n_spec E (Vector.holding ys cap).data_.buffer_ ys.length 0 b 0 l0
      (by
        intro i hi
        rw [holding_slot, Nat.zero_add]
        exact isSome_getElem? _ _ hi) (by omega) with
      ⟨b1, hb1, hlen, hslot⟩ | ⟨b1, l1, hb1, ⟨h, hth⟩, _⟩
    · left
      rw [hb1]
      simp only [bind_ok]
      congr 1
      apply eq_holding
      · rfl
      · exact Nat.le_refl _
      · rw [hlen, hb]
      · intro i
        rw [hslot, holding_slot, hnone]
        simp only [Nat.zero_le, true_and, Nat.zero_add, Nat.sub_zero]
        split_ifs with hi
        · rfl
        · rw [List.getElem?_eq_none (by omega)]
    · right
      rw [hb1]
      exact ⟨_, rfl, h, _, hth⟩
  by_cases h0 : ys.length = 0
  · rw [if_pos h0]
    have := key [] l (by simp [h0]) (fun i => slot_of_length_le _ _ (by simp))
    rw [h0] at this ⊢
    rw [create_zero]
    simpa only [bind_ok, h0] using this
  · rw [create_eq E ys.length h0 hfit, if_neg h0]
    by_cases ha : E.throws l (.alloc ys.length) = true
    · right
      rw [if_pos ha]
      exact ⟨_, rfl, _, _, ha⟩
    · rw [if_neg ha]
      simp only [bind_ok]
      exact key _ _ (by simp) (fun i => slot_replicate_none _ _)

/-- The destructor of a vector holding `xs` destroys its elements. -/
theorem dtor_holding (xs : List T) (cap : Nat) (l : Log) :
    (Vector.holding xs cap).dtor l = .ok () () (List.replicate xs.length Ev.destroy ++ l) := by
  unfold Vector.dtor
  obtain ⟨b1, hd, _, _⟩ := destroy_n_spec xs.length (Vector.holding xs cap).data_.buffer_ 0 l
    (by
      intro i hi
      rw [holding_slot, Nat.zero_add]
      exact isSome_getElem? _ _ hi)
  simp only [holding_size, RawMemory.GetAddress]
  rw [hd]
  rfl

/-- Copy assignment from another vector: `v` ends up holding the elements of `rhs`, in its own
block when that has room for them and else in a new block of just their number; or it throws
because an operation of the element type or the allocation threw, `v` keeping its size and
its capacity, and being as before when a new block was needed. -/
theorem copyAssign_spec (E : ElemType T) (xs ys : List T) (cap cap2 : Nat)
    (hcap : xs.length ≤ cap) (hcap2 : ys.length ≤ cap2)
    (hfit : cap < ys.length → ys.length * E.sizeof ≤ SIZE_MAX) (l : Log) :
    (∃ l1, (Vector.holding xs cap).copyAssign E (.other (Vector.holding ys cap2)) l
          = .ok () (Vector.holding ys (if cap < ys.length then ys.length else cap)) l1
        ∧ l1 = if cap < ys.length then
            List.replicate xs.length Ev.destroy
              ++ (List.replicate ys.length Ev.copyCtor ++ Ev.alloc ys.length :: l)
          else
            List.replicate (xs.length - ys.length) Ev.destroy
              ++ (List.replicate (ys.length - xs.length) Ev.copyCtor
                ++ (List.replicate (min xs.length ys.length) Ev.copyAssign ++ l)))
    ∨ (∃ s l1, (Vector.holding xs cap).copyAssign E (.other (Vector.holding ys cap2)) l
          = .threw s l1
        ∧ (∃ h e, E.throws h e = true)
        ∧ s.size_ = xs.length ∧ s.data_.capacity_ = cap
        ∧ (cap < ys.length → s = Vector.holding xs cap)) := by
  simp only [Vector.copyAssign, RawMemory.Capacity, gt_iff_lt, holding_size, holding_capacity,
    RawMemory.GetAddress]
  by_cases h1 : cap < ys.length
  · rw [if_pos h1, if_pos h1, if_pos h1]
    rcases copyCtor_spec E ys cap2 (hfit h1) l with hc | ⟨l1, hc, hth⟩
    · left
      rw [hc, if_neg (by omega)]
      simp only [bind_ok]
      have hsw : ((Vector.holding xs cap).Swap (Vector.holding ys ys.length)).2
          = Vector.holding xs cap := rfl
      have hsw1 : ((Vector.holding xs cap).Swap (Vector.holding ys ys.length)).1
          = Vector.holding ys ys.length := rfl
      rw [hsw, hsw1, dtor_holding]
      exact ⟨_, rfl, rfl⟩
    · right
      rw [hc]
      exact ⟨_, _, rfl, hth, rfl, rfl, fun _ => rfl⟩
  · rw [if_neg h1, if_neg h1, if_neg h1]
    have hp : ∀ k, k ≤ cap → (Vector.holding xs cap).data_.plus k = some k := by
      intro k hk
      simp only [RawMemory.plus, holding_capacity, ite_eq_left_iff, not_le]
      intro hlt
      omega
    have hp2 : ∀ k, k ≤ cap2 → (Vector.holding ys cap2).data_.plus k = some k := by
      intro k hk
      simp only [RawMemory.plus, holding_capacity, ite_eq_left_iff, not_le]
      intro hlt
      omega
    by_cases h2 : ys.length < xs.length
    · rw [if_pos h2, hp _ (by omega)]
      rcases copy_n_spec E (Vector.holding ys cap2).data_.buffer_ ys.length 0
          (Vector.holding xs cap).data_.buffer_ 0 l
          (by
            intro i hi
            rw [holding_slot, Nat.zero_add]
            exact isSome_getElem? _ _ hi)
          (by
            intro i hi
            rw [holding_slot, Nat.zero_add]
            exact isSome_getElem? _ _ (by omega)) with
        ⟨b1, hb1, hlen, hslot⟩ | ⟨b1, l1, hb1, ⟨h, hth⟩, _⟩
      · left
        rw [hb1]
        simp only [bind_ok]
        obtain ⟨b2, hd, hlen2, hslot2⟩ := destroy_n_spec (xs.length - ys.length) b1 ys.length
          (List.replicate ys.length Ev.copyAssign ++ l)
          (by
            intro i hi
            rw [hslot, if_neg (by omega), holding_slot]
            exact isSome_getElem? _ _ (by omega))
        rw [hd]
        simp only [bind_ok]
        refine ⟨List.replicate (xs.length - ys.length) Ev.destroy
          ++ (List.replicate ys.length Ev.copyAssign ++ l), ?_, ?_⟩
        · congr 1
          apply eq_holding
          · rfl
          · omega
          · rw [hlen2, hlen, holding_length _ _ hcap]
          · intro i
            rw [hslot2, hslot, holding_slot, holding_slot]
            simp only [Nat.zero_le, true_and, Nat.zero_add, Nat.sub_zero]
            split_ifs <;> first
              | rfl
              | omega
              | (rw [List.getElem?_eq_none (by omega), List.getElem?_eq_none (by omega)]; done)
              | (rw [List.getElem?_eq_none (by omega)]; done)
        · rw [show ys.length - xs.length = 0 by omega, show min xs.length ys.length = ys.length by
            omega]
          rfl
      · right
        rw [hb1]
        exact ⟨_, _, rfl, ⟨h, _, hth⟩, rfl, rfl, fun hlt => absurd hlt h1⟩
    · rw [if_neg h2, hp _ hcap, hp2 _ (by omega)]
      rcases copy_n_spec E (Vector.holding ys cap2).data_.buffer_ xs.length 0
          (Vector.holding xs cap).data_.buffer_ 0 l
          (by
            intro i hi
            rw [holding_slot, Nat.zero_add]
            exact isSome_getElem? _ _ (by omega))
          (by
            intro i hi
            rw [holding_slot, Nat.zero_add]
            exact isSome_getElem? _ _ hi) with
        ⟨b1, hb1, hlen, hslot⟩ | ⟨b1, l1, hb1, ⟨h, hth⟩, _⟩
      · rw [hb1]
        simp only [bind_ok]
        rcases uninitialized_copy_n_spec E (Vector.holding ys cap2).data_.buffer_
            (ys.length - xs.length) xs.length b1 xs.length
            (List.replicate xs.length Ev.copyAssign ++ l)
            (by
              intro i hi
              rw [holding_slot]
              exact isSome_getElem? _ _ (by omega))
            (by rw [hlen, holding_length _ _ hcap]; omega) with
          ⟨b2, hb2, hlen2, hslot2⟩ | ⟨b2, l2, hb2, ⟨h, hth⟩, _⟩
        · left
          rw [hb2]
          simp only [bind_ok]
          refine ⟨List.replicate (ys.length - xs.length) Ev.copyCtor
            ++ (List.replicate xs.length Ev.copyAssign ++ l), ?_, ?_⟩
          · congr 1
            apply eq_holding
            · rfl
            · omega
            · rw [hlen2, hlen, holding_length _ _ hcap]
            · intro i
              rw [hslot2, hslot]
              simp only [holding_slot, Nat.zero_le, true_and, Nat.zero_add, Nat.sub_zero]
              split_ifs <;> first
                | rfl
                | omega
                | (rw [show xs.length + (i - xs.length) = i by omega]; done)
                | (rw [List.getElem?_eq_none (by omega), List.getElem?_eq_none (by omega)]; done)
                | (rw [List.getElem?_eq_none (by omega)]; done)
          · rw [show xs.length - ys.length = 0 by omega,
              show min xs.length ys.length = xs.length by omega]
            rfl
        · right
          rw [hb2]
          exact ⟨_, _, rfl, ⟨h, _, hth⟩, rfl, rfl, fun hlt => absurd hlt h1⟩
      · right
        rw [hb1]
        exact ⟨_, _, rfl, ⟨h, _, hth⟩, rfl, rfl, fun hlt => absurd hlt h1⟩

/-! ## Relocations while appending -/

theorem relocations_cons (e : Ev) (l : Log) :
    relocations (e :: l) = (if e = .moveCtor ∨ e = .copyCtor then 1 else 0) + relocations l := by
  unfold relocations
  cases e <;> simp [List.count_cons] <;> omega

theorem relocations_replicate (n : Nat) (e : Ev) (l : Log) :
    relocations (List.replicate n e ++ l)
      = (if e = .moveCtor ∨ e = .copyCtor then n else 0) + relocations l := by
  induction n with
  | zero => simp
  | succ n ih =>
    rw [List.replicate_succ, List.cons_append, relocations_cons, ih]
    split_ifs <;> omega

theorem relocation_eq (E : ElemType T) : E.relocation = .moveCtor ∨ E.relocation = .copyCtor := by
  unfold ElemType.relocation
  split_ifs
  · exact Or.inl rfl
  · exact Or.inr rfl

/-- One more append keeps the doubling pattern: a full vector doubles its capacity and
relocates every element, a vector with room relocates none. -/
theorem doubling_step (n c r : Nat) (hn : n ≤ c) (h : Doubling n c r) :
    Doubling (n + 1) (if n = c then grownCapacity c else c) (if n = c then r + n else r) := by
  rcases h with ⟨h1, h2, h3⟩ | ⟨k, h1, h2, h3, h4⟩
  · right
    subst h1 h2 h3
    exact ⟨0, by simp [grownCapacity], by simp [grownCapacity], by simp [grownCapacity],
      by simp [grownCapacity]⟩
  · right
    by_cases hf : n = c
    · rw [if_pos hf, if_pos hf]
      have hc : c ≠ 0 := by omega
      refine ⟨k + 1, ?_, ?_, ?_, ?_⟩
      · simp only [grownCapacity, if_neg hc]
        rw [h1, pow_succ]
      · simp only [grownCapacity, if_neg hc]; omega
      · simp only [grownCapacity, if_neg hc]; omega
      · simp only [grownCapacity, if_neg hc]; omega
    · rw [if_neg hf, if_neg hf]
      exact ⟨k, h1, by omega, by omega, h4⟩

/-- Appending the values `vs` one at a time, starting in the doubling pattern, ends in the
doubling pattern (or a call throws). -/
theorem pushAll_doubling (E : ElemType T) (vs : List T) :
    ∀ (xs : List T) (cap : Nat) (l : Log), xs.length ≤ cap →
    2 * (xs ++ vs).length * E.sizeof ≤ SIZE_MAX →
    Doubling xs.length cap (relocations l) →
    (∃ cap1 l1, pushAll E vs (Vector.holding xs cap) l
          = .ok () (Vector.holding (xs ++ vs) cap1) l1
        ∧ (xs ++ vs).length ≤ cap1
        ∧ Doubling (xs ++ vs).length cap1 (relocations l1))
    ∨ (∃ s l1, pushAll E vs (Vector.holding xs cap) l = .threw s l1
        ∧ ∃ h e, E.throws h e = true) := by
  induction vs with
  | nil =>
    intro xs cap l hcap _ hd
    left
    exact ⟨cap, l, by simp [pushAll], by simpa using hcap, by simpa using hd⟩
  | cons x vs ih =>
    intro xs cap l hcap hfit hd
    have hfit1 : xs.length = cap → grownCapacity cap * E.sizeof ≤ SIZE_MAX := by
      intro hfull
      refine fits_of_le E _ _ ?_ hfit
      have := grownCapacity_le cap
      simp only [List.length_append, List.length_cons]
      omega
    rcases PushBack_spec E xs cap hcap hfit1 (.val x) x rfl l with
      ⟨l1, h1, hl1, _⟩ | ⟨s, l1, h1, hth, _⟩
    · have hstep := doubling_step xs.length cap (relocations l) hcap hd
      have hrel : relocations l1 = if xs.length = cap then relocations l + xs.length
          else relocations l := by
        rw [hl1]
        split_ifs
        · rw [relocations_replicate, relocations_replicate, relocations_cons, relocations_cons,
            if_pos (relocation_eq E)]
          simp
          omega
        · rw [relocations_cons]
          simp
      rw [← hrel] at hstep
      rcases ih (xs ++ [x]) _ l1 (grown_ge xs cap x hcap) (by simpa using hfit)
          (by simpa using hstep) with
        ⟨cap1, l2, h2, h3, h4⟩ | ⟨s, l2, h2, hth⟩
      · left
        refine ⟨cap1, l2, ?_, by simpa using h3, by simpa using h4⟩
        simp only [pushAll, h1, bind_ok, h2, List.append_assoc, List.singleton_append]
      · right
        refine ⟨s, l2, ?_, hth⟩
        simp only [pushAll, h1, bind_ok, h2]
    · right
      refine ⟨s, l1, ?_, hth⟩
      simp only [pushAll, h1, bind_threw, id]

/-- A power of two that is at least `n` and less than `2 * n` is the smallest power of two
that is at least `n`. -/
theorem pow_two_least (n k j : Nat) (h1 : 2 ^ k < 2 * n) (h2 : n ≤ 2 ^ j) : 2 ^ k ≤ 2 ^ j := by
  by_contra hlt
  have hjk : j < k := by
    by_contra hge
    exact hlt (Nat.pow_le_pow_right (by omega) (by omega))
  have : 2 ^ (j + 1) ≤ 2 ^ k := Nat.pow_le_pow_right (by omega) hjk
  rw [pow_succ] at this
  omega

/-! ## Calls on the elements: return or exception -/

/-- On a vector holding `xs`, `Reserve(n)` returns with the same elements in a block of
`max cap n` slots, or throws. -/
theorem Reserve_holding (E : ElemType T) (xs : List T) (cap n : Nat) (hcap : xs.length ≤ cap)
    (hfit : cap < n → n * E.sizeof ≤ SIZE_MAX) (l : Log) :
    (∃ l1, (Vector.holding xs cap).Reserve E n l = .ok () (Vector.holding xs (max cap n)) l1)
    ∨ (∃ s l1, (Vector.holding xs cap).Reserve E n l = .threw s l1
        ∧ ∃ h e, E.throws h e = true) := by
  by_cases hn : n ≤ cap
  · left
    rw [Reserve_noop E _ n hn l, Nat.max_eq_left hn]
    exact ⟨l, rfl⟩
  · rcases Reserve_spec E xs cap n hcap (by omega) (hfit (by omega)) l with
      ⟨l1, h1, _⟩ | ⟨s, l1, h1, hth, _⟩
    · left
      rw [h1, Nat.max_eq_right (by omega)]
      exact ⟨l1, rfl⟩
    · right
      exact ⟨s, l1, h1, hth⟩

/-- On a vector holding `xs`, `Resize(n)` keeps the first `min n size` elements and fills up to
`n` with value-initialized elements, in a block of `max cap n` slots, or throws. -/
theorem Resize_spec (E : ElemType T) (xs : List T) (cap n : Nat) (hcap : xs.length ≤ cap)
    (hfit : cap < n → n * E.sizeof ≤ SIZE_MAX) (l : Log) :
    (∃ l1, (Vector.holding xs cap).Resize E n l
      = .ok () (Vector.holding (xs.take n ++ List.replicate (n - xs.length) E.value_init)
          (max cap n)) l1)
    ∨ (∃ s l1, (Vector.holding xs cap).Resize E n l = .threw s l1
        ∧ ∃ h e, E.throws h e = true) := by
  by_cases heq : xs.length = n
  · left
    refine ⟨l, ?_⟩
    subst heq
    simp only [Vector.Resize, holding_size, if_true, List.take_length, Nat.sub_self,
      List.replicate_zero, List.append_nil, Nat.max_eq_left hcap]
  · by_cases hlt : xs.length < n
    · rcases Reserve_holding E xs cap n hcap hfit l with ⟨l1, h1⟩ | ⟨s, l1, h1, hth⟩
      · have hc1 : xs.length ≤ max cap n := by omega
        have hroom : xs.length + (n - xs.length)
            ≤ (Vector.holding xs (max cap n)).data_.buffer_.length := by
          rw [holding_length xs _ hc1]
          omega
        rcases uninitialized_value_construct_n_spec E (n - xs.length)
            (Vector.holding xs (max cap n)).data_.buffer_ xs.length l1 hroom with
          ⟨b1, g1, g2, g3⟩ | ⟨b1, l2, g1, ⟨h, he⟩, _⟩
        · left
          refine ⟨List.replicate (n - xs.length) Ev.valueCtor ++ l1, ?_⟩
          have hv : (⟨⟨b1, max cap n⟩, n⟩ : Vector T)
              = Vector.holding (xs.take n ++ List.replicate (n - xs.length) E.value_init)
                  (max cap n) := by
            apply eq_holding _ _ _ _ (length_resize xs n _).symm
            · rw [length_resize]; omega
            · rw [g2, holding_length xs _ hc1]
            · intro i
              rw [g3 i, getElem?_resize, holding_slot]
              split_ifs <;> first | rfl | omega | (rw [List.getElem?_eq_none (by omega)])
          simp only [Vector.Resize, holding_size, heq, if_false, hlt, if_true, h1, bind_ok,
            RawMemory.plus, holding_capacity, hc1, g1, hv]
        · right
          refine ⟨⟨⟨b1, max cap n⟩, xs.length⟩, l2, ?_, h, _, he⟩
          simp only [Vector.Resize, holding_size, heq, if_false, hlt, if_true, h1, bind_ok,
            RawMemory.plus, holding_capacity, hc1, g1, bind_threw]
      · right
        refine ⟨s, l1, ?_, hth⟩
        simp only [Vector.Resize, holding_size, heq, if_false, hlt, if_true, h1, bind_threw, id]
    · left
      have hgt : n < xs.length := by omega
      have hnc : n ≤ cap := by omega
      obtain ⟨b1, g1, g2, g3⟩ := destroy_n_spec (xs.length - n)
        (Vector.holding xs cap).data_.buffer_ n l (holding_live xs cap n _ (by omega))
      refine ⟨List.replicate (xs.length - n) Ev.destroy ++ l, ?_⟩
      have hv : (⟨⟨b1, cap⟩, n⟩ : Vector T)
          = Vector.holding (xs.take n ++ List.replicate (n - xs.length) E.value_init)
              (max cap n) := by
        rw [Nat.max_eq_left hnc]
        apply eq_holding _ _ _ _ (length_resize xs n _).symm
        · rw [length_resize]; omega
        · rw [g2, holding_length xs _ hcap]
        · intro i
          rw [g3 i, getElem?_resize, holding_slot]
          split_ifs <;> first | rfl | omega | (rw [List.getElem?_eq_none (by omega)])
      simp only [Vector.Resize, holding_size, heq, if_false, hlt, RawMemory.plus,
        holding_capacity, hnc, if_true, g1, bind_ok, hv]

/-- On a vector holding `xs`, `Emplace` at `k ≤ size`, whatever the category of its argument,
returns `k` and leaves a vector that holds one element more, in a block grown only when the
vector was full; or it throws. -/
theorem EmplaceAs_holding (E : ElemType T) (cat : Cat) (xs : List T) (cap : Nat)
    (hcap : xs.length ≤ cap)
    (hfit : xs.length = cap → grownCapacity cap * E.sizeof ≤ SIZE_MAX)
    (k : Nat) (hk : k ≤ xs.length) (arg : Arg T) (x : T) (hx : arg.value xs = some x) (l : Log) :
    (∃ ys l1, (Vector.holding xs cap).EmplaceAs E cat k arg l
        = .ok k (Vector.holding ys (if xs.length = cap then grownCapacity cap else cap)) l1
      ∧ ys.length = xs.length + 1)
    ∨ (∃ s l1, (Vector.holding xs cap).EmplaceAs E cat k arg l = .threw s l1
        ∧ ∃ h e, E.throws h e = true) := by
  by_cases hend : k = xs.length
  · subst hend
    rcases EmplaceAs_tail_spec E cat xs cap hcap hfit arg x hx l with
      ⟨l1, h1, _⟩ | ⟨s, l1, h1, hth, _⟩
    · left
      refine ⟨arg.consumed E cat.move xs ++ [x], l1, h1, ?_⟩
      simp only [List.length_append, consumed_length, List.length_singleton]
    · right
      exact ⟨s, l1, h1, hth⟩
  · have hlt : k < xs.length := by omega
    by_cases hfull : xs.length = cap
    · subst hfull
      rcases EmplaceAs_realloc_spec E cat xs k hlt (hfit rfl) arg x hx l with
        ⟨l1, h1, _⟩ | ⟨s, l1, h1, hth, _⟩
      · left
        refine ⟨(arg.consumed E cat xs).take k ++ x :: (arg.consumed E cat xs).drop k, l1,
          ?_, ?_⟩
        · rw [if_pos rfl]
          exact h1
        · simp only [List.length_append, List.length_take, List.length_cons, List.length_drop,
            consumed_length]
          omega
      · right
        exact ⟨s, l1, h1, hth⟩
    · obtain ⟨xk, hxk⟩ := Option.isSome_iff_exists.mp (isSome_getElem? xs k hlt)
      have hy : ∃ y, arg.value (xs.take k ++ E.moved_from xk :: xs.drop k) = some y := by
        cases arg with
        | val x0 => exact ⟨x0, rfl⟩
        | own j =>
          simp only [Arg.value] at hx
          have hj : j < xs.length := by
            by_contra hc
            rw [List.getElem?_eq_none (by omega)] at hx
            cases hx
          exact Option.isSome_iff_exists.mp
            (isSome_getElem? (xs.take k ++ E.moved_from xk :: xs.drop k) j (by
              simp only [List.length_append, List.length_take, List.length_cons,
                List.length_drop]
              omega))
      obtain ⟨y, hy1⟩ := hy
      rcases EmplaceAs_inplace_spec E cat xs cap k hlt (by omega) arg xk y hxk hy1 l with
        ⟨l1, h1, _⟩ | ⟨s, l1, h1, hth⟩
      · left
        refine ⟨(arg.consumed E cat (xs.take k ++ E.moved_from xk :: xs.drop k)).set k
          (E.brace_init y), l1, ?_, ?_⟩
        · rw [if_neg hfull]
          exact h1
        · simp only [List.length_set, consumed_length, List.length_append, List.length_take,
            List.length_cons, List.length_drop]
          omega
      · right
        exact ⟨s, l1, h1, hth⟩

theorem value_of_sound (arg : Arg T) (xs : List T) (cap : Nat)
    (h : arg.sound (Vector.holding xs cap) = true) : ∃ x, arg.value xs = some x := by
  cases arg with
  | val x => exact ⟨x, rfl⟩
  | own j =>
    simp only [Arg.sound, holding_size, decide_eq_true_eq] at h
    exact Option.isSome_iff_exists.mp (isSome_getElem? xs j h)

/-- An append to a vector that holds `xs`, of an argument that refers to an object, returns
and leaves a vector that holds one element more, or throws. -/
theorem EmplaceBackAs_holding (E : ElemType T) (cat : Cat) (xs : List T) (cap : Nat)
    (hcap : xs.length ≤ cap)
    (hfit : xs.length = cap → grownCapacity cap * E.sizeof ≤ SIZE_MAX)
    (arg : Arg T) (x : T) (hx : arg.value xs = some x) (l : Log) :
    (∃ ys l1, (Vector.holding xs cap).EmplaceBackAs E cat arg l
        = .ok xs.length
            (Vector.holding ys (if xs.length = cap then grownCapacity cap else cap)) l1
      ∧ ys.length = xs.length + 1)
    ∨ (∃ s l1, (Vector.holding xs cap).EmplaceBackAs E cat arg l = .threw s l1
        ∧ ∃ h e, E.throws h e = true) := by
  rcases EmplaceBackAs_spec E cat xs cap hcap hfit arg x hx l with
    ⟨l1, h1, _⟩ | ⟨s, l1, h1, hth, _⟩
  · left
    refine ⟨arg.consumed E cat xs ++ [x], l1, h1, ?_⟩
    simp only [List.length_append, consumed_length, List.length_singleton]
  · right
    exact ⟨s, l1, h1, hth⟩

theorem grown_fits (E : ElemType T) (xs : List T) (cap : Nat)
    (h : (if (Vector.holding xs cap).size_ = (Vector.holding xs cap).data_.capacity_ then
        grownCapacity (Vector.holding xs cap).size_ else 0) * E.sizeof ≤ SIZE_MAX) :
    xs.length = cap → grownCapacity cap * E.sizeof ≤ SIZE_MAX := by
  intro hfull
  simp only [holding_size, holding_capacity, if_pos hfull] at h
  rw [← hfull]
  exact h

/-- A call on a vector that holds `xs`, made within its precondition and asking for a number
of bytes that `size_t` holds, returns and leaves a vector that holds some elements in a block
with room for them, or throws because an operation of the element type or the allocation
threw. -/
theorem call_holding (E : ElemType T) (c : Call T) (xs : List T) (cap : Nat)
    (hcap : xs.length ≤ cap) (l : Log) (hc : c.sound (Vector.holding xs cap) = true)
    (hfit : c.allocates (Vector.holding xs cap) * E.sizeof ≤ SIZE_MAX)
    (hr : ∀ rhs, c = .copyAssign (.other rhs) → rhs.Valid) :
    (∃ ys cap1 l1, (Vector.holding xs cap).call E c l = .ok () (Vector.holding ys cap1) l1
        ∧ ys.length ≤ cap1)
    ∨ (∃ s l1, (Vector.holding xs cap).call E c l = .threw s l1 ∧ ∃ h e, E.throws h e = true) := by
  have hroom : ∀ ys : List T, ys.length = xs.length + 1 →
      ys.length ≤ (if xs.length = cap then grownCapacity cap else cap) := by
    intro ys hys
    have := grownCapacity_gt cap
    rw [hys]
    split <;> omega
  have back : ∀ (cat : Cat) (arg : Arg T), arg.sound (Vector.holding xs cap) = true →
      (xs.length = cap → grownCapacity cap * E.sizeof ≤ SIZE_MAX) →
      (∃ ys cap1 l1, ((Vector.holding xs cap).EmplaceBackAs E cat arg l).bind id
            (fun _ v1 l1 => Res.ok () v1 l1) = .ok () (Vector.holding ys cap1) l1
          ∧ ys.length ≤ cap1)
      ∨ (∃ s l1, ((Vector.holding xs cap).EmplaceBackAs E cat arg l).bind id
            (fun _ v1 l1 => Res.ok () v1 l1) = .threw s l1 ∧ ∃ h e, E.throws h e = true) := by
    intro cat arg hs hf
    obtain ⟨x, hx⟩ := value_of_sound arg xs cap hs
    rcases EmplaceBackAs_holding E cat xs cap hcap hf arg x hx l with
      ⟨ys, l1, h1, h2⟩ | ⟨s, l1, h1, hth⟩
    · left
      exact ⟨ys, _, l1, by simp only [h1, bind_ok], hroom ys h2⟩
    · right
      exact ⟨s, l1, by simp only [h1, bind_threw, id], hth⟩
  have mid : ∀ (cat : Cat) (k : Nat) (arg : Arg T), k ≤ xs.length →
      arg.sound (Vector.holding xs cap) = true →
      (xs.length = cap → grownCapacity cap * E.sizeof ≤ SIZE_MAX) →
      (∃ ys cap1 l1, ((Vector.holding xs cap).EmplaceAs E cat k arg l).bind id
            (fun _ v1 l1 => Res.ok () v1 l1) = .ok () (Vector.holding ys cap1) l1
          ∧ ys.length ≤ cap1)
      ∨ (∃ s l1, ((Vector.holding xs cap).EmplaceAs E cat k arg l).bind id
            (fun _ v1 l1 => Res.ok () v1 l1) = .threw s l1 ∧ ∃ h e, E.throws h e = true) := by
    intro cat k arg hk hs hf
    obtain ⟨x, hx⟩ := value_of_sound arg xs cap hs
    rcases EmplaceAs_holding E cat xs cap hcap hf k hk arg x hx l with
      ⟨ys, l1, h1, h2⟩ | ⟨s, l1, h1, hth⟩
    · left
      exact ⟨ys, _, l1, by simp only [h1, bind_ok], hroom ys h2⟩
    · right
      exact ⟨s, l1, by simp only [h1, bind_threw, id], hth⟩
  cases c with
  | PushBack arg => exact back .to_const arg hc (grown_fits E xs cap hfit)
  | PushBackRvalue arg => exact back .rvalue arg hc (grown_fits E xs cap hfit)
  | EmplaceBack cat arg => exact back cat arg hc (grown_fits E xs cap hfit)
  | PopBack =>
    left
    refine ⟨xs.dropLast, cap, if xs.length = 0 then l else Ev.destroy :: l,
      PopBack_spec xs cap hcap l, ?_⟩
    simp only [List.length_dropLast]
    omega
  | Insert k arg =>
    simp only [Call.sound, Bool.and_eq_true, decide_eq_true_eq, holding_size] at hc
    exact mid .to_const k arg hc.1 hc.2 (grown_fits E xs cap hfit)
  | InsertRvalue k arg =>
    simp only [Call.sound, Bool.and_eq_true, decide_eq_true_eq, holding_size] at hc
    exact mid .rvalue k arg hc.1 hc.2 (grown_fits E xs cap hfit)
  | Emplace cat k arg =>
    simp only [Call.sound, Bool.and_eq_true, decide_eq_true_eq, holding_size] at hc
    exact mid cat k arg hc.1 hc.2 (grown_fits E xs cap hfit)
  | Erase k =>
    simp only [Call.sound, decide_eq_true_eq, holding_size] at hc
    rcases Erase_spec E xs cap hcap k hc l with ⟨l1, h1, _⟩ | ⟨s, l1, h1, h, hth⟩
    · left
      refine ⟨xs.take k ++ xs.drop (k + 1), cap, l1, ?_, ?_⟩
      · simp only [Vector.call, h1, bind_ok]
      · simp only [List.length_append, List.length_take, List.length_drop]
        omega
    · right
      refine ⟨s, l1, ?_, h, _, hth⟩
      simp only [Vector.call, h1, bind_threw, id]
  | Resize n =>
    have hf : cap < n → n * E.sizeof ≤ SIZE_MAX := by
      intro hn
      simp only [Call.allocates, holding_size, holding_capacity] at hfit
      rw [if_pos ⟨by omega, hn⟩] at hfit
      exact hfit
    rcases Resize_spec E xs cap n hcap hf l with ⟨l1, h1⟩ | ⟨s, l1, h1, hth⟩
    · left
      refine ⟨xs.take n ++ List.replicate (n - xs.length) E.value_init, max cap n, l1, h1, ?_⟩
      rw [length_resize]
      exact Nat.le_max_right _ _
    · right
      exact ⟨s, l1, h1, hth⟩
  | Reserve n =>
    have hf : cap < n → n * E.sizeof ≤ SIZE_MAX := by
      intro hn
      simp only [Call.allocates, holding_capacity] at hfit
      rw [if_pos hn] at hfit
      exact hfit
    rcases Reserve_holding E xs cap n hcap hf l with ⟨l1, h1⟩ | ⟨s, l1, h1, hth⟩
    · left
      exact ⟨xs, max cap n, l1, h1, Nat.le_trans hcap (Nat.le_max_left _ _)⟩
    · right
      exact ⟨s, l1, h1, hth⟩
  | copyAssign rhs =>
    cases rhs with
    | self =>
      left
      exact ⟨xs, cap, l, rfl, hcap⟩
    | other rhs =>
      obtain ⟨ys, hys, hrhs⟩ := (valid_iff_holding rhs).mp (hr rhs rfl)
      rw [hrhs] at hfit ⊢
      have hf : cap < ys.length → ys.length * E.sizeof ≤ SIZE_MAX := by
        intro hn
        simp only [Call.allocates, holding_size, holding_capacity] at hfit
        rw [if_pos hn] at hfit
        exact hfit
      rcases copyAssign_spec E xs ys cap _ hcap hys hf l with
        ⟨l1, h1, _⟩ | ⟨s, l1, h1, hth, _⟩
      · left
        refine ⟨ys, if cap < ys.length then ys.length else cap, l1, h1, ?_⟩
        split_ifs <;> omega
      · right
        exact ⟨s, l1, h1, hth⟩

/-- A sequence of calls on a vector that holds `xs`, each made within its precondition and
asking for a number of bytes that `size_t` holds, returns and leaves a vector that holds some
elements in a block with room for them, unless an operation of the element type or the
allocation throws. -/
theorem runCalls_holding (E : ElemType T) (cs : List (Call T))
    (hr : ∀ rhs, Call.copyAssign (.other rhs) ∈ cs → rhs.Valid) :
    ∀ (xs : List T) (cap : Nat) (l : Log), xs.length ≤ cap →
    callsSound E cs (Vector.holding xs cap) l = true →
    callsFit E cs (Vector.holding xs cap) l = true →
    (∃ ys cap1 l1, runCalls E cs (Vector.holding xs cap) l = .ok () (Vector.holding ys cap1) l1
        ∧ ys.length ≤ cap1)
    ∨ (∃ h e, E.throws h e = true) := by
  induction cs with
  | nil =>
    intro xs cap l hcap _ _
    left
    exact ⟨xs, cap, l, rfl, hcap⟩
  | cons c cs ih =>
    intro xs cap l hcap hs hf
    simp only [callsSound, Bool.and_eq_true] at hs
    simp only [callsFit, Bool.and_eq_true, decide_eq_true_eq] at hf
    rcases call_holding E c xs cap hcap l hs.1 hf.1
        (fun rhs h => hr rhs (by rw [h]; exact List.mem_cons_self _ _)) with
      ⟨ys, cap1, l1, h1, h2⟩ | ⟨s, l1, _, hth⟩
    · have hs2 := hs.2
      have hf2 := hf.2
      rw [h1] at hs2 hf2
      simp only [] at hs2 hf2
      rcases ih (fun rhs h => hr rhs (List.mem_cons_of_mem _ h)) ys cap1 l1 h2 hs2 hf2 with
        ⟨zs, cap2, l2, h3, h4⟩ | hth
      · left
        refine ⟨zs, cap2, l2, ?_, h4⟩
        simp only [runCalls, h1, h3]
      · right
        exact hth
    · right
      exact hth

/-! ## Exceptions of `Reserve`, whatever the block holds -/

/-- A `noexcept` move constructor lets `uninitialized_move_n` never throw. -/
theorem uninitialized_move_n_nothrow (E : ElemType T)
    (hE : E.is_nothrow_move_constructible = true) (n : Nat) :
    ∀ (first : Nat) (src dst : Block T) (d : Nat) (l : Log),
    (uninitialized_move_n E n first src dst d l).Meets (fun _ _ => True) (fun _ => False) := by
  induction n with
  | zero => intro first src dst d l; trivial
  | succ n ih =>
    intro first src dst d l
    have hm : E.moveCtorThrows l = false := by
      simp only [ElemType.moveCtorThrows, hE, Bool.not_true, Bool.false_and]
    unfold uninitialized_move_n
    cases hs : slot src first with
    | none => trivial
    | some x =>
      simp only []
      by_cases hd : dst.length ≤ d
      · rw [if_pos hd]; trivial
      · rw [if_neg hd, hm]
        simp only [Bool.false_eq_true, if_false]
        have h1 := ih (first + 1) (src.set first (some (E.moved_from x))) (dst.set d (some x))
          (d + 1) (.moveCtor :: l)
        cases hr : uninitialized_move_n E n (first + 1) (src.set first (some (E.moved_from x)))
            (dst.set d (some x)) (d + 1) (.moveCtor :: l) with
        | ok a s l1 => trivial
        | threw s l1 =>
          rw [hr] at h1
          exact h1.elim
        | assertFailed =>
          rw [hr] at h1
          exact h1.elim
        | undefined => trivial

/-- Beyond `SIZE_MAX / sizeof(T)` the bytes asked for wrap: on `int`, `Reserve(2^62)` asks for
`2^64` bytes, which is 0 in `size_t`, and relocates the element of `[1]` past the end of the
block it gets; `Vector(2^62)` constructs past the end of its block. -/
theorem Allocate_wraps :
    RawMemory.Allocate intElem 4611686018427387904 [] = .ok [] () [.alloc 4611686018427387904]
    ∧ (Vector.holding ([1] : List Int) 1).Reserve intElem 4611686018427387904 [] = .undefined
    ∧ Vector.ofSize intElem 4611686018427387904 [] = .undefined := by
  decide

/-- On a type that is copyable or has a `noexcept` move constructor, `TransferContent` that
throws leaves the vector as it was, whatever the two blocks hold. -/
theorem TransferContent_threw (E : ElemType T)
    (hE : E.is_nothrow_move_constructible = true ∨ E.is_copy_constructible = true)
    (v : Vector T) (new_data : RawMemory T) (l : Log) :
    (v.TransferContent E new_data l).Meets (fun _ _ => True) (fun s => s.1 = v) := by
  simp only [Vector.TransferContent]
  by_cases hb : (E.is_nothrow_move_constructible || !E.is_copy_constructible) = true
  · rw [if_pos hb]
    have hn : E.is_nothrow_move_constructible = true := by
      rcases hE with h | h
      · exact h
      · simpa [h] using hb
    refine Meets.bind _ _ _ (fun _ _ => True) (fun _ => False) _ _
      (uninitialized_move_n_nothrow E hn ..) ?_ ?_
    · intro _ h; exact h.elim
    · intro _ s l1 _
      refine Meets.bind _ _ _ (fun _ _ => True) (fun _ => False) _ _ (destroy_n_meets ..) ?_ ?_
      · intro _ h; exact h.elim
      · intro _ _ _ _; trivial
  · rw [if_neg hb]
    refine Meets.bind _ _ _ (fun _ _ => True) (fun s => s.1 = v.data_.buffer_) _ _ ?_ ?_ ?_
    · refine Meets.bind _ _ _ (fun _ _ => True) (fun _ => True) _ _
        (uninitialized_copy_n_meets ..) ?_ ?_
      · intro _ _; rfl
      · intro _ _ _ _; trivial
    · intro s hs
      simp only [hs]
    · intro _ s l1 _
      refine Meets.bind _ _ _ (fun _ _ => True) (fun _ => False) _ _ (destroy_n_meets ..) ?_ ?_
      · intro _ h; exact h.elim
      · intro _ _ _ _; trivial

/-- On a type that is copyable or has a `noexcept` move constructor, `Reserve` that throws
leaves the vector as it was. -/
theorem Reserve_threw (E : ElemType T)
    (hE : E.is_nothrow_move_constructible = true ∨ E.is_copy_constructible = true)
    (n : Nat) (v : Vector T) (l : Log) :
    (v.Reserve E n l).Meets (fun _ _ => True) (fun s => s = v) := by
  unfold Vector.Reserve
  by_cases h : n ≤ v.data_.Capacity
  · rw [if_pos h]; trivial
  · rw [if_neg h]
    refine Meets.bind _ _ _ (fun _ _ => True) (fun _ => True) _ _ ?_ ?_ ?_
    · unfold RawMemory.create RawMemory.Allocate
      split_ifs <;> simp [Res.bind, Res.Meets]
    · intro _ _; rfl
    · intro m _ l1 _
      refine Meets.bind _ _ _ _ _ _ _ (TransferContent_threw E hE v m l1) ?_ ?_
      · intro s hs; exact hs
      · intro _ _ _ _; trivial

/-! ## What the outcome of a call tells -/

theorem grownCapacity_eq_max (n : Nat) : grownCapacity n = max 1 (2 * n) := by
  unfold grownCapacity
  split_ifs <;> omega

/-- When a call meets the same condition after a return and after an exception, the state it
leaves behind satisfies the condition. -/
theorem final_of_meets {σ α : Type} (r : Res σ α) (P : σ → Prop)
    (h : r.Meets (fun _ s => P s) P) (s : σ) (hs : r.final = some s) : P s := by
  cases r with
  | ok a s0 l => simp only [Res.final, Option.some.injEq] at hs; subst hs; exact h
  | threw s0 l => simp only [Res.final, Option.some.injEq] at hs; subst hs; exact h
  | assertFailed => cases hs
  | undefined => cases hs

/-- A call that meets a condition fails no assertion. -/
theorem ne_assertFailed_of_meets {σ α : Type} (r : Res σ α) (Q : α → σ → Prop) (R : σ → Prop)
    (h : r.Meets Q R) : r ≠ .assertFailed := by
  intro hr
  rw [hr] at h
  exact h

end Lemmas

/-! ## The claims -/

/-- C1: starting from an empty vector, the calls `PushBack(v1)`, ..., `PushBack(vn)` in order
return normally and leave `Size() = n` and `operator[](i) = v(i+1)` for every `i < n`; and
every `EmplaceBack` on a vector within its capacity returns the slot `Size() - 1` of the
vector after the call, which holds the element just appended.  The blocks asked for stay
within `size_t`: `2 * n * sizeof(T) ≤ SIZE_MAX` for the sequence, and
`max(1, 2 * Capacity()) * sizeof(T) ≤ SIZE_MAX` for an `EmplaceBack` on a full vector. -/
theorem C1_push_back_sequence {T : Type} (E : ElemType T) (hE : E.NoThrow) (vs : List T)
    (hfit : 2 * vs.length * E.sizeof ≤ SIZE_MAX) (l : Log) :
    (∃ v l1, pushAll E vs Vector.empty l = .ok () v l1 ∧ v.Size = vs.length
        ∧ v.elements = some vs ∧ ∀ i, i < vs.length → v.read i = vs[i]?)
    ∧ ∀ (xs : List T) (cap : Nat) (arg : Arg T) (x : T) (l0 : Log), xs.length ≤ cap →
        (xs.length = cap → grownCapacity cap * E.sizeof ≤ SIZE_MAX) →
        arg.value xs = some x →
        ∃ r v1 l1, (Vector.holding xs cap).EmplaceBack E arg l0 = .ok r v1 l1
          ∧ r = v1.Size - 1 ∧ v1.read r = some x ∧ v1.elements = some (xs ++ [x]) := by
  constructor
  · obtain ⟨cap1, l1, h1, h2⟩ := pushAll_holding E hE vs [] 0 l (Nat.le_refl _)
      (by simpa using hfit)
    rw [List.nil_append] at h1 h2
    refine ⟨_, l1, h1, rfl, holding_elements vs cap1, ?_⟩
    intro i hi
    exact holding_read vs cap1 i h2 hi
  · intro xs cap arg x l0 hcap hgrow hx
    obtain ⟨l1, h1⟩ := EmplaceBack_noThrow E hE xs cap hcap hgrow arg x hx l0
    refine ⟨_, _, l1, h1, ?_, ?_, holding_elements _ _⟩
    · simp [Vector.Size, holding_size]
    · rw [holding_read _ _ _ (grown_ge xs cap x hcap) (by simp)]
      simp

/-- C1, on `int`: three `PushBack` calls on an empty vector, and `v.EmplaceBack(v[0])` on the
full vector `[1, 2]`. -/
theorem C1_push_back_sequence_witness :
    intElem.NoThrow ∧ 2 * [1, 2, 3].length * intElem.sizeof ≤ SIZE_MAX
    ∧ (∃ v l1, pushAll intElem [1, 2, 3] Vector.empty [] = .ok () v l1 ∧ v.Size = 3
        ∧ v.elements = some [1, 2, 3]
        ∧ v.read 0 = some 1 ∧ v.read 1 = some 2 ∧ v.read 2 = some 3)
    ∧ [1, 2].length ≤ 2 ∧ grownCapacity 2 * intElem.sizeof ≤ SIZE_MAX
    ∧ (Arg.own 0 : Arg Int).value [1, 2] = some 1
    ∧ ∃ r v1 l1, (Vector.holding [1, 2] 2).EmplaceBack intElem (.own 0) [] = .ok r v1 l1
        ∧ r = v1.Size - 1 ∧ v1.read r = some 1 ∧ v1.elements = some [1, 2, 1] := by
  obtain ⟨⟨v, l1, h1, h2, h3, h4⟩, h5⟩ :=
    C1_push_back_sequence intElem intElem_noThrow [1, 2, 3] (by decide) []
  exact ⟨intElem_noThrow, by decide,
    ⟨v, l1, h1, h2, h3, h4 0 (by decide), h4 1 (by decide), h4 2 (by decide)⟩,
    by decide, by decide, rfl, h5 [1, 2] 2 (.own 0) 1 [] (by decide) (fun _ => by decide) rfl⟩

/-- C2, where the code departs from it: on `int`, after `PushBack(1)`, `PushBack(2)`,
`PushBack(3)` on an empty vector the vector holds `[1, 2, 3]` in a block of capacity 4, so
`Insert` shifts in place, and `v.Insert(v.begin(), v[2])` leaves `[2, 1, 2, 3]`: the argument
is read only after the shift, when slot 2 already holds the old `v[1]`.  The same call on a
full vector (capacity 3, so `Insert` reallocates) leaves `[3, 1, 2, 3]`. -/
theorem C2_insert_reads_argument_after_shift :
    (pushAll intElem [1, 2, 3] Vector.empty []).final = some (Vector.holding [1, 2, 3] 4)
    ∧ (Arg.own 2 : Arg Int).value [1, 2, 3] = some 3
    ∧ (Vector.holding [1, 2, 3] 4).Insert intElem 0 (.own 2) []
        = .ok 0 (Vector.holding [2, 1, 2, 3] 4)
            [.destroy, .moveAssign, .construct, .moveAssign, .moveAssign, .moveCtor]
    ∧ (Vector.holding [1, 2, 3] 3).Insert intElem 0 (.own 2) []
        = .ok 0 (Vector.holding [3, 1, 2, 3] 6)
            [.destroy, .destroy, .destroy, .moveCtor, .moveCtor, .moveCtor, .construct,
              .alloc 6] := by
  decide

/-- C3: `Erase(begin() + k)` with `k < Size()`, on an element type whose move assignment does
not throw, leaves the elements `xs[0..k) ++ xs[k+1..)`, `Size()` one less, `Capacity()`
unchanged, and returns `begin() + k`, where the element that followed the removed one now
is (the end when the last element was removed). -/
theorem C3_erase {T : Type} (E : ElemType T) (hE : ∀ h, E.throws h .moveAssign = false)
    (xs : List T) (cap : Nat) (hcap : xs.length ≤ cap) (k : Nat) (hk : k < xs.length)
    (l : Log) :
    ∃ v1 l1, (Vector.holding xs cap).Erase E k l = .ok k v1 l1
      ∧ v1.elements = some (xs.take k ++ xs.drop (k + 1))
      ∧ v1.Size = xs.length - 1
      ∧ v1.Capacity = cap
      ∧ v1.read k = xs[k + 1]? := by
  obtain ⟨l1, h1⟩ := Erase_noThrow E hE xs cap hcap k hk l
  refine ⟨_, l1, h1, holding_elements _ _, ?_, rfl, ?_⟩
  · simp only [Vector.Size, holding_size, List.length_append, List.length_take,
      List.length_drop]
    omega
  · by_cases hlast : k + 1 < xs.length
    · rw [holding_read _ _ _ (by
          simp only [List.length_append, List.length_take, List.length_drop]; omega) (by
          simp only [List.length_append, List.length_take, List.length_drop]; omega),
        getElem?_erase xs k (by omega), if_neg (by omega)]
    · rw [holding_read_of_le _ _ _ (by
          simp only [List.length_append, List.length_take, List.length_drop]; omega),
        List.getElem?_eq_none (by omega)]

/-- C3, on `int`: erasing position 1 of `[1, 2, 3]` in a block of capacity 4. -/
theorem C3_erase_witness :
    (∀ h, intElem.throws h .moveAssign = false) ∧ [1, 2, 3].length ≤ 4 ∧ 1 < [1, 2, 3].length
    ∧ ∃ v1 l1, (Vector.holding [1, 2, 3] 4).Erase intElem 1 [] = .ok 1 v1 l1
      ∧ v1.elements = some [1, 3] ∧ v1.Size = 2 ∧ v1.Capacity = 4 ∧ v1.read 1 = some 3 :=
  ⟨fun _ => rfl, by decide, by decide,
    C3_erase intElem (fun _ => rfl) [1, 2, 3] 4 (by decide) 1 (by decide) []⟩

/-- C4: on an element type that does not throw, `Insert` at `k ≤ Size()` followed by `Erase`
at `k` leaves `Size()` and the elements as they were before the `Insert`; the block a full
vector asks for stays within `size_t`, `max(1, 2 * Capacity()) * sizeof(T) ≤ SIZE_MAX`. -/
theorem C4_insert_erase_round_trip {T : Type} (E : ElemType T) (hE : E.NoThrow) (xs : List T)
    (cap : Nat) (hcap : xs.length ≤ cap)
    (hfit : xs.length = cap → grownCapacity cap * E.sizeof ≤ SIZE_MAX)
    (k : Nat) (hk : k ≤ xs.length) (arg : Arg T) (x : T)
    (hx : arg.value xs = some x) (l : Log) :
    ∃ v1 l1 v2 l2, (Vector.holding xs cap).Insert E k arg l = .ok k v1 l1
      ∧ v1.Erase E k l1 = .ok k v2 l2
      ∧ v2.Size = xs.length ∧ v2.elements = some xs := by
  obtain ⟨y, l1, h1, _⟩ := Insert_noThrow E hE xs cap hcap hfit k hk arg x hx l
  have hlen : (xs.take k ++ y :: xs.drop k).length = xs.length + 1 := by
    simp only [List.length_append, List.length_take, List.length_cons, List.length_drop]
    omega
  have hcap1 : (xs.take k ++ y :: xs.drop k).length
      ≤ (if xs.length = cap then grownCapacity cap else cap) := by
    have := grownCapacity_gt cap
    rw [hlen]
    split <;> omega
  obtain ⟨l2, h2⟩ := Erase_noThrow E (fun h => hE h _) _ _ hcap1 k (by omega) l1
  rw [take_append_drop_insert xs k y hk] at h2
  exact ⟨_, l1, _, l2, h1, h2, rfl, holding_elements _ _⟩

/-- C4, on `int`: inserting 9 at position 1 of `[1, 2, 3]` and erasing position 1 again. -/
theorem C4_insert_erase_round_trip_witness :
    intElem.NoThrow ∧ [1, 2, 3].length ≤ 4
    ∧ ([1, 2, 3].length = 4 → grownCapacity 4 * intElem.sizeof ≤ SIZE_MAX)
    ∧ 1 ≤ [1, 2, 3].length
    ∧ (Arg.val 9 : Arg Int).value [1, 2, 3] = some 9
    ∧ ∃ v1 l1 v2 l2, (Vector.holding [1, 2, 3] 4).Insert intElem 1 (.val 9) [] = .ok 1 v1 l1
      ∧ v1.Erase intElem 1 l1 = .ok 1 v2 l2
      ∧ v2.Size = 3 ∧ v2.elements = some [1, 2, 3] :=
  ⟨intElem_noThrow, by decide, fun _ => by decide, by decide, rfl,
    C4_insert_erase_round_trip intElem intElem_noThrow [1, 2, 3] 4 (by decide)
      (fun _ => by decide) 1 (by decide) (.val 9) 9 rfl []⟩

/-- C5, where the code departs from it: `Emplace` at the end hands its argument on as
`EmplaceBack(std::move(args)...)`, so the new element is built by moving from the argument
even when the caller passed an lvalue.  On a copyable integer-like type whose move constructor
is not `noexcept` and leaves its source holding `-1`, with the constructor failing on its
second invocation (the copy of the first existing element into the new block),
`v.Emplace(v.end(), v[0])` on the full vector `[1, 2]` throws and leaves `[-1, 2]`: `Size()`
and `Capacity()` are as before, the elements are not.  Under the same failure
`v.EmplaceBack(v[0])` and `v.Insert(v.end(), v[0])` throw and leave `[1, 2]`. -/
theorem C5_growth_failure_not_atomic :
    (movingElem (nthCtorThrows 2)).is_copy_constructible = true
    ∧ (Vector.holding ([1, 2] : List Int) 2).Size
        = (Vector.holding ([1, 2] : List Int) 2).Capacity
    ∧ (Arg.own 0 : Arg Int).value [1, 2] = some 1
    ∧ (movingElem (nthCtorThrows 2)).throws [.construct, .alloc 4] .copyCtor = true
    ∧ (Vector.holding [1, 2] 2).Emplace (movingElem (nthCtorThrows 2)) 2 (.own 0) []
        = .threw (Vector.holding [-1, 2] 2) [.copyCtor, .construct, .alloc 4]
    ∧ (Vector.holding ([-1, 2] : List Int) 2).Size = 2
    ∧ (Vector.holding ([-1, 2] : List Int) 2).Capacity = 2
    ∧ (Vector.holding ([-1, 2] : List Int) 2).elements = some [-1, 2]
    ∧ (Vector.holding ([1, 2] : List Int) 2).elements = some [1, 2]
    ∧ (Vector.holding [1, 2] 2).EmplaceBack (movingElem (nthCtorThrows 2)) (.own 0) []
        = .threw (Vector.holding [1, 2] 2) [.copyCtor, .construct, .alloc 4]
    ∧ (Vector.holding [1, 2] 2).Insert (movingElem (nthCtorThrows 2)) 2 (.own 0) []
        = .threw (Vector.holding [1, 2] 2) [.copyCtor, .construct, .alloc 4] := by
  decide

/-- C7: `Reserve(n)` with `n > Capacity()`, on an element type that is copyable or whose move
constructor is `noexcept`, under any failure schedule: if it throws, the vector is exactly as
it was; and when the allocation of the new block or the relocation of an existing element
throws, `Reserve` does throw, provided `n * sizeof(T) ≤ SIZE_MAX` (the bytes `Allocate` asks
for do not wrap). -/
theorem C7_reserve_failure_atomic {T : Type} (E : ElemType T)
    (hE : E.is_nothrow_move_constructible = true ∨ E.is_copy_constructible = true)
    (xs : List T) (cap : Nat) (hcap : xs.length ≤ cap) (n : Nat) (hn : cap < n) (l : Log) :
    (∀ s l1, (Vector.holding xs cap).Reserve E n l = .threw s l1 → s = Vector.holding xs cap)
    ∧ (n * E.sizeof ≤ SIZE_MAX → E.reserveThrows xs.length n l →
        ∃ l1, (Vector.holding xs cap).Reserve E n l = .threw (Vector.holding xs cap) l1) := by
  constructor
  · intro s l1 h
    have hm := Reserve_threw E hE n (Vector.holding xs cap) l
    rw [h] at hm
    exact hm
  · intro hfit hit
    rcases Reserve_grow E hE xs cap n hcap hn hfit l with ⟨l2, _, h2⟩ | h
    · exact absurd hit h2
    · exact h

/-- C7, on a copying integer type: `Reserve(5)` on `[1, 2, 3]` with capacity 3 throws and
leaves the vector as it was, when the allocation fails and when the second copy fails. -/
theorem C7_reserve_failure_atomic_witness :
    ((faultyElem allocThrows).is_nothrow_move_constructible = true
        ∨ (faultyElem allocThrows).is_copy_constructible = true)
    ∧ [1, 2, 3].length ≤ 3 ∧ 3 < 5 ∧ 5 * (faultyElem allocThrows).sizeof ≤ SIZE_MAX
    ∧ (faultyElem allocThrows).reserveThrows 3 5 []
    ∧ (∃ l1, (Vector.holding [1, 2, 3] 3).Reserve (faultyElem allocThrows) 5 []
        = .threw (Vector.holding [1, 2, 3] 3) l1)
    ∧ (faultyElem (nthCtorThrows 2)).reserveThrows 3 5 []
    ∧ (∃ l1, (Vector.holding [1, 2, 3] 3).Reserve (faultyElem (nthCtorThrows 2)) 5 []
        = .threw (Vector.holding [1, 2, 3] 3) l1) :=
  have hit1 : (faultyElem allocThrows).reserveThrows 3 5 [] := Or.inl rfl
  have hit2 : (faultyElem (nthCtorThrows 2)).reserveThrows 3 5 [] :=
    Or.inr ⟨1, by decide, rfl⟩
  ⟨Or.inr rfl, by decide, by decide, by decide, hit1,
    (C7_reserve_failure_atomic (faultyElem allocThrows) (Or.inr rfl) [1, 2, 3] 3 (by decide) 5
      (by decide) []).2 (by decide) hit1,
    hit2,
    (C7_reserve_failure_atomic (faultyElem (nthCtorThrows 2)) (Or.inr rfl) [1, 2, 3] 3
      (by decide) 5 (by decide) []).2 (by decide) hit2⟩

/-- C9: on an element type that does not throw, the copy constructor returns a vector with
`Size() = src.Size()`, `Capacity() = src.Size()` and element `i` equal to `src[i]` for every
`i < Size()`; and whatever mutating calls (`PushBack`, `PopBack`, `Insert`, `Erase`, `Resize`,
element assignment) a caller then makes on the copy, however they end, `src` is as it
was.  The block asked for stays within `size_t`: `src.Size() * sizeof(T) ≤ SIZE_MAX`. -/
theorem C9_copy_construct {T : Type} (E : ElemType T) (hE : E.NoThrow) (xs : List T)
    (cap : Nat) (hcap : xs.length ≤ cap) (hfit : xs.length * E.sizeof ≤ SIZE_MAX) (l : Log) :
    ∃ c l1, Vector.copyCtor E (Vector.holding xs cap) l = .ok c () l1
      ∧ c.Size = (Vector.holding xs cap).Size
      ∧ c.Capacity = (Vector.holding xs cap).Size
      ∧ (∀ i, i < c.Size → c.read i = (Vector.holding xs cap).read i)
      ∧ c.elements = (Vector.holding xs cap).elements
      ∧ ∀ (F : ElemType T) (ms : List (Mutation T)) (l2 : Log) (s : Vector T × Vector T),
          (mutateCopy F ms (Vector.holding xs cap, c) l2).final = some s
            → s.1 = Vector.holding xs cap := by
  obtain ⟨l1, h1⟩ := copyCtor_noThrow E hE xs cap hfit l
  refine ⟨_, l1, h1, rfl, rfl, ?_, ?_, ?_⟩
  · intro i hi
    simp only [Vector.Size, holding_size] at hi
    rw [holding_read _ _ _ (Nat.le_refl _) hi, holding_read _ _ _ hcap hi]
  · rw [holding_elements, holding_elements]
  · intro F ms l2 s h
    exact mutateCopy_fst F ms _ _ l2 s h

/-- C9, on `int`: copying `[1, 2, 3]` held in a block of capacity 5, then mutating the
copy. -/
theorem C9_copy_construct_witness :
    intElem.NoThrow ∧ [1, 2, 3].length ≤ 5 ∧ [1, 2, 3].length * intElem.sizeof ≤ SIZE_MAX
    ∧ ∃ c l1, Vector.copyCtor intElem (Vector.holding [1, 2, 3] 5) [] = .ok c () l1
      ∧ c.Size = 3 ∧ c.Capacity = 3
      ∧ c.read 0 = some 1 ∧ c.read 1 = some 2 ∧ c.read 2 = some 3
      ∧ c.elements = some [1, 2, 3]
      ∧ ∀ s, (mutateCopy intElem
            [.PushBack 9, .Erase 0, .assign 0 5, .Resize 1, .PopBack, .Insert 0 4]
            (Vector.holding [1, 2, 3] 5, c) l1).final = some s
          → s.1 = Vector.holding [1, 2, 3] 5 := by
  obtain ⟨c, l1, h1, h2, h3, h4, h5, h6⟩ :=
    C9_copy_construct intElem intElem_noThrow [1, 2, 3] 5 (by decide) (by decide) []
  have e0 := h4 0 (by rw [h2]; decide)
  have e1 := h4 1 (by rw [h2]; decide)
  have e2 := h4 2 (by rw [h2]; decide)
  exact ⟨intElem_noThrow, by decide, by decide, c, l1, h1, h2, h3, e0.trans (by decide),
    e1.trans (by decide), e2.trans (by decide), h5.trans (by decide), h6 intElem _ l1⟩

/-- C10: the move constructor returns a vector with the former `Size()`, `Capacity()` and
elements of `src` (its block and its size), and leaves `src` with `Size() = 0` and
`Capacity() = 0` (and the null block). -/
theorem C10_move_construct {T : Type} (src : Vector T) :
    (Vector.moveCtor src).1 = src
    ∧ (Vector.moveCtor src).1.Size = src.Size
    ∧ (Vector.moveCtor src).1.Capacity = src.Capacity
    ∧ (Vector.moveCtor src).1.elements = src.elements
    ∧ (Vector.moveCtor src).2.Size = 0
    ∧ (Vector.moveCtor src).2.Capacity = 0
    ∧ (Vector.moveCtor src).2 = Vector.empty :=
  ⟨rfl, rfl, rfl, rfl, rfl, rfl, rfl⟩

/-- C11: `PopBack()` on a vector that holds `xs` returns.  When `xs` is not empty, `Size()` is
one less, `Capacity()` is unchanged, the elements are `xs` without its last one, so
`operator[](i)` reads as before for every `i < Size() - 1`, and one object is destroyed.  When
`xs` is empty the vector and the log are unchanged.  And `PopBack()` throws on no vector at
all. -/
theorem C11_pop_back {T : Type} (xs : List T) (cap : Nat) (hcap : xs.length ≤ cap) (l : Log) :
    (∃ v1 l1, (Vector.holding xs cap).PopBack l = .ok () v1 l1
      ∧ v1.elements = some xs.dropLast
      ∧ v1.Capacity = cap
      ∧ (∀ i, i + 1 < xs.length → v1.read i = xs[i]?)
      ∧ (0 < xs.length → v1.Size + 1 = xs.length ∧ l1 = Ev.destroy :: l)
      ∧ (xs.length = 0 → v1 = Vector.holding xs cap ∧ l1 = l))
    ∧ ∀ (v s : Vector T) (l0 l1 : Log), v.PopBack l0 ≠ .threw s l1 := by
  constructor
  · refine ⟨_, _, PopBack_spec xs cap hcap l, holding_elements _ _, rfl, ?_, ?_, ?_⟩
    · intro i hi
      rw [holding_read _ _ _ (by simp only [List.length_dropLast]; omega)
        (by simp only [List.length_dropLast]; omega), List.getElem?_dropLast, if_pos (by omega)]
    · intro hpos
      refine ⟨?_, by rw [if_neg (by omega)]⟩
      simp only [Vector.Size, holding_size, List.length_dropLast]
      omega
    · intro h0
      have := List.length_eq_zero.mp h0
      subst this
      exact ⟨rfl, rfl⟩
  · intro v s l0 l1 h
    unfold Vector.PopBack at h
    split_ifs at h
    simp only [] at h
    split at h
    · cases h
    · rename_i p _
      have := destroy_n_meets 1 v.data_.buffer_ p l0
      cases hd : destroy_n 1 v.data_.buffer_ p l0 with
      | ok a b l2 => rw [hd] at h; cases h
      | threw b l2 => rw [hd] at this; exact this
      | assertFailed => rw [hd] at h; cases h
      | undefined => rw [hd] at h; cases h

/-- C11, on `int`: `PopBack()` on `[1, 2, 3]` in a block of capacity 4, and on no vector an
exception. -/
theorem C11_pop_back_witness :
    [1, 2, 3].length ≤ 4
    ∧ (∃ v1 l1, (Vector.holding ([1, 2, 3] : List Int) 4).PopBack [] = .ok () v1 l1
      ∧ v1.elements = some [1, 2]
      ∧ v1.Capacity = 4
      ∧ (∀ i, i + 1 < 3 → v1.read i = ([1, 2, 3] : List Int)[i]?)
      ∧ (0 < 3 → v1.Size + 1 = 3 ∧ l1 = [Ev.destroy])
      ∧ (3 = 0 → v1 = Vector.holding [1, 2, 3] 4 ∧ l1 = []))
    ∧ ∀ (v s : Vector Int) (l0 l1 : Log), v.PopBack l0 ≠ .threw s l1 :=
  ⟨by decide, C11_pop_back ([1, 2, 3] : List Int) 4 (by decide) []⟩

/-- C12: a `PushBack`/`EmplaceBack`, or an `Insert`/`Emplace` at `k ≤ Size()`, whatever the
value category of its argument, on a vector that holds `xs` in a block of `cap` slots, with
any element type and any failure schedule, either returns, and then `Capacity()` is
`max(1, 2 * cap)` when the vector was full (`Size() = Capacity()`) and `cap` when it was not,
or throws because an operation of the element type or the allocation threw, and then
`Capacity()` is `cap`; so on an element type that does not throw the call returns.  The block
a full vector asks for stays within `size_t`: `max(1, 2 * cap) * sizeof(T) ≤ SIZE_MAX`. -/
theorem C12_growth_policy {T : Type} (E : ElemType T) (xs : List T) (cap : Nat)
    (hcap : xs.length ≤ cap)
    (hfit : xs.length = cap → grownCapacity cap * E.sizeof ≤ SIZE_MAX)
    (k : Nat) (hk : k ≤ xs.length) (arg : Arg T) (x : T)
    (hx : arg.value xs = some x) (l : Log) :
    (∀ cat, (∃ r v1 l1, (Vector.holding xs cap).EmplaceBackAs E cat arg l = .ok r v1 l1
          ∧ v1.Capacity = if xs.length = cap then max 1 (2 * cap) else cap)
      ∨ (∃ s l1, (Vector.holding xs cap).EmplaceBackAs E cat arg l = .threw s l1
          ∧ s.Capacity = cap ∧ ∃ h e, E.throws h e = true))
    ∧ ((∃ v1 l1, (Vector.holding xs cap).PushBack E arg l = .ok () v1 l1
          ∧ v1.Capacity = if xs.length = cap then max 1 (2 * cap) else cap)
      ∨ (∃ s l1, (Vector.holding xs cap).PushBack E arg l = .threw s l1
          ∧ s.Capacity = cap ∧ ∃ h e, E.throws h e = true))
    ∧ ((∃ v1 l1, (Vector.holding xs cap).PushBackRvalue E arg l = .ok () v1 l1
          ∧ v1.Capacity = if xs.length = cap then max 1 (2 * cap) else cap)
      ∨ (∃ s l1, (Vector.holding xs cap).PushBackRvalue E arg l = .threw s l1
          ∧ s.Capacity = cap ∧ ∃ h e, E.throws h e = true))
    ∧ (∀ cat, (∃ r v1 l1, (Vector.holding xs cap).EmplaceAs E cat k arg l = .ok r v1 l1
          ∧ v1.Capacity = if xs.length = cap then max 1 (2 * cap) else cap)
      ∨ (∃ s l1, (Vector.holding xs cap).EmplaceAs E cat k arg l = .threw s l1
          ∧ s.Capacity = cap ∧ ∃ h e, E.throws h e = true))
    ∧ ((∃ r v1 l1, (Vector.holding xs cap).Insert E k arg l = .ok r v1 l1
          ∧ v1.Capacity = if xs.length = cap then max 1 (2 * cap) else cap)
      ∨ (∃ s l1, (Vector.holding xs cap).Insert E k arg l = .threw s l1
          ∧ s.Capacity = cap ∧ ∃ h e, E.throws h e = true))
    ∧ ((∃ r v1 l1, (Vector.holding xs cap).InsertRvalue E k arg l = .ok r v1 l1
          ∧ v1.Capacity = if xs.length = cap then max 1 (2 * cap) else cap)
      ∨ (∃ s l1, (Vector.holding xs cap).InsertRvalue E k arg l = .threw s l1
          ∧ s.Capacity = cap ∧ ∃ h e, E.throws h e = true)) := by
  have hB : ∀ cat, (∃ r v1 l1, (Vector.holding xs cap).EmplaceBackAs E cat arg l = .ok r v1 l1
          ∧ v1.Capacity = if xs.length = cap then max 1 (2 * cap) else cap)
      ∨ (∃ s l1, (Vector.holding xs cap).EmplaceBackAs E cat arg l = .threw s l1
          ∧ s.Capacity = cap ∧ ∃ h e, E.throws h e = true) := by
    intro cat
    have hm := EmplaceBackAs_meets E cat arg (Vector.holding xs cap) l hcap
    rcases EmplaceBackAs_holding E cat xs cap hcap hfit arg x hx l with
      ⟨ys, l1, h1, _⟩ | ⟨s, l1, h1, hth⟩
    · left
      refine ⟨_, _, l1, h1, ?_⟩
      rw [← grownCapacity_eq_max]
      rfl
    · right
      rw [h1] at hm
      exact ⟨s, l1, h1, hm.2, hth⟩
  have hE : ∀ cat, (∃ r v1 l1, (Vector.holding xs cap).EmplaceAs E cat k arg l = .ok r v1 l1
          ∧ v1.Capacity = if xs.length = cap then max 1 (2 * cap) else cap)
      ∨ (∃ s l1, (Vector.holding xs cap).EmplaceAs E cat k arg l = .threw s l1
          ∧ s.Capacity = cap ∧ ∃ h e, E.throws h e = true) := by
    intro cat
    have hm := EmplaceAs_meets E cat k arg (Vector.holding xs cap) l hcap hk
    rcases EmplaceAs_holding E cat xs cap hcap hfit k hk arg x hx l with
      ⟨ys, l1, h1, _⟩ | ⟨s, l1, h1, hth⟩
    · left
      refine ⟨_, _, l1, h1, ?_⟩
      rw [← grownCapacity_eq_max]
      rfl
    · right
      rw [h1] at hm
      exact ⟨s, l1, h1, hm.2, hth⟩
  have hP : ∀ cat, (∃ v1 l1, ((Vector.holding xs cap).EmplaceBackAs E cat arg l).bind id
            (fun _ v1 l1 => Res.ok () v1 l1) = .ok () v1 l1
          ∧ v1.Capacity = if xs.length = cap then max 1 (2 * cap) else cap)
      ∨ (∃ s l1, ((Vector.holding xs cap).EmplaceBackAs E cat arg l).bind id
            (fun _ v1 l1 => Res.ok () v1 l1) = .threw s l1
          ∧ s.Capacity = cap ∧ ∃ h e, E.throws h e = true) := by
    intro cat
    rcases hB cat with ⟨r, v1, l1, h1, h2⟩ | ⟨s, l1, h1, h2⟩
    · left
      exact ⟨v1, l1, by simp only [h1, bind_ok], h2⟩
    · right
      exact ⟨s, l1, by simp only [h1, bind_threw, id], h2⟩
  exact ⟨hB, hP .to_const, hP .rvalue, hE, hE .to_const, hE .rvalue⟩

/-- C12, on `int`: appending 4 to the full vector `[1, 2, 3]` (capacity 3, then 6), and
inserting it at position 1. -/
theorem C12_growth_policy_witness :
    [1, 2, 3].length ≤ 3 ∧ grownCapacity 3 * intElem.sizeof ≤ SIZE_MAX ∧ 1 ≤ [1, 2, 3].length
    ∧ (Arg.val 4 : Arg Int).value [1, 2, 3] = some 4
    ∧ (∃ r v1 l1, (Vector.holding [1, 2, 3] 3).EmplaceBack intElem (.val 4) [] = .ok r v1 l1
          ∧ v1.Capacity = 6)
    ∧ (∃ v1 l1, (Vector.holding [1, 2, 3] 3).PushBack intElem (.val 4) [] = .ok () v1 l1
          ∧ v1.Capacity = 6)
    ∧ (∃ r v1 l1, (Vector.holding [1, 2, 3] 3).Emplace intElem 1 (.val 4) [] = .ok r v1 l1
          ∧ v1.Capacity = 6)
    ∧ (∃ r v1 l1, (Vector.holding [1, 2, 3] 3).Insert intElem 1 (.val 4) [] = .ok r v1 l1
          ∧ v1.Capacity = 6) := by
  have h := C12_growth_policy intElem [1, 2, 3] 3 (by decide) (fun _ => by decide) 1
    (by decide) (.val 4) 4 rfl []
  refine ⟨by decide, by decide, by decide, rfl, ?_, ?_, ?_, ?_⟩
  · rcases h.1 .lvalue with h1 | ⟨_, _, _, _, _, _, he⟩
    · exact h1
    · cases he
  · rcases h.2.1 with h1 | ⟨_, _, _, _, _, _, he⟩
    · exact h1
    · cases he
  · rcases h.2.2.2.1 .lvalue with h1 | ⟨_, _, _, _, _, _, he⟩
    · exact h1
    · cases he
  · rcases h.2.2.2.2.1 with h1 | ⟨_, _, _, _, _, _, he⟩
    · exact h1
    · cases he

/-- C13: `Size() ≤ Capacity()` is an invariant.  It holds for `Vector()`, for every vector
`Vector(size)` or the copy constructor returns, and for both vectors after the move
constructor.  And on a vector `v` with `Size() ≤ Capacity()`: whatever state a `PushBack`,
`EmplaceBack`, `PopBack`, `Insert`, `Emplace`, `Erase`, `Resize`, `Reserve` or copy assignment
called within its precondition leaves `v` in, by returning or by throwing, has
`Size() ≤ Capacity()`; so has every state a sequence of such calls reaches; and so have both
vectors after a move assignment or a `Swap` with a vector that has `Size() ≤ Capacity()`. -/
theorem C13_size_le_capacity {T : Type} (E : ElemType T) (v : Vector T)
    (hv : v.Size ≤ v.Capacity) :
    (Vector.empty : Vector T).Size ≤ (Vector.empty : Vector T).Capacity
    ∧ (∀ size l c l1, Vector.ofSize E size l = .ok c () l1 → c.Size ≤ c.Capacity)
    ∧ (∀ other l c l1, Vector.copyCtor E other l = .ok c () l1 → c.Size ≤ c.Capacity)
    ∧ ((Vector.moveCtor v).1.Size ≤ (Vector.moveCtor v).1.Capacity
      ∧ (Vector.moveCtor v).2.Size ≤ (Vector.moveCtor v).2.Capacity)
    ∧ (∀ c l s, c.sound v = true → (v.call E c l).final = some s → s.Size ≤ s.Capacity)
    ∧ (∀ cs l s, callsSound E cs v l = true → (runCalls E cs v l).final = some s
        → s.Size ≤ s.Capacity)
    ∧ (v.moveAssign .self = (v, .self))
    ∧ (∀ rhs : Vector T, rhs.Size ≤ rhs.Capacity →
        ∃ v1 rhs1, v.moveAssign (.other rhs) = (v1, .other rhs1)
          ∧ v1.Size ≤ v1.Capacity ∧ rhs1.Size ≤ rhs1.Capacity)
    ∧ (∀ other : Vector T, other.Size ≤ other.Capacity →
        (v.Swap other).1.Size ≤ (v.Swap other).1.Capacity
        ∧ (v.Swap other).2.Size ≤ (v.Swap other).2.Capacity) := by
  refine ⟨Nat.le_refl _, ?_, ?_, ⟨hv, Nat.le_refl _⟩, ?_, ?_, rfl, ?_, ?_⟩
  · intro size l c l1 h
    have := ofSize_meets E size l
    rw [h] at this
    exact Nat.le_of_eq (this.1.trans this.2.symm)
  · intro other l c l1 h
    have := copyCtor_meets E other l
    rw [h] at this
    exact Nat.le_of_eq (this.1.trans this.2.symm)
  · intro c l s hc hs
    exact final_of_meets _ (fun s => s.size_ ≤ s.data_.capacity_)
      (Meets.mono _ _ _ _ _ (call_meets E c v l hv hc) (fun _ _ h => h.1) (fun _ h => h.1)) s hs
  · intro cs l s hc hs
    exact final_of_meets _ (fun s => s.size_ ≤ s.data_.capacity_)
      (Meets.mono _ _ _ _ _ (runCalls_meets E cs v l hv hc) (fun _ _ h => h.1)
        (fun _ h => h.elim)) s hs
  · intro rhs hr
    exact ⟨_, _, rfl, hr, Nat.le_refl _⟩
  · intro other ho
    exact ⟨ho, hv⟩

/-- C13, on `int`: from `[1, 2, 3]` in a block of capacity 3, an `Insert` at position 1 and a
sequence of calls. -/
theorem C13_size_le_capacity_witness :
    (Vector.holding ([1, 2, 3] : List Int) 3).Size
        ≤ (Vector.holding ([1, 2, 3] : List Int) 3).Capacity
    ∧ (Call.Insert 1 (.val 9)).sound (Vector.holding ([1, 2, 3] : List Int) 3) = true
    ∧ ((Vector.holding [1, 2, 3] 3).call intElem (.Insert 1 (.val 9)) []).final
        = some (Vector.holding [1, 9, 2, 3] 6)
    ∧ (Vector.holding ([1, 9, 2, 3] : List Int) 6).Size
        ≤ (Vector.holding ([1, 9, 2, 3] : List Int) 6).Capacity
    ∧ callsSound intElem [.PushBack (.own 0), .Erase 1, .Resize 7, .PopBack,
        .copyAssign (.other (Vector.holding [7, 8] 2))] (Vector.holding [1, 2, 3] 3) [] = true
    ∧ (runCalls intElem [.PushBack (.own 0), .Erase 1, .Resize 7, .PopBack,
        .copyAssign (.other (Vector.holding [7, 8] 2))] (Vector.holding [1, 2, 3] 3) []).final
        = some (Vector.holding [7, 8] 7)
    ∧ (Vector.holding ([7, 8] : List Int) 7).Size
        ≤ (Vector.holding ([7, 8] : List Int) 7).Capacity :=
  have h := C13_size_le_capacity intElem (Vector.holding [1, 2, 3] 3) (by decide)
  ⟨by decide, by decide, by decide,
    h.2.2.2.2.1 (.Insert 1 (.val 9)) [] _ (by decide) (by decide),
    by decide, by decide,
    h.2.2.2.2.2.1 [.PushBack (.own 0), .Erase 1, .Resize 7, .PopBack,
      .copyAssign (.other (Vector.holding [7, 8] 2))] [] _ (by decide) (by decide)⟩

/-- C14: on a vector `v` with `Size() ≤ Capacity()`, every state reached by a sequence of
`PushBack`, `EmplaceBack`, `PopBack`, `Insert`, `Emplace`, `Erase`, `Resize`, `Reserve` and
copy assignment calls, each within its precondition, returning or throwing, has a `Capacity()`
at least that of `v`; and when `Reserve(n)` returns, `Capacity() ≥ n` holds then and in every
state such a sequence reaches afterwards.  The move constructor leaves the vector it moves
from with capacity 0 and `Swap` gives the vector the capacity of the other. -/
theorem C14_capacity_never_decreases {T : Type} (E : ElemType T) (v : Vector T)
    (hv : v.Size ≤ v.Capacity) (n : Nat) (l : Log) :
    (∀ cs l0 s, callsSound E cs v l0 = true → (runCalls E cs v l0).final = some s
        → v.Capacity ≤ s.Capacity)
    ∧ (∀ v1 l1, v.Reserve E n l = .ok () v1 l1 →
        n ≤ v1.Capacity
        ∧ ∀ cs l2 s, callsSound E cs v1 l2 = true → (runCalls E cs v1 l2).final = some s
            → n ≤ s.Capacity)
    ∧ (Vector.moveCtor v).2.Capacity = 0
    ∧ ∀ other : Vector T, (v.Swap other).1.Capacity = other.Capacity := by
  have key : ∀ (w : Vector T), w.size_ ≤ w.data_.capacity_ → ∀ cs l0 s,
      callsSound E cs w l0 = true → (runCalls E cs w l0).final = some s
        → w.data_.capacity_ ≤ s.data_.capacity_ := by
    intro w hw cs l0 s hc hs
    exact final_of_meets _ (fun s => w.data_.capacity_ ≤ s.data_.capacity_)
      (Meets.mono _ _ _ _ _ (runCalls_meets E cs w l0 hw hc) (fun _ _ h => h.2)
        (fun _ h => h.elim)) s hs
  refine ⟨key v hv, ?_, rfl, fun _ => rfl⟩
  intro v1 l1 h1
  have hm := Reserve_meets E n v l
  rw [h1] at hm
  have hn : n ≤ v1.data_.capacity_ := by
    rw [hm.2]
    exact Nat.le_max_right _ _
  have hv1 : v1.size_ ≤ v1.data_.capacity_ := by
    rw [hm.1, hm.2]
    exact Nat.le_trans hv (Nat.le_max_left _ _)
  exact ⟨hn, fun cs l2 s hc hs => Nat.le_trans hn (key v1 hv1 cs l2 s hc hs)⟩

/-- C14, on `int`: after `Reserve(10)` on `[1, 2, 3]` in a block of capacity 3, a sequence that
appends, erases, resizes and assigns a shorter vector ends with capacity 10. -/
theorem C14_capacity_never_decreases_witness :
    (Vector.holding ([1, 2, 3] : List Int) 3).Size
        ≤ (Vector.holding ([1, 2, 3] : List Int) 3).Capacity
    ∧ (Vector.holding [1, 2, 3] 3).Reserve intElem 10 []
        = .ok () (Vector.holding [1, 2, 3] 10)
            [.destroy, .destroy, .destroy, .moveCtor, .moveCtor, .moveCtor, .alloc 10]
    ∧ callsSound intElem [.PushBack (.own 0), .Erase 1, .Resize 7, .PopBack,
        .copyAssign (.other (Vector.holding [7, 8] 2))] (Vector.holding [1, 2, 3] 10) [] = true
    ∧ (runCalls intElem [.PushBack (.own 0), .Erase 1, .Resize 7, .PopBack,
        .copyAssign (.other (Vector.holding [7, 8] 2))] (Vector.holding [1, 2, 3] 10) []).final
        = some (Vector.holding [7, 8] 10)
    ∧ 10 ≤ (Vector.holding ([7, 8] : List Int) 10).Capacity :=
  ⟨by decide, by decide, by decide, by decide,
    ((C14_capacity_never_decreases intElem (Vector.holding [1, 2, 3] 3) (by decide) 10 []).2.1
      (Vector.holding [1, 2, 3] 10)
      [.destroy, .destroy, .destroy, .moveCtor, .moveCtor, .moveCtor, .alloc 10] (by decide)).2
      [.PushBack (.own 0), .Erase 1, .Resize 7, .PopBack,
        .copyAssign (.other (Vector.holding [7, 8] 2))] [] _ (by decide) (by decide)⟩

/-- C15: copy assignment `dst = src`, with `dst` holding `xs` in a block of `cap` slots and
`src` holding `ys`, either returns, and then `dst` has `Size() = src.Size()` and the elements
`ys`; when `src.Size() ≤ cap` its capacity is still `cap`, nothing is allocated,
`min(dst.Size(), src.Size())` elements are copy-assigned, `src.Size() - dst.Size()` (0 when
negative) are copy-constructed and `dst.Size() - src.Size()` (0 when negative) are destroyed;
when `src.Size() > cap` its capacity is `src.Size()`; or it throws, because an operation of
the element type or the allocation threw.  However the assignment ends, `src` is as it was.
Self-assignment returns with `dst` and the log unchanged.  The block asked for when
`src.Size() > cap` stays within `size_t`: `src.Size() * sizeof(T) ≤ SIZE_MAX`. -/
theorem C15_copy_assign {T : Type} (E : ElemType T) (xs ys : List T) (cap cap2 : Nat)
    (hcap : xs.length ≤ cap) (hcap2 : ys.length ≤ cap2)
    (hfit : cap < ys.length → ys.length * E.sizeof ≤ SIZE_MAX) (l : Log) :
    ((∃ v1 l1, (Vector.holding xs cap).copyAssign E (.other (Vector.holding ys cap2)) l
          = .ok () v1 l1
        ∧ v1.Size = ys.length ∧ v1.elements = some ys
        ∧ (∀ i, i < ys.length → v1.read i = ys[i]?)
        ∧ (ys.length ≤ cap →
            v1.Capacity = cap
            ∧ (∀ n, l1.count (.alloc n) = l.count (.alloc n))
            ∧ l1.count .copyAssign = l.count .copyAssign + min xs.length ys.length
            ∧ l1.count .copyCtor = l.count .copyCtor + (ys.length - xs.length)
            ∧ l1.count .destroy = l.count .destroy + (xs.length - ys.length))
        ∧ (cap < ys.length → v1.Capacity = ys.length))
      ∨ (∃ s l1, (Vector.holding xs cap).copyAssign E (.other (Vector.holding ys cap2)) l
          = .threw s l1 ∧ ∃ h e, E.throws h e = true))
    ∧ (∀ s, (assignCopy E (Vector.holding xs cap, Vector.holding ys cap2) l).final = some s
        → s.2 = Vector.holding ys cap2)
    ∧ (Vector.holding xs cap).copyAssign E .self l = .ok () (Vector.holding xs cap) l := by
  refine ⟨?_, ?_, rfl⟩
  swap
  · intro s hs
    unfold assignCopy at hs
    cases hr : (Vector.holding xs cap).copyAssign E (.other (Vector.holding ys cap2)) l with
    | ok a d l1 =>
      rw [hr] at hs
      simp only [bind_ok, Res.final, Option.some.injEq] at hs
      rw [← hs]
    | threw d l1 =>
      rw [hr] at hs
      simp only [bind_threw, Res.final, Option.some.injEq] at hs
      rw [← hs]
    | assertFailed =>
      rw [hr] at hs
      cases hs
    | undefined =>
      rw [hr] at hs
      cases hs
  rcases copyAssign_spec E xs ys cap cap2 hcap hcap2 hfit l with
    ⟨l1, h1, hl1⟩ | ⟨s, l1, h1, hth, _⟩
  · left
    refine ⟨_, l1, h1, rfl, holding_elements _ _, ?_, ?_, ?_⟩
    · intro i hi
      exact holding_read _ _ _ (by split_ifs <;> omega) hi
    · intro hle
      rw [if_neg (by omega)] at hl1
      refine ⟨?_, ?_, ?_, ?_, ?_⟩
      · simp only [Vector.Capacity, RawMemory.Capacity, holding_capacity]
        rw [if_neg (by omega)]
      · intro n
        rw [hl1]
        simp [List.count_append, List.count_replicate]
      · rw [hl1]
        simp [List.count_append, List.count_replicate]
        omega
      · rw [hl1]
        simp [List.count_append, List.count_replicate]
        omega
      · rw [hl1]
        simp [List.count_append, List.count_replicate]
        omega
    · intro hlt
      simp only [Vector.Capacity, RawMemory.Capacity, holding_capacity]
      rw [if_pos hlt]
  · right
    exact ⟨s, l1, h1, hth⟩

/-- C15, on `int`: assigning `[7, 8, 9, 10]` to `[1, 2, 3]` in a block of capacity 6 assigns
three elements and constructs one. -/
theorem C15_copy_assign_witness :
    [1, 2, 3].length ≤ 6 ∧ [7, 8, 9, 10].length ≤ 4
    ∧ (6 < [7, 8, 9, 10].length → [7, 8, 9, 10].length * intElem.sizeof ≤ SIZE_MAX)
    ∧ (Vector.holding [1, 2, 3] 6).copyAssign intElem
          (.other (Vector.holding [7, 8, 9, 10] 4)) []
        = .ok () (Vector.holding [7, 8, 9, 10] 6)
            [.copyCtor, .copyAssign, .copyAssign, .copyAssign]
    ∧ ((∃ v1 l1, (Vector.holding [1, 2, 3] 6).copyAssign intElem
            (.other (Vector.holding [7, 8, 9, 10] 4)) [] = .ok () v1 l1
        ∧ v1.Size = 4 ∧ v1.elements = some [7, 8, 9, 10]
        ∧ (∀ i, i < 4 → v1.read i = ([7, 8, 9, 10] : List Int)[i]?)
        ∧ (4 ≤ 6 →
            v1.Capacity = 6
            ∧ (∀ n, l1.count (.alloc n) = ([] : Log).count (.alloc n))
            ∧ l1.count .copyAssign = ([] : Log).count .copyAssign + min 3 4
            ∧ l1.count .copyCtor = ([] : Log).count .copyCtor + (4 - 3)
            ∧ l1.count .destroy = ([] : Log).count .destroy + (3 - 4))
        ∧ (6 < 4 → v1.Capacity = 4))
      ∨ (∃ s l1, (Vector.holding [1, 2, 3] 6).copyAssign intElem
            (.other (Vector.holding [7, 8, 9, 10] 4)) [] = .threw s l1
          ∧ ∃ h e, intElem.throws h e = true))
    ∧ (assignCopy intElem (Vector.holding [1, 2, 3] 6, Vector.holding [7, 8, 9, 10] 4) []).final
        = some (Vector.holding [7, 8, 9, 10] 6, Vector.holding [7, 8, 9, 10] 4) :=
  ⟨by decide, by decide, fun _ => by decide, by decide,
    (C15_copy_assign intElem [1, 2, 3] [7, 8, 9, 10] 6 4 (by decide) (by decide)
      (fun _ => by decide) []).1,
    by decide⟩

/-- C17: on `int`, starting from the empty vector, `PushBack(1)`, `PushBack(2)`, `PushBack(3)`
return and leave `Size() = 3` and the elements `[1, 2, 3]`; then `Insert` at position 1 of the
value 9 returns position 1 and leaves `[1, 9, 2, 3]`; then `Erase` at position 0 returns
position 0 and leaves `[9, 2, 3]`; then `PopBack()` returns and leaves `[9, 2]`. -/
theorem C17_scenario :
    ∃ l1 l2 l3 l4,
      pushAll intElem [1, 2, 3] Vector.empty [] = .ok () (Vector.holding [1, 2, 3] 4) l1
      ∧ (Vector.holding ([1, 2, 3] : List Int) 4).Size = 3
      ∧ (Vector.holding ([1, 2, 3] : List Int) 4).elements = some [1, 2, 3]
      ∧ (Vector.holding [1, 2, 3] 4).Insert intElem 1 (.val 9) l1
          = .ok 1 (Vector.holding [1, 9, 2, 3] 4) l2
      ∧ (Vector.holding ([1, 9, 2, 3] : List Int) 4).elements = some [1, 9, 2, 3]
      ∧ (Vector.holding [1, 9, 2, 3] 4).Erase intElem 0 l2
          = .ok 0 (Vector.holding [9, 2, 3] 4) l3
      ∧ (Vector.holding ([9, 2, 3] : List Int) 4).elements = some [9, 2, 3]
      ∧ (Vector.holding [9, 2, 3] 4).PopBack l3 = .ok () (Vector.holding [9, 2] 4) l4
      ∧ (Vector.holding ([9, 2] : List Int) 4).elements = some [9, 2]
      ∧ (Vector.holding ([9, 2] : List Int) 4).Size = 2 :=
  ⟨_, _, _, _, rfl, rfl, by decide, rfl, by decide, rfl, by decide, rfl, by decide, rfl⟩

/-- C18, the case the claim gets wrong: appending no element relocates no element, and 0 is
not fewer than `2 * 0`. -/
theorem C18_nothing_appended :
    pushAll intElem [] Vector.empty [] = .ok () Vector.empty []
    ∧ relocations ([] : Log) = 0
    ∧ ¬ relocations ([] : Log) < 2 * ([] : List Int).length := by
  decide

/-- C18, amended: appending `n ≥ 1` elements one at a time to an empty vector, with any
element type, either returns with the elements appended, fewer than `2 * n` relocations in
all (exactly `Capacity() - 1`), and a final capacity that is the smallest power of two that
is at least `n`, so 1023 relocations and capacity 1024 for `n = 1000`; or one of the appends
throws because an operation of the element type or the allocation threw.  The blocks asked
for stay within `size_t`: `2 * n * sizeof(T) ≤ SIZE_MAX`. -/
theorem C18_amortized_append {T : Type} (E : ElemType T) (vs : List T) (hvs : 0 < vs.length)
    (hfit : 2 * vs.length * E.sizeof ≤ SIZE_MAX) :
    (∃ v l1, pushAll E vs Vector.empty [] = .ok () v l1
      ∧ v.elements = some vs
      ∧ relocations l1 < 2 * vs.length
      ∧ relocations l1 + 1 = v.Capacity
      ∧ (∃ k, v.Capacity = 2 ^ k) ∧ vs.length ≤ v.Capacity
      ∧ (∀ j, vs.length ≤ 2 ^ j → v.Capacity ≤ 2 ^ j)
      ∧ (vs.length = 1000 → v.Capacity = 1024 ∧ relocations l1 = 1023
          ∧ relocations l1 ≤ 2000))
    ∨ (∃ s l1, pushAll E vs Vector.empty [] = .threw s l1 ∧ ∃ h e, E.throws h e = true) := by
  rcases pushAll_doubling E vs [] 0 [] (Nat.le_refl _) (by simpa using hfit)
      (Or.inl ⟨rfl, rfl, rfl⟩) with
    ⟨cap1, l1, h1, h2, h3⟩ | ⟨s, l1, h1, hth⟩
  · left
    rw [List.nil_append] at h1 h2 h3
    rcases h3 with ⟨h0, _, _⟩ | ⟨k, hk1, hk2, hk3, hk4⟩
    · omega
    · have hleast : ∀ j, vs.length ≤ 2 ^ j → cap1 ≤ 2 ^ j := by
        intro j hj
        rw [hk1]
        exact pow_two_least vs.length k j (by rw [← hk1]; exact hk3) hj
      refine ⟨_, l1, h1, holding_elements _ _, by omega, hk4, ⟨k, hk1⟩, hk2, hleast, ?_⟩
      intro hn
      have h1024 : cap1 = 1024 := by
        have hle := hleast 10 (by rw [hn]; norm_num)
        have hk9 : ¬ k ≤ 9 := by
          intro hk
          have : 2 ^ k ≤ 2 ^ 9 := Nat.pow_le_pow_right (by omega) hk
          norm_num at this
          omega
        have : 2 ^ 10 ≤ 2 ^ k := Nat.pow_le_pow_right (by omega) (by omega)
        norm_num at hle this
        omega
      have hc : (Vector.holding vs cap1).Capacity = cap1 := rfl
      rw [hc]
      exact ⟨h1024, by omega, by omega⟩
  · right
    exact ⟨s, l1, h1, hth⟩

/-- C18, on `int`: appending 1, 2, 3, 4, 5 relocates 1 + 2 + 4 = 7 elements and ends with
capacity 8; appending 1000 zeros returns with capacity 1024 after 1023 relocations. -/
theorem C18_amortized_append_witness :
    (∃ l1, pushAll intElem [1, 2, 3, 4, 5] Vector.empty []
        = .ok () (Vector.holding [1, 2, 3, 4, 5] 8) l1 ∧ relocations l1 = 7)
    ∧ 0 < (List.replicate 1000 (0 : Int)).length
    ∧ 2 * (List.replicate 1000 (0 : Int)).length * intElem.sizeof ≤ SIZE_MAX
    ∧ ∃ v l1, pushAll intElem (List.replicate 1000 0) Vector.empty [] = .ok () v l1
        ∧ v.elements = some (List.replicate 1000 0)
        ∧ v.Capacity = 1024 ∧ relocations l1 = 1023 ∧ relocations l1 ≤ 2000 := by
  have hlen : (List.replicate 1000 (0 : Int)).length = 1000 := List.length_replicate _ _
  have hfit : 2 * (List.replicate 1000 (0 : Int)).length * intElem.sizeof ≤ SIZE_MAX := by
    rw [hlen]
    decide
  refine ⟨⟨_, rfl, by decide⟩, by rw [hlen]; omega, hfit, ?_⟩
  rcases C18_amortized_append intElem (List.replicate 1000 0) (by rw [hlen]; omega) hfit with
    ⟨v, l1, h1, h2, _, _, _, _, _, h3⟩ | ⟨_, _, _, h, e, he⟩
  · obtain ⟨h4, h5, h6⟩ := h3 hlen
    exact ⟨v, l1, h1, h2, h4, h5, h6⟩
  · cases he

/-- C19: `Insert` without growth is not failure-atomic.  On the vector `[1, 2, 3]` with
capacity 4 (so `Size() < Capacity()`), for a copyable integer-like element type: when the
constructor of the new value throws (the second constructor call, after the last element has
been moved up and the shift has run), `Insert` at position 1 throws and leaves `Size() = 3`
with the elements `[1, 2, 2]`; and when the second move assignment throws, in the middle of
the shift, `Insert` at position 0 throws and leaves `Size() = 3` with the elements
`[1, 2, 2]` as well.  Neither is the original `[1, 2, 3]`. -/
theorem C19_insert_in_place_not_atomic :
    (Vector.holding ([1, 2, 3] : List Int) 4).Size
        < (Vector.holding ([1, 2, 3] : List Int) 4).Capacity
    ∧ (Vector.holding ([1, 2, 3] : List Int) 4).elements = some [1, 2, 3]
    ∧ (Vector.holding [1, 2, 3] 4).Insert (faultyElem (nthCtorThrows 2)) 1 (.val 9) []
        = .threw ⟨⟨[some 1, some 2, some 2, some 3], 4⟩, 3⟩
            [.construct, .moveAssign, .moveCtor]
    ∧ (Vector.holding [1, 2, 3] 4).Emplace (faultyElem (nthCtorThrows 2)) 1 (.val 9) []
        = .threw ⟨⟨[some 1, some 2, some 2, some 3], 4⟩, 3⟩
            [.construct, .moveAssign, .moveCtor]
    ∧ (Vector.holding [1, 2, 3] 4).Insert (faultyElem (nthMoveAssignThrows 2)) 0 (.val 9) []
        = .threw ⟨⟨[some 1, some 2, some 2, some 3], 4⟩, 3⟩
            [.moveAssign, .moveAssign, .moveCtor]
    ∧ (⟨⟨[some 1, some 2, some 2, some 3], 4⟩, 3⟩ : Vector Int).Size = 3
    ∧ (⟨⟨[some 1, some 2, some 2, some 3], 4⟩, 3⟩ : Vector Int).elements = some [1, 2, 2]
    ∧ (⟨⟨[some 1, some 2, some 2, some 3], 4⟩, 3⟩ : Vector Int)
        ≠ Vector.holding [1, 2, 3] 4 := by
  decide

/-- C20: on a vector `v` with `Size() ≤ Capacity()`, `operator[]` with `index < Size()` passes
both its assertion and that of `RawMemory::operator[]`; no `PushBack`, `EmplaceBack`,
`PopBack`, `Insert`, `Emplace`, `Erase`, `Resize`, `Reserve` or copy assignment called within
its precondition fails an assertion of `RawMemory::operator+` or `RawMemory::operator[]`,
with any element type and any failure schedule, and neither does a sequence of such calls.
And on a vector that satisfies the class invariant such a call, when the number of objects
`n` it asks `Allocate` for has `n * sizeof(T) ≤ SIZE_MAX`, returns or throws: it fails no
assertion and does nothing undefined. -/
theorem C20_assertions_hold {T : Type} (E : ElemType T) (v : Vector T)
    (hv : v.Size ≤ v.Capacity) :
    (∀ i, i < v.Size → v.subscript i = some i)
    ∧ (∀ c l, c.sound v = true → v.call E c l ≠ .assertFailed)
    ∧ (∀ cs l, callsSound E cs v l = true → runCalls E cs v l ≠ .assertFailed)
    ∧ (v.Valid → ∀ c l, c.sound v = true → c.allocates v * E.sizeof ≤ SIZE_MAX →
        (∀ rhs, c = .copyAssign (.other rhs) → rhs.Valid) →
        (v.call E c l).completes = true) := by
  refine ⟨?_, ?_, ?_, ?_⟩
  · intro i hi
    have hi1 : i < v.size_ := hi
    have hv1 : v.size_ ≤ v.data_.capacity_ := hv
    simp only [Vector.subscript, RawMemory.subscript, if_pos hi1]
    rw [if_pos (by omega)]
  · intro c l hc
    exact ne_assertFailed_of_meets _ _ _ (call_meets E c v l hv hc)
  · intro cs l hc
    exact ne_assertFailed_of_meets _ _ _ (runCalls_meets E cs v l hv hc)
  · intro hvalid c l hc hfit hr
    obtain ⟨xs, hxs, hvx⟩ := (valid_iff_holding v).mp hvalid
    rw [hvx] at hc hfit ⊢
    rcases call_holding E c xs _ hxs l hc hfit hr with ⟨ys, cap1, l1, h1, _⟩ | ⟨s, l1, h1, _⟩
    · rw [h1]; rfl
    · rw [h1]; rfl

/-- C20, on `int`: `v[2]` and `Insert` at position 1 on `[1, 2, 3]` in a block of capacity
3. -/
theorem C20_assertions_hold_witness :
    (Vector.holding ([1, 2, 3] : List Int) 3).Size
        ≤ (Vector.holding ([1, 2, 3] : List Int) 3).Capacity
    ∧ (Vector.holding ([1, 2, 3] : List Int) 3).subscript 2 = some 2
    ∧ (Call.Insert 1 (.val 9)).sound (Vector.holding ([1, 2, 3] : List Int) 3) = true
    ∧ (Call.Insert 1 (.val 9)).allocates (Vector.holding ([1, 2, 3] : List Int) 3)
        * intElem.sizeof ≤ SIZE_MAX
    ∧ (Vector.holding [1, 2, 3] 3).call intElem (.Insert 1 (.val 9)) [] ≠ .assertFailed
    ∧ ((Vector.holding [1, 2, 3] 3).call intElem (.Insert 1 (.val 9)) []).completes = true :=
  have h := C20_assertions_hold intElem (Vector.holding [1, 2, 3] 3) (by decide)
  ⟨by decide, h.1 2 (by decide), by decide, by decide,
    h.2.1 (.Insert 1 (.val 9)) [] (by decide),
    h.2.2.2 ((valid_iff_holding _).mpr ⟨[1, 2, 3], by decide, rfl⟩) (.Insert 1 (.val 9)) []
      (by decide) (by decide) (fun _ h => by cases h)⟩

end VectorH
